import Mathlib

/-!
# Piccolo `Level`: object registry, lifecycle and maze generator

A shallow embedding of `engine/source/runtime/function/framework/level/level.cpp`.
Each definition carries the name of the C++ function (or loop) it embeds.  Collaborators whose
code lives in other translation units (asset manager, physics manager, identity allocator,
`GObject`, `Character`) are modelled at their interface and marked as such.
-/

namespace Piccolo

/-! ## Data model -/

/-- `GObjectID`: an unsigned integer identity; `level.cpp` only compares identities and uses
them as keys. -/
abbrev GObjectID := Nat

/-- `Vector3`.  Every coordinate computed in `level.cpp` is an exact `int` expression, so
components are kept as integers. -/
structure Vector3 where
  x : Int
  y : Int
  z : Int
deriving DecidableEq, Repr

/-- `Quaternion`, kept symbolic: a default-constructed quaternion or the result of
`fromAngleAxis(Radian(Degree(90.0)), Vector3(0, 0, 1))`. -/
inductive Quaternion where
  | identity
  | angleAxisZ90
deriving DecidableEq, Repr

/-- Modelled from the spec: `ObjectInstanceRes` (declared in `res_type/common/object.h`), the
object instance descriptor with the two members `level.cpp` uses: name and definition
reference. -/
structure ObjectInstanceRes where
  m_name : String
  m_definition : String
deriving DecidableEq, Repr

/-- Modelled from the spec: `LevelRes` (declared in `res_type/common/level.h`): gravity,
designated character name, ordered object descriptors. -/
structure LevelRes where
  m_gravity : Vector3
  m_character_name : String
  m_objects : List ObjectInstanceRes
deriving DecidableEq, Repr

/-- Modelled from the spec: `GObject` (declared in `object.h`, not in this file).  A scene object
holds its identity, the name and definition reference it was initialised from, and the
position/orientation of its transform component. -/
structure GObject where
  m_id : GObjectID
  m_name : String
  m_definition_url : String
  m_position : Vector3
  m_rotation : Quaternion
deriving DecidableEq, Repr

/-- Modelled from the spec: `Character` (declared in `character.h`).  It wraps one scene object
reference; `none` is the null reference. -/
structure Character where
  m_character_object : Option GObject
deriving DecidableEq, Repr

/-- `LevelObjectsMap = std::unordered_map<GObjectID, std::shared_ptr<GObject>>`, kept as an
association list; a value `none` is a null `shared_ptr`.  Iteration visits the list front to
back and `emplace` appends: registry order is insertion order, as the spec has it (C++ leaves
the order unspecified; no statement below depends on it beyond "some registered object"). -/
abbrev LevelObjectsMap := List (GObjectID × Option GObject)

/-- The data members of `Level` that `level.cpp` reads and writes (the class itself is declared
in `level.h`).  `m_physics_scene` is a weak handle: `none` is the empty handle. -/
structure Level where
  m_is_loaded : Bool
  m_level_res_url : String
  m_gobjects : LevelObjectsMap
  m_current_active_character : Option Character
  m_physics_scene : Option Nat
deriving DecidableEq, Repr

/-- Modelled from the spec: the state of the collaborators reached through
`g_runtime_global_context` and the static allocators: the next identity of
`ObjectIDAllocator` (a monotonically increasing counter), the next identity of
`ParticleEmitterIDAllocator`, the live physics scenes with the gravity they were created with,
and the identities queued on the render swap data for deletion. -/
structure Runtime where
  m_next_id : GObjectID
  m_next_particle_id : Nat
  m_scenes : List (Nat × Vector3)
  m_scene_counter : Nat
  m_delete_queue : List GObjectID
deriving DecidableEq, Repr

/-- A level together with the collaborator state its operations read and write. -/
structure World where
  level : Level
  rt : Runtime
deriving DecidableEq, Repr

/-- The parts of the engine that `level.cpp` uses but does not define: the sentinel
`k_invalid_gobject_id`, the outcome of `GObject::load` on a descriptor, the asset manager's
`loadAsset` / `saveAsset`, the gravity of a default-constructed `LevelRes`, and
`g_is_editor_mode`. -/
structure Env where
  k_invalid_gobject_id : GObjectID
  gobjectLoad : ObjectInstanceRes → Bool
  loadAsset : String → Option LevelRes
  saveAsset : LevelRes → String → Bool
  defaultGravity : Vector3
  g_is_editor_mode : Bool

/-- Modelled from the spec: a freshly constructed `Level`, in state Unloaded: not loaded, empty
registry, no character, no physics scene. -/
def Level.fresh : Level :=
  { m_is_loaded := false, m_level_res_url := "", m_gobjects := [],
    m_current_active_character := none, m_physics_scene := none }

/-! ## Collaborators (interfaces only) -/

/-- Modelled from the spec: `ObjectIDAllocator::alloc()` returns the next identity of a
monotonically increasing sequence. -/
def ObjectIDAllocator.alloc (rt : Runtime) : GObjectID × Runtime :=
  (rt.m_next_id, { rt with m_next_id := rt.m_next_id + 1 })

/-- Modelled from the spec: `ParticleEmitterIDAllocator::reset()` restarts the sequence. -/
def ParticleEmitterIDAllocator.reset (rt : Runtime) : Runtime :=
  { rt with m_next_particle_id := 0 }

/-- Modelled from the spec: `PhysicsManager::createPhysicsScene(gravity)` creates a scene and
hands back a weak handle to it. -/
def PhysicsManager.createPhysicsScene (rt : Runtime) (gravity : Vector3) : Option Nat × Runtime :=
  (some rt.m_scene_counter,
   { rt with m_scenes := rt.m_scenes ++ [(rt.m_scene_counter, gravity)],
             m_scene_counter := rt.m_scene_counter + 1 })

/-- Modelled from the spec: `PhysicsManager::deletePhysicsScene(handle)` destroys the scene the
handle refers to, if it is still alive. -/
def PhysicsManager.deletePhysicsScene (rt : Runtime) (scene : Option Nat) : Runtime :=
  match scene with
  | none => rt
  | some h => { rt with m_scenes := rt.m_scenes.filter (fun p => p.1 != h) }

/-- Modelled from the spec: `m_physics_scene.lock()` succeeds while the scene is alive. -/
def PhysicsManager.lock (rt : Runtime) (scene : Option Nat) : Bool :=
  match scene with
  | none => false
  | some h => rt.m_scenes.any (fun p => p.1 == h)

/-- Modelled from the spec: `addDeleteGameObject` queues an identity on the render swap data. -/
def RenderSwapContext.addDeleteGameObject (rt : Runtime) (go_id : GObjectID) : Runtime :=
  { rt with m_delete_queue := rt.m_delete_queue ++ [go_id] }

/-- Modelled from the spec: `std::make_shared<GObject>(object_id)`, an object that holds only
its identity. -/
def GObject.create (object_id : GObjectID) : GObject :=
  { m_id := object_id, m_name := "", m_definition_url := "",
    m_position := ⟨0, 0, 0⟩, m_rotation := Quaternion.identity }

/-- Modelled from the spec: `GObject::load` initialises the object from the descriptor and
reports success or failure (the outcome is the collaborator's, `Env.gobjectLoad`). -/
def GObject.load (env : Env) (self : GObject) (res : ObjectInstanceRes) : Bool × GObject :=
  (env.gobjectLoad res, { self with m_name := res.m_name, m_definition_url := res.m_definition })

/-- Modelled from the spec: `GObject::save` writes the object back into a descriptor. -/
def GObject.save (self : GObject) (_out : ObjectInstanceRes) : ObjectInstanceRes :=
  { m_name := self.m_name, m_definition := self.m_definition_url }

/-- Modelled from the spec: `Character::getObjectID()`, the identity of the wrapped object
(the invalid identity when nothing is wrapped). -/
def Character.getObjectID (env : Env) (c : Character) : GObjectID :=
  match c.m_character_object with
  | some o => o.m_id
  | none => env.k_invalid_gobject_id

/-- Modelled from the spec: `Character::setObject(nullOrObject)`. -/
def Character.setObject (_c : Character) (o : Option GObject) : Character :=
  { m_character_object := o }

/-- The object the active-character binding currently wraps, if any. -/
def Level.activeObject (lv : Level) : Option GObject :=
  match lv.m_current_active_character with
  | some c => c.m_character_object
  | none => none

/-! ## `unordered_map` operations used by `level.cpp` -/

/-- `m_gobjects.find(go_id)`: the mapped value of the entry with that key. -/
def LevelObjectsMap.find (m : LevelObjectsMap) (go_id : GObjectID) : Option (Option GObject) :=
  match m with
  | [] => none
  | (k, v) :: rest => if k = go_id then some v else LevelObjectsMap.find rest go_id

/-- `m_gobjects.emplace(id, object)`: inserts unless the key is already present. -/
def LevelObjectsMap.emplace (m : LevelObjectsMap) (go_id : GObjectID) (v : Option GObject) :
    LevelObjectsMap :=
  match LevelObjectsMap.find m go_id with
  | some _ => m
  | none => m ++ [(go_id, v)]

/-- `m_gobjects.erase(go_id)`. -/
def LevelObjectsMap.erase (m : LevelObjectsMap) (go_id : GObjectID) : LevelObjectsMap :=
  m.filter (fun p => p.1 != go_id)

/-! ## Registry and lifecycle operations -/

/-- `Level::clear`. -/
def Level.clear (w : World) : World :=
  { level := { w.level with m_current_active_character := none, m_gobjects := [] },
    rt := PhysicsManager.deletePhysicsScene w.rt w.level.m_physics_scene }

/-- `Level::createObject`.  `ASSERT` is compiled out (release build); the `bad_alloc` path is
fatal and not modelled. -/
def Level.createObject (env : Env) (object_instance_res : ObjectInstanceRes) (w : World) :
    GObjectID × World :=
  let (object_id, rt1) := ObjectIDAllocator.alloc w.rt
  let gobject0 := GObject.create object_id
  let (is_loaded, gobject) := GObject.load env gobject0 object_instance_res
  if is_loaded then
    (object_id,
     { level := { w.level with
                  m_gobjects := LevelObjectsMap.emplace w.level.m_gobjects object_id (some gobject) },
       rt := rt1 })
  else
    (env.k_invalid_gobject_id, { level := w.level, rt := rt1 })

/-- The loop `for (const auto& object_pair : m_gobjects)` of `Level::load`: null entries are
skipped, the first object whose name equals the character name is wrapped, then `break`. -/
def Level.loadCharacterLoop (character_name : String) :
    LevelObjectsMap → Option Character → Option Character
  | [], c => c
  | (_, none) :: rest, c => Level.loadCharacterLoop character_name rest c
  | (_, some object) :: rest, c =>
    if character_name = object.m_name then some { m_character_object := some object }
    else Level.loadCharacterLoop character_name rest c

/-- The loop `for (... : level_res.m_objects) createObject(...)` of `Level::load`. -/
def Level.createObjects (env : Env) : List ObjectInstanceRes → World → World
  | [], w => w
  | r :: rest, w => Level.createObjects env rest (Level.createObject env r w).2

/-- `Level::load`. -/
def Level.load (env : Env) (level_res_url : String) (w : World) : Bool × World :=
  let lv1 := { w.level with m_level_res_url := level_res_url }
  match env.loadAsset level_res_url with
  | none => (false, { level := lv1, rt := w.rt })
  | some level_res =>
    let (scene, rt1) := PhysicsManager.createPhysicsScene w.rt level_res.m_gravity
    let rt2 := ParticleEmitterIDAllocator.reset rt1
    let w3 := Level.createObjects env level_res.m_objects
      { level := { lv1 with m_physics_scene := scene }, rt := rt2 }
    let character := Level.loadCharacterLoop level_res.m_character_name
      w3.level.m_gobjects w3.level.m_current_active_character
    (true, { level := { w3.level with m_current_active_character := character,
                                      m_is_loaded := true },
             rt := w3.rt })

/-- `Level::unload`. -/
def Level.unload (w : World) : World := Level.clear w

/-- The loop of `Level::save` over the registry: every non-null object is saved into the next
free slot of the output vector. -/
def Level.saveLoop : LevelObjectsMap → Nat → List ObjectInstanceRes → List ObjectInstanceRes
  | [], _, out => out
  | (_, none) :: rest, object_index, out => Level.saveLoop rest object_index out
  | (_, some object) :: rest, object_index, out =>
    Level.saveLoop rest (object_index + 1)
      (out.set object_index (GObject.save object (out.getD object_index ⟨"", ""⟩)))

/-- `Level::save`: the result flag together with the description handed to `saveAsset`. -/
def Level.save (env : Env) (w : World) : Bool × LevelRes :=
  let object_cout := w.level.m_gobjects.length
  let output_objects := Level.saveLoop w.level.m_gobjects 0 (List.replicate object_cout ⟨"", ""⟩)
  let output_level_res : LevelRes :=
    { m_gravity := env.defaultGravity, m_character_name := "", m_objects := output_objects }
  (env.saveAsset output_level_res w.level.m_level_res_url, output_level_res)

/-- What one call of `Level::tick` did: whether it left at the `m_is_loaded` guard, which
objects it ticked (in order), whether it ticked the character and the physics scene. -/
structure TickReport where
  returned_at_guard : Bool
  ticked_objects : List GObjectID
  ticked_character : Bool
  ticked_physics : Bool
deriving DecidableEq, Repr

/-- `Level::tick`. -/
def Level.tick (env : Env) (w : World) : TickReport :=
  if !w.level.m_is_loaded then
    { returned_at_guard := true, ticked_objects := [], ticked_character := false,
      ticked_physics := false }
  else
    { returned_at_guard := false,
      ticked_objects := w.level.m_gobjects.filterMap (fun p => p.2.map (fun o => o.m_id)),
      ticked_character :=
        w.level.m_current_active_character.isSome && (env.g_is_editor_mode == false),
      ticked_physics := PhysicsManager.lock w.rt w.level.m_physics_scene }

/-- `Level::getGObjectByID`: `none` is the empty `weak_ptr`. -/
def Level.getGObjectByID (lv : Level) (go_id : GObjectID) : Option GObject :=
  match LevelObjectsMap.find lv.m_gobjects go_id with
  | some v => v
  | none => none

/-- `Level::deleteGObjectByID`. -/
def Level.deleteGObjectByID (env : Env) (go_id : GObjectID) (lv : Level) : Level :=
  let character :=
    match LevelObjectsMap.find lv.m_gobjects go_id with
    | some (some object) =>
      match lv.m_current_active_character with
      | some c =>
        if Character.getObjectID env c = object.m_id then some (Character.setObject c none)
        else some c
      | none => none
    | _ => lv.m_current_active_character
  { lv with m_current_active_character := character,
            m_gobjects := LevelObjectsMap.erase lv.m_gobjects go_id }

/-! ## Maze generator -/

/-- `const int cols = 5;` -/
def cols : Nat := 5

/-- `const int rows = 8;` -/
def rows : Nat := 8

/-- A counted loop `for (int i = lo; i < lo + n; i++) s = body(i, s)`. -/
def forLoop {σ : Type} (body : Nat → σ → σ) : Nat → Nat → σ → σ
  | 0, _, s => s
  | n + 1, i, s => forLoop body n (i + 1) (body i s)

/-- The loop `for (int i = 0; i < hi; i++)`. -/
def forRange {σ : Type} (hi : Nat) (body : Nat → σ → σ) (s : σ) : σ :=
  forLoop body hi 0 s

/-- A counted loop whose body may `break`: the body returns the new state and whether it left
the loop. -/
def forLoopBreak {σ : Type} (body : Nat → σ → σ × Bool) : Nat → Nat → σ → σ
  | 0, _, s => s
  | n + 1, i, s =>
    match body i s with
    | (s1, true) => s1
    | (s1, false) => forLoopBreak body n (i + 1) s1

/-- The loop `for (int i = 0; i < hi; i++)` with a `break` in its body. -/
def forRangeBreak {σ : Type} (hi : Nat) (body : Nat → σ → σ × Bool) (s : σ) : σ :=
  forLoopBreak body hi 0 s

/-- The two local arrays `int mazeTypes[rows][cols]` and `bool mazeDoors[rows][cols][4]`,
as functions of their indices. -/
structure MazeGrid where
  mazeTypes : Nat → Nat → Nat
  mazeDoors : Nat → Nat → Nat → Bool

/-- The assignment `mazeTypes[i][j] = v`. -/
def setType (t : Nat → Nat → Nat) (i j v : Nat) : Nat → Nat → Nat :=
  fun a b => if a = i ∧ b = j then v else t a b

/-- The assignment `mazeDoors[i][j][k] = v`. -/
def setDoor (d : Nat → Nat → Nat → Bool) (i j k : Nat) (v : Bool) : Nat → Nat → Nat → Bool :=
  fun a b c => if a = i ∧ b = j ∧ c = k then v else d a b c

/-- Ghost record of one execution of the body of the carving loop: the cell, the candidate
directions found, the direction opened (`none` when the body left through `break`) and the
grid before and after the body. -/
structure CarveStep where
  i : Nat
  j : Nat
  candidateDoorDir : List Nat
  openDoorDir : Option Nat
  before : MazeGrid
  after : MazeGrid

/-- State threaded through the carving loop: the two arrays, the number of `std::rand()` calls
made so far, and the ghost trace of body executions. -/
structure MazeState where
  grid : MazeGrid
  randCalls : Nat
  trace : List CarveStep

/-- The initialisation loops (lines 168-178): every cell gets its linear index as label and
four closed doors. -/
def initMaze : MazeGrid :=
  forRange rows (fun i g =>
    forRange cols (fun j g =>
      let g1 : MazeGrid := { g with mazeTypes := setType g.mazeTypes i j (cols * i + j) }
      forRange 4 (fun k g => { g with mazeDoors := setDoor g.mazeDoors i j k false }) g1) g)
    { mazeTypes := fun _ _ => 0, mazeDoors := fun _ _ _ => false }

/-- The four tests that fill `candidateDoorDir` (lines 183-203). -/
def candidateDoors (mazeTypes : Nat → Nat → Nat) (i j : Nat) : List Nat :=
  let c0 : List Nat := []
  let c1 := if i > 0 ∧ mazeTypes i j ≠ mazeTypes (i - 1) j then c0 ++ [0] else c0
  let c2 := if j < cols - 1 ∧ mazeTypes i j ≠ mazeTypes i (j + 1) then c1 ++ [1] else c1
  let c3 := if i < rows - 1 ∧ mazeTypes i j ≠ mazeTypes (i + 1) j then c2 ++ [2] else c2
  let c4 := if j > 0 ∧ mazeTypes i j ≠ mazeTypes i (j - 1) then c3 ++ [3] else c3
  c4

/-- The relabelling loops (lines 235-244): every cell labelled `oldRoomID` gets `newRoomID`. -/
def relabel (oldRoomID newRoomID : Nat) (g : MazeGrid) : MazeGrid :=
  forRange rows (fun ii g =>
    forRange cols (fun jj g =>
      if g.mazeTypes ii jj = oldRoomID then
        { g with mazeTypes := setType g.mazeTypes ii jj newRoomID }
      else g) g) g

/-- Lines 212-232: open the door on the current cell and the mirrored door on the neighbour,
and read the neighbour's label.  The `if / else if` chain has no final `else`; for a direction
outside `0..3` (never produced) `newRoomID` stays uninitialised, rendered here as `0`. -/
def openDoor (g : MazeGrid) (i j openDoorDir : Nat) : MazeGrid × Nat :=
  let g1 : MazeGrid := { g with mazeDoors := setDoor g.mazeDoors i j openDoorDir true }
  if openDoorDir = 0 then
    ({ g1 with mazeDoors := setDoor g1.mazeDoors (i - 1) j 2 true }, g1.mazeTypes (i - 1) j)
  else if openDoorDir = 1 then
    ({ g1 with mazeDoors := setDoor g1.mazeDoors i (j + 1) 3 true }, g1.mazeTypes i (j + 1))
  else if openDoorDir = 2 then
    ({ g1 with mazeDoors := setDoor g1.mazeDoors (i + 1) j 0 true }, g1.mazeTypes (i + 1) j)
  else if openDoorDir = 3 then
    ({ g1 with mazeDoors := setDoor g1.mazeDoors i (j - 1) 1 true }, g1.mazeTypes i (j - 1))
  else (g1, 0)

/-- The body of the carving loop for cell `(i, j)` (lines 183-244).  The flag is `true` when
the body leaves the column loop through `break`.  `rand n` is the value returned by the
`n`-th call of `std::rand()`. -/
def carveCell (rand : Nat → Nat) (i j : Nat) (s : MazeState) : MazeState × Bool :=
  let candidateDoorDir := candidateDoors s.grid.mazeTypes i j
  if h : candidateDoorDir.length = 0 then
    ({ s with trace := s.trace ++ [⟨i, j, candidateDoorDir, none, s.grid, s.grid⟩] }, true)
  else
    let openDoorDir := candidateDoorDir.get
      ⟨rand s.randCalls % candidateDoorDir.length, Nat.mod_lt _ (Nat.pos_of_ne_zero h)⟩
    let opened := openDoor s.grid i j openDoorDir
    let newRoomID := opened.2
    let oldRoomID := opened.1.mazeTypes i j
    let g := relabel oldRoomID newRoomID opened.1
    ({ grid := g, randCalls := s.randCalls + 1,
       trace := s.trace ++ [⟨i, j, candidateDoorDir, some openDoorDir, s.grid, g⟩] }, false)

/-- The carving loops (lines 179-246) run on the freshly initialised arrays. -/
def carve (rand : Nat → Nat) : MazeState :=
  forRange rows (fun i s => forRangeBreak cols (fun j s => carveCell rand i j s) s)
    { grid := initMaze, randCalls := 0, trace := [] }

/-- The descriptor built for wall number `wallNum` (the four blocks of lines 254-288 differ
only in `wallNum`). -/
def wallRes (wallNum : Nat) : ObjectInstanceRes :=
  { m_name := "Wall_" ++ toString wallNum,
    m_definition := "asset/objects/environment/wall/wall.object.json" }

/-- The wall-emission loops (lines 249-290), generic in what `createObject(Wall)` does to the
state: `create wallNum` stands for building the descriptor of that number and creating it. -/
def emitWallsWith {σ : Type} (create : Nat → σ → σ) (mazeDoors : Nat → Nat → Nat → Bool)
    (s : σ) : σ :=
  forRange rows (fun i s =>
    forRange cols (fun j s =>
      let s1 := if !mazeDoors i j 0 then create (i * (2 * cols + 1) + j) s else s
      let s2 := if !mazeDoors i j 3 then create (i * (2 * cols + 1) + j + cols) s1 else s1
      let s3 := if j = cols - 1 then create (i * (2 * cols + 1) + j + cols + 1) s2 else s2
      let s4 := if i = rows - 1 then create (i * (2 * cols + 1) + j + 2 * cols + 1) s3 else s3
      s4) s) s

/-- The wall-emission pass on the level: every emitted wall is a `createObject` call. -/
def Level.emitWalls (env : Env) (mazeDoors : Nat → Nat → Nat → Bool) (w : World) : World :=
  emitWallsWith (fun wallNum w => (Level.createObject env (wallRes wallNum) w).2) mazeDoors w

/-- The wall numbers of the emission pass, in emission order (the same loops, logging
`wallNum` instead of creating the object). -/
def emittedWallNums (mazeDoors : Nat → Nat → Nat → Bool) : List Nat :=
  emitWallsWith (fun wallNum l => l ++ [wallNum]) mazeDoors []

/-- Lines 312-334: the transform written to the wall whose name carries index `i`.  The
arithmetic is C++ `int` arithmetic (division truncates toward zero). -/
def placeWall (i : Nat) (object : GObject) : GObject :=
  let rowNum : Int := Int.tdiv (i : Int) (2 * (cols : Int) + 1)
  let colNum : Int := Int.tmod (i : Int) (2 * (cols : Int) + 1)
  if colNum < (cols : Int) then
    { object with
      m_position :=
        ⟨-10 - Int.tdiv (10 * ((rows : Int) - 1)) 2 + rowNum * 10,
         Int.tdiv (-10 * ((cols : Int) - 1)) 2 + colNum * 10, 0⟩,
      m_rotation := Quaternion.identity }
  else
    let colNum := colNum - (cols : Int)
    { object with
      m_position :=
        ⟨-5 - Int.tdiv (10 * ((rows : Int) - 1)) 2 + rowNum * 10,
         -5 - Int.tdiv (10 * ((cols : Int) - 1)) 2 + colNum * 10, 0⟩,
      m_rotation := Quaternion.angleAxisZ90 }

/-- The placement loop (lines 293-337) over the registry: null entries are skipped, an object
named "Player" becomes the active character, every other object is compared with each wall
name and placed when it matches (its transform component is taken to exist). -/
def Level.placeObjects : LevelObjectsMap → Option Character → LevelObjectsMap × Option Character
  | [], c => ([], c)
  | (go_id, none) :: rest, c =>
    let r := Level.placeObjects rest c
    ((go_id, none) :: r.1, r.2)
  | (go_id, some object) :: rest, c =>
    if "Player" = object.m_name then
      let r := Level.placeObjects rest (some { m_character_object := some object })
      ((go_id, some object) :: r.1, r.2)
    else
      let placed := forRange (rows * (2 * cols + 1) + cols)
        (fun i o => if "Wall_" ++ toString i = o.m_name then placeWall i o else o) object
      let r := Level.placeObjects rest c
      ((go_id, some placed) :: r.1, r.2)

/-- The deletion loop at the head of `generateMaze` (lines 142-151): while the registry is not
empty, queue its first identity on the render swap data and delete it.  The count bounds the
number of iterations. -/
def Level.deleteAllLoop (env : Env) : Nat → World → World
  | 0, w => w
  | n + 1, w =>
    match w.level.m_gobjects with
    | [] => w
    | (go_id, _) :: _ =>
      Level.deleteAllLoop env n
        { level := Level.deleteGObjectByID env go_id w.level,
          rt := RenderSwapContext.addDeleteGameObject w.rt go_id }

/-- `Level::generateMaze`. -/
def Level.generateMaze (env : Env) (rand : Nat → Nat) (w : World) : World :=
  let w1 := Level.deleteAllLoop env w.level.m_gobjects.length w
  let Ground : ObjectInstanceRes :=
    { m_name := "Ground", m_definition := "asset/objects/environment/floor/floor.object.json" }
  let w2 := (Level.createObject env Ground w1).2
  let Player : ObjectInstanceRes :=
    { m_name := "Player", m_definition := "asset/objects/character/player/player.object.json" }
  let w3 := (Level.createObject env Player w2).2
  let maze := carve rand
  let w4 := Level.emitWalls env maze.grid.mazeDoors w3
  let r := Level.placeObjects w4.level.m_gobjects w4.level.m_current_active_character
  { level := { w4.level with m_gobjects := r.1, m_current_active_character := r.2 }, rt := w4.rt }


/-! ## The door graph of a maze grid -/

/-- A cell `(i, j)` of the `rows × cols` grid. -/
def InGrid (c : Nat × Nat) : Prop := c.1 < rows ∧ c.2 < cols

instance (c : Nat × Nat) : Decidable (InGrid c) := by
  unfold InGrid; exact inferInstance

/-- The cell next to `c` in direction `k` (0 = north `[i-1][j]`, 1 = east `[i][j+1]`,
2 = south `[i+1][j]`, 3 = west `[i][j-1]`, as in lines 213-232), when it lies in the grid. -/
def neighbor (c : Nat × Nat) (k : Nat) : Option (Nat × Nat) :=
  if k = 0 then (if c.1 > 0 then some (c.1 - 1, c.2) else none)
  else if k = 1 then (if c.2 + 1 < cols then some (c.1, c.2 + 1) else none)
  else if k = 2 then (if c.1 + 1 < rows then some (c.1 + 1, c.2) else none)
  else if k = 3 then (if c.2 > 0 then some (c.1, c.2 - 1) else none)
  else none

/-- The direction opposite to `k`. -/
def opposite (k : Nat) : Nat := (k + 2) % 4

/-- An open door leads from cell `a` to the adjacent cell `b`. -/
def DoorStep (mazeDoors : Nat → Nat → Nat → Bool) (a b : Nat × Nat) : Prop :=
  InGrid a ∧ ∃ k, k < 4 ∧ mazeDoors a.1 a.2 k = true ∧ neighbor a k = some b

instance (mazeDoors : Nat → Nat → Nat → Bool) (a b : Nat × Nat) :
    Decidable (DoorStep mazeDoors a b) := by
  unfold DoorStep; exact inferInstance

/-- Cell `b` can be reached from cell `a` through open doors. -/
def Reach (mazeDoors : Nat → Nat → Nat → Bool) (a b : Nat × Nat) : Prop :=
  Relation.ReflTransGen (DoorStep mazeDoors) a b

/-- The open-door graph is connected: every cell of the grid reaches every other. -/
def MazeConnected (mazeDoors : Nat → Nat → Nat → Bool) : Prop :=
  ∀ a b, InGrid a → InGrid b → Reach mazeDoors a b

/-- The edges of the open-door graph, one per pair of adjacent cells: a pair is listed at its
western cell with direction 1 (east) or at its northern cell with direction 2 (south). -/
def openEdges (mazeDoors : Nat → Nat → Nat → Bool) : Finset ((Nat × Nat) × Nat) :=
  ((Finset.range rows ×ˢ Finset.range cols) ×ˢ ({1, 2} : Finset Nat)).filter
    (fun e => mazeDoors e.1.1 e.1.2 e.2 = true)

/-- The flag of cell `(i, j)` in direction `k` agrees with its neighbour: it equals the
neighbour's flag in the opposite direction when the neighbour lies in the grid, and is not set
when it points out of the grid. -/
def DoorAgrees (mazeDoors : Nat → Nat → Nat → Bool) (i j k : Nat) : Prop :=
  match neighbor (i, j) k with
  | some b => mazeDoors i j k = mazeDoors b.1 b.2 (opposite k)
  | none => mazeDoors i j k = false

instance (mazeDoors : Nat → Nat → Nat → Bool) (i j k : Nat) :
    Decidable (DoorAgrees mazeDoors i j k) := by
  unfold DoorAgrees
  cases neighbor (i, j) k <;> exact inferInstance

/-- Door symmetry on a grid: every flag of every cell agrees with its neighbour. -/
def DoorsSymmetric (mazeDoors : Nat → Nat → Nat → Bool) : Prop :=
  ∀ i, i < rows → ∀ j, j < cols → ∀ k, k < 4 → DoorAgrees mazeDoors i j k

instance (mazeDoors : Nat → Nat → Nat → Bool) : Decidable (DoorsSymmetric mazeDoors) := by
  unfold DoorsSymmetric; exact inferInstance


/-- Row-major index of a cell, the label it starts with (line 172). -/
def cellIndex (c : Nat × Nat) : Nat := cols * c.1 + c.2


/-- The grid produced by the body of the carving loop at cell `(i, j)` when it opens direction
`k` towards the neighbour `q`: both door flags set, then the relabelling. -/
def carved (g : MazeGrid) (i j k : Nat) (q : Nat × Nat) : MazeGrid :=
  relabel (g.mazeTypes i j) (g.mazeTypes q.1 q.2)
    { g with mazeDoors := setDoor (setDoor g.mazeDoors i j k true) q.1 q.2 (opposite k) true }

/-- The invariant of the carving loop when `p` cells have been processed (the next cell to
process has row-major index `p`):
* every open door flag has a neighbour in the grid, whose mirrored flag is open too;
* an open door only joins cells with the same label;
* cells with the same label are joined by a path of open doors;
* the cells not yet processed carry pairwise different labels;
* every label in use is the label of a cell not yet processed;
* the open-door graph has `p` edges. -/
structure MazeInv (p : Nat) (g : MazeGrid) : Prop where
  mirrored : ∀ a k, InGrid a → k < 4 → g.mazeDoors a.1 a.2 k = true →
    ∃ b, neighbor a k = some b ∧ g.mazeDoors b.1 b.2 (opposite k) = true
  door_label : ∀ a b, DoorStep g.mazeDoors a b → g.mazeTypes a.1 a.2 = g.mazeTypes b.1 b.2
  label_reach : ∀ a b, InGrid a → InGrid b → g.mazeTypes a.1 a.2 = g.mazeTypes b.1 b.2 →
    Reach g.mazeDoors a b
  pending_distinct : ∀ a b, InGrid a → InGrid b → p ≤ cellIndex a → p ≤ cellIndex b →
    g.mazeTypes a.1 a.2 = g.mazeTypes b.1 b.2 → a = b
  pending_label : ∀ a, InGrid a →
    ∃ u, InGrid u ∧ p ≤ cellIndex u ∧ g.mazeTypes u.1 u.2 = g.mazeTypes a.1 a.2
  edge_count : (openEdges g.mazeDoors).card = p


/-- What the trace entry of the `n`-th execution of the loop body (counted from 0) records:
the cell with row-major index `n`; the candidates computed on the grid before; then either a
door opened towards one of the candidates and the grid carved accordingly, or, only at the last
cell, no candidate and the grid unchanged (`break`). -/
def StepOK (n : Nat) (st : CarveStep) : Prop :=
  st.i = n / cols ∧ st.j = n % cols ∧ MazeInv n st.before ∧
  st.candidateDoorDir = candidateDoors st.before.mazeTypes st.i st.j ∧
  ((n < rows * cols - 1 ∧ ∃ k q, st.openDoorDir = some k ∧ k ∈ st.candidateDoorDir ∧
      neighbor (st.i, st.j) k = some q ∧ st.after = carved st.before st.i st.j k q ∧
      MazeInv (n + 1) st.after) ∨
   (n = rows * cols - 1 ∧ st.candidateDoorDir = [] ∧ st.openDoorDir = none ∧
      st.after = st.before))

/-- The trace holds exactly `p` entries and the `n`-th is as `StepOK n` says. -/
def TraceOK (p : Nat) (tr : List CarveStep) : Prop :=
  tr.length = p ∧ ∀ n st, tr[n]? = some st → StepOK n st

/-- The trace is a chain of grids that starts from `g`: every entry starts from the grid the
entry before it left. -/
def TraceChained : MazeGrid → List CarveStep → Prop
  | _, [] => True
  | g, st :: rest => st.before = g ∧ TraceChained st.after rest

/-- The grid at the end of a trace that starts from `g`. -/
def lastGrid : MazeGrid → List CarveStep → MazeGrid
  | g, [] => g
  | _, st :: rest => lastGrid st.after rest

/-- The trace of a state leads from the initialised arrays to the current arrays. -/
def TraceLinked (s : MazeState) : Prop :=
  TraceChained initMaze s.trace ∧ lastGrid initMaze s.trace = s.grid

/-- The loop invariant of the carving loops before the cell with row-major index `p`. -/
def CarveInv (p : Nat) (s : MazeState) : Prop :=
  MazeInv p s.grid ∧ s.randCalls = p ∧ TraceOK p s.trace ∧ TraceLinked s

/-- The state in which the carving loops end: all but the last cell opened a door, the last
cell left through `break`. -/
def CarveDone (s : MazeState) : Prop :=
  MazeInv (rows * cols - 1) s.grid ∧ s.randCalls = rows * cols - 1 ∧
  TraceOK (rows * cols) s.trace ∧ TraceLinked s


/-- The object `createObject` registers under identity `object_id` for descriptor `res`:
constructed with the identity, then initialised from the descriptor. -/
def createdObject (env : Env) (object_id : GObjectID) (res : ObjectInstanceRes) : GObject :=
  (GObject.load env (GObject.create object_id) res).2

/-- The registry entries created for a list of descriptors when identities are handed out
consecutively from `object_id` on. -/
def createdEntries (env : Env) : GObjectID → List ObjectInstanceRes → LevelObjectsMap
  | _, [] => []
  | object_id, r :: rest =>
    (object_id, some (createdObject env object_id r)) :: createdEntries env (object_id + 1) rest

/-- Allocator freshness: every key of the registry was handed out before, so it is below the
allocator's next identity. -/
def KeysBelow (w : World) : Prop :=
  ∀ p ∈ w.level.m_gobjects, p.1 < w.rt.m_next_id


/-! ## Sample inputs -/

/-- A level description with two objects, one of them the designated character. -/
def sampleLevelRes : LevelRes :=
  { m_gravity := ⟨0, 0, -10⟩, m_character_name := "Hero",
    m_objects := [⟨"Hero", "asset/objects/character/player/player.object.json"⟩,
                  ⟨"Ground", "asset/objects/environment/floor/floor.object.json"⟩] }

/-- A description with one object named "Hero", designated as the character. -/
def heroLevelRes : LevelRes :=
  { m_gravity := ⟨0, 0, -10⟩, m_character_name := "Hero",
    m_objects := [⟨"Hero", "asset/objects/character/player/player.object.json"⟩] }

/-- Collaborators for the sample runs: every object initialises, the asset manager knows two
level files, saving succeeds. -/
def sampleEnv : Env :=
  { k_invalid_gobject_id := 18446744073709551615,
    gobjectLoad := fun _ => true,
    loadAsset := fun url =>
      if url = "asset/level/1-1.level.json" then some sampleLevelRes
      else if url = "asset/level/hero.level.json" then some heroLevelRes
      else none,
    saveAsset := fun _ _ => true,
    defaultGravity := ⟨0, 0, -10⟩,
    g_is_editor_mode := false }

/-- A fresh level in a fresh runtime. -/
def sampleWorld : World :=
  { level := Level.fresh,
    rt := { m_next_id := 0, m_next_particle_id := 0, m_scenes := [], m_scene_counter := 0,
            m_delete_queue := [] } }

/-- The descriptor used in the sample runs. -/
def sampleRes : ObjectInstanceRes :=
  ⟨"Hero", "asset/objects/character/player/player.object.json"⟩


/-- The object created for `sampleRes` under identity 0. -/
def heroObject : GObject := createdObject sampleEnv 0 sampleRes

/-- A loaded level whose registry holds `heroObject`, bound as the active character. -/
def boundLevel : Level :=
  { m_is_loaded := true, m_level_res_url := "asset/level/hero.level.json",
    m_gobjects := [(0, some heroObject)],
    m_current_active_character := some { m_character_object := some heroObject },
    m_physics_scene := some 0 }


/-- The world in which `Level::load` starts creating objects: locator stored, physics scene
created from the description's gravity, particle identities reset (lines 60-71). -/
def Level.loadStart (level_res_url : String) (level_res : LevelRes) (w : World) : World :=
  { level := { w.level with
               m_level_res_url := level_res_url,
               m_physics_scene :=
                 (PhysicsManager.createPhysicsScene w.rt level_res.m_gravity).1 },
    rt := ParticleEmitterIDAllocator.reset
      (PhysicsManager.createPhysicsScene w.rt level_res.m_gravity).2 }

/-- The world after the object-creation loop of `Level::load` (lines 73-76). -/
def Level.loadCreated (env : Env) (level_res_url : String) (level_res : LevelRes) (w : World) :
    World :=
  Level.createObjects env level_res.m_objects (Level.loadStart level_res_url level_res w)


/-- The sample run of `load` on the one-object description. -/
def heroLoad : Bool × World :=
  Level.load sampleEnv "asset/level/hero.level.json" sampleWorld


/-- The descriptors the non-null objects of a registry save, in iteration order. -/
def savedObjects (m : LevelObjectsMap) : List ObjectInstanceRes :=
  m.filterMap (fun p => p.2.map (fun o => GObject.save o ⟨"", ""⟩))


/-- The wall numbers the emission pass produces at cell `(i, j)`, in order (lines 254-288). -/
def wallsOfCell (mazeDoors : Nat → Nat → Nat → Bool) (i j : Nat) : List Nat :=
  (if !mazeDoors i j 0 then [i * (2 * cols + 1) + j] else []) ++
  ((if !mazeDoors i j 3 then [i * (2 * cols + 1) + j + cols] else []) ++
  ((if j = cols - 1 then [i * (2 * cols + 1) + j + cols + 1] else []) ++
  (if i = rows - 1 then [i * (2 * cols + 1) + j + 2 * cols + 1] else [])))

/-- The wall numbers of all cells in row-major order. -/
def wallList (mazeDoors : Nat → Nat → Nat → Bool) : List Nat :=
  (List.range' 0 rows).flatMap (fun i =>
    (List.range' 0 cols).flatMap (fun j => wallsOfCell mazeDoors i j))

/-- The world of `boundLevel`: identity 0 has been handed out, the next one is 1. -/
def boundWorld : World :=
  { level := boundLevel,
    rt := { m_next_id := 1, m_next_particle_id := 0, m_scenes := [(0, ⟨0, 0, -10⟩)],
            m_scene_counter := 1, m_delete_queue := [] } }

/-- The random source of the sample run: `std::rand()` always returns 0. -/
def zeroRand : Nat → Nat := fun _ => 0

/-! ## Wall indices and placement -/

/-- Lines 312-313, 317 and 325: the decoding of a wall index into row, column and axis
(`true` for the branch of the vertical edges, which also shifts the column by `cols`). -/
def decodeWall (i : Nat) : Int × Int × Bool :=
  let rowNum : Int := Int.tdiv (i : Int) (2 * (cols : Int) + 1)
  let colNum : Int := Int.tmod (i : Int) (2 * (cols : Int) + 1)
  if colNum < (cols : Int) then (rowNum, colNum, false)
  else (rowNum, colNum - (cols : Int), true)

/-- The emission formulas of lines 256 and 265, in `int` arithmetic: the index of a horizontal
wall (`i * (2 * cols + 1) + j`) and of a vertical wall (`i * (2 * cols + 1) + j + cols`). -/
def encodeWall (rowNum colNum : Int) (vertical : Bool) : Int :=
  if vertical then rowNum * (2 * (cols : Int) + 1) + colNum + (cols : Int)
  else rowNum * (2 * (cols : Int) + 1) + colNum

/-- The four sides for which the emission pass creates walls. -/
inductive WallSide where
  | north
  | west
  | eastBoundary
  | southBoundary
deriving DecidableEq, Repr

/-- The wall number the emission pass computes for a side of cell `(i, j)` (lines 256, 265,
274 and 283). -/
def wallNumOf (side : WallSide) (i j : Nat) : Nat :=
  match side with
  | WallSide.north => i * (2 * cols + 1) + j
  | WallSide.west => i * (2 * cols + 1) + j + cols
  | WallSide.eastBoundary => i * (2 * cols + 1) + j + cols + 1
  | WallSide.southBoundary => i * (2 * cols + 1) + j + 2 * cols + 1

/-- The (cell, side) pairs the emission pass can create a wall for: the north and west side
of every cell, the east side of the cells of the last column, the south side of the cells of
the last row. -/
def WallSlot (side : WallSide) (i j : Nat) : Prop :=
  i < rows ∧ j < cols ∧
    match side with
    | WallSide.north => True
    | WallSide.west => True
    | WallSide.eastBoundary => j = cols - 1
    | WallSide.southBoundary => i = rows - 1

/-- The object the placement loop leaves for `object`: the loop of lines 308-336 over all wall
indices. -/
def placedObject (object : GObject) : GObject :=
  forRange (rows * (2 * cols + 1) + cols)
    (fun i o => if "Wall_" ++ toString i = o.m_name then placeWall i o else o) object

/-- The x coordinates the placement pass assigns to the wall indices `0 .. 92`. -/
def wallXs : List Int :=
  (List.range (rows * (2 * cols + 1) + cols)).map
    (fun n => (placeWall n (GObject.create 0)).m_position.x)

/-- The y coordinates the placement pass assigns to the wall indices `0 .. 92`. -/
def wallYs : List Int :=
  (List.range (rows * (2 * cols + 1) + cols)).map
    (fun n => (placeWall n (GObject.create 0)).m_position.y)

/-- The number a list of decimal digit characters stands for. -/
def digitsValue (l : List Char) : Nat :=
  l.foldl (fun acc c => 10 * acc + (c.toNat - 48)) 0

/-- The names of the non-null objects of a registry, in iteration order. -/
def registryNames (m : LevelObjectsMap) : List String :=
  m.filterMap (fun p => p.2.map (fun o => o.m_name))

/-! ## Cycles of the door graph -/

/-- An open door leads from `x` to `y`, and it is not the door between `a` and `b`. -/
def DoorStepAvoiding (mazeDoors : Nat → Nat → Nat → Bool) (a b x y : Nat × Nat) : Prop :=
  DoorStep mazeDoors x y ∧ ¬ (x = a ∧ y = b) ∧ ¬ (x = b ∧ y = a)

/-- Every open door is a bridge of the door graph: once the door from `a` to `b` is left out,
no path of open doors leads from `b` back to `a`. -/
def DoorsForest (mazeDoors : Nat → Nat → Nat → Bool) : Prop :=
  ∀ a b, DoorStep mazeDoors a b →
    ¬ Relation.ReflTransGen (DoorStepAvoiding mazeDoors a b) b a

/-- A cycle of the door graph: at least three pairwise different cells, each joined to the
next by an open door and the last joined to the first. -/
def DoorCycle (mazeDoors : Nat → Nat → Nat → Bool) (l : List (Nat × Nat)) : Prop :=
  3 ≤ l.length ∧ l.Nodup ∧ List.Chain' (DoorStep mazeDoors) l ∧
  ∃ a b, l.head? = some a ∧ l.getLast? = some b ∧ DoorStep mazeDoors b a

/-- The door graph has no cycle. -/
def DoorsAcyclic (mazeDoors : Nat → Nat → Nat → Bool) : Prop :=
  ∀ l, ¬ DoorCycle mazeDoors l

/-- The arrays after `n` executions of the body of the carving loop, read off the trace (the
initialised arrays for `n = 0`, the final arrays once `n` reaches the number of executions). -/
def gridAfter (rand : Nat → Nat) (n : Nat) : MazeGrid :=
  lastGrid initMaze ((carve rand).trace.take n)

/-- The wall number of the grid edge a door edge of `openEdges` lies on: for an east door of
`(i, j)` the west wall of `(i, j + 1)`, for a south door of `(i, j)` the north wall of
`(i + 1, j)` (the numbers of lines 256 and 265). -/
def doorWall (e : (Nat × Nat) × Nat) : Nat :=
  if e.2 = 1 then e.1.1 * (2 * cols + 1) + (e.1.2 + 1) + cols
  else (e.1.1 + 1) * (2 * cols + 1) + e.1.2

/-! ## Stages of `generateMaze`, registry invariants, operation sequences -/

/-- The descriptor `Ground` built in lines 153-155. -/
def Ground : ObjectInstanceRes :=
  { m_name := "Ground", m_definition := "asset/objects/environment/floor/floor.object.json" }

/-- The descriptor `Player` built in lines 158-160. -/
def Player : ObjectInstanceRes :=
  { m_name := "Player", m_definition := "asset/objects/character/player/player.object.json" }

/-- The world after the deletion loop of `generateMaze` (lines 142-151). -/
def Level.mazeCleared (env : Env) (w : World) : World :=
  Level.deleteAllLoop env w.level.m_gobjects.length w

/-- The world after `createObject(Ground)` (line 156). -/
def Level.mazeGround (env : Env) (w : World) : World :=
  (Level.createObject env Ground (Level.mazeCleared env w)).2

/-- The call `createObject(Player)` of line 161: the identity it returns and the world it
leaves. -/
def Level.mazePlayer (env : Env) (w : World) : GObjectID × World :=
  Level.createObject env Player (Level.mazeGround env w)

/-- The placement loop (lines 293-337) run on the world the emission pass left: the registry
and the binding it produces are stored back. -/
def Level.mazeFinish (w : World) : World :=
  { level :=
      { w.level with
        m_gobjects :=
          (Level.placeObjects w.level.m_gobjects w.level.m_current_active_character).1,
        m_current_active_character :=
          (Level.placeObjects w.level.m_gobjects w.level.m_current_active_character).2 },
    rt := w.rt }

/-- What the placement loop does to one registry entry: a null entry and an object named
"Player" stay as they are, every other object goes through the wall-name comparisons. -/
def placedEntry (p : GObjectID × Option GObject) : GObjectID × Option GObject :=
  (p.1, p.2.map (fun o => if "Player" = o.m_name then o else placedObject o))

/-- Well-formed registry: every entry holds an object under that object's own identity, and no
key occurs twice. -/
def RegistryOK (m : LevelObjectsMap) : Prop :=
  (∀ p ∈ m, ∃ o : GObject, p = (o.m_id, some o)) ∧ (m.map Prod.fst).Nodup

/-- The active-character binding, if it wraps an object, wraps an object of the registry: the
object's identity is a key and the registry maps it to that same object. -/
def BindingOK (lv : Level) : Prop :=
  ∀ object : GObject, lv.activeObject = some object →
    LevelObjectsMap.find lv.m_gobjects object.m_id = some (some object)

/-- The state-changing operations of `Level` named in the registry invariant. -/
inductive LevelOp where
  | load (level_res_url : String)
  | createObject (object_instance_res : ObjectInstanceRes)
  | deleteGObjectByID (go_id : GObjectID)
  | unload
  | generateMaze (rand : Nat → Nat)

/-- One operation applied to a world. -/
def applyOp (env : Env) (op : LevelOp) (w : World) : World :=
  match op with
  | LevelOp.load level_res_url => (Level.load env level_res_url w).2
  | LevelOp.createObject object_instance_res => (Level.createObject env object_instance_res w).2
  | LevelOp.deleteGObjectByID go_id =>
    { level := Level.deleteGObjectByID env go_id w.level, rt := w.rt }
  | LevelOp.unload => Level.unload w
  | LevelOp.generateMaze rand => Level.generateMaze env rand w

/-- A sequence of operations applied in order. -/
def runOps (env : Env) (ops : List LevelOp) (w : World) : World :=
  ops.foldl (fun w op => applyOp env op w) w


/-! ## Loop rules -/

theorem forLoop_inv {σ : Type} (body : Nat → σ → σ) (P : Nat → σ → Prop) :
    ∀ (n i : Nat) (s : σ), P i s →
      (∀ k s, i ≤ k → k < i + n → P k s → P (k + 1) (body k s)) →
      P (i + n) (forLoop body n i s) := by
  intro n
  induction n with
  | zero => intro i s h0 _; simpa [forLoop] using h0
  | succ n ih =>
    intro i s h0 hs
    have h1 : P (i + 1) (body i s) := hs i s (Nat.le_refl _) (by omega) h0
    have h2 := ih (i + 1) (body i s) h1 (fun k s hk hlt hP => hs k s (by omega) (by omega) hP)
    have e : i + (n + 1) = i + 1 + n := by omega
    rw [e]
    simpa [forLoop] using h2

theorem forRange_inv {σ : Type} (hi : Nat) (body : Nat → σ → σ) (P : Nat → σ → Prop) (s : σ)
    (h0 : P 0 s) (hs : ∀ k s, k < hi → P k s → P (k + 1) (body k s)) :
    P hi (forRange hi body s) := by
  have h := forLoop_inv body P hi 0 s h0 (fun k s _ hlt hP => hs k s (by omega) hP)
  simpa [forRange] using h

theorem forLoopBreak_inv {σ : Type} (body : Nat → σ → σ × Bool) (P : Nat → σ → Prop)
    (Q : σ → Prop) :
    ∀ (n i : Nat) (s : σ), P i s →
      (∀ k s, i ≤ k → k < i + n → P k s →
        ((body k s).2 = false ∧ P (k + 1) (body k s).1) ∨ ((body k s).2 = true ∧ Q (body k s).1)) →
      (∀ s, P (i + n) s → Q s) →
      Q (forLoopBreak body n i s) := by
  intro n
  induction n with
  | zero => intro i s h0 _ hq; exact hq _ (by simpa [forLoopBreak] using h0)
  | succ n ih =>
    intro i s h0 hs hq
    rw [forLoopBreak]
    rcases hs i s (Nat.le_refl _) (by omega) h0 with ⟨hb, hP⟩ | ⟨hb, hQ⟩
    · have hsplit : body i s = ((body i s).1, false) := by rw [← hb]
      rw [hsplit]
      refine ih (i + 1) (body i s).1 hP (fun k s hk hlt hP => hs k s (by omega) (by omega) hP) ?_
      intro s hPs
      exact hq s (by have e : i + (n + 1) = i + 1 + n := by omega
                     rw [e]; exact hPs)
    · have hsplit : body i s = ((body i s).1, true) := by rw [← hb]
      rw [hsplit]
      exact hQ

theorem forRangeBreak_inv {σ : Type} (hi : Nat) (body : Nat → σ → σ × Bool) (P : Nat → σ → Prop)
    (Q : σ → Prop) (s : σ) (h0 : P 0 s)
    (hs : ∀ k s, k < hi → P k s →
      ((body k s).2 = false ∧ P (k + 1) (body k s).1) ∨ ((body k s).2 = true ∧ Q (body k s).1))
    (hq : ∀ s, P hi s → Q s) :
    Q (forRangeBreak hi body s) := by
  unfold forRangeBreak
  refine forLoopBreak_inv body P Q hi 0 s h0 (fun k s _ hlt hP => hs k s (by omega) hP) ?_
  intro s hPs
  exact hq s (by simpa using hPs)


/-! ## Closed forms of the array loops -/

theorem cols_eq : cols = 5 := rfl

theorem rows_eq : rows = 8 := rfl

theorem setType_apply (t : Nat → Nat → Nat) (i j v a b : Nat) :
    setType t i j v a b = if a = i ∧ b = j then v else t a b := rfl

theorem setDoor_apply (d : Nat → Nat → Nat → Bool) (i j k : Nat) (v : Bool) (a b c : Nat) :
    setDoor d i j k v a b c = if a = i ∧ b = j ∧ c = k then v else d a b c := rfl

/-- The relabelling loops leave the doors alone and rewrite exactly the cells of the grid that
carry the old label. -/
theorem relabel_spec (oldRoomID newRoomID : Nat) (g : MazeGrid) :
    (relabel oldRoomID newRoomID g).mazeDoors = g.mazeDoors ∧
    ∀ a b, (relabel oldRoomID newRoomID g).mazeTypes a b =
      if a < rows ∧ b < cols ∧ g.mazeTypes a b = oldRoomID then newRoomID
      else g.mazeTypes a b := by
  unfold relabel
  refine forRange_inv rows _
    (fun ii g1 => g1.mazeDoors = g.mazeDoors ∧
      ∀ a b, g1.mazeTypes a b =
        if a < ii ∧ b < cols ∧ g.mazeTypes a b = oldRoomID then newRoomID
        else g.mazeTypes a b) g ⟨rfl, ?_⟩ ?_
  · intro a b; simp
  · intro ii g1 _ hout
    refine (forRange_inv cols _
      (fun jj g2 => g2.mazeDoors = g.mazeDoors ∧
        ∀ a b, g2.mazeTypes a b =
          if ((a < ii ∧ b < cols) ∨ (a = ii ∧ b < jj)) ∧ g.mazeTypes a b = oldRoomID
          then newRoomID else g.mazeTypes a b) g1 ⟨hout.1, ?_⟩ ?_).imp id ?_
    · intro a b
      rw [hout.2 a b]
      by_cases h1 : a < ii <;> by_cases h2 : b < cols <;> simp [h1, h2]
    · intro jj g2 hjj hin
      have hcur : g2.mazeTypes ii jj = g.mazeTypes ii jj := by
        rw [hin.2 ii jj]; simp
      by_cases hc : g2.mazeTypes ii jj = oldRoomID
      · simp only [hc, if_true]
        refine ⟨hin.1, ?_⟩
        intro a b
        rw [setType_apply, hin.2 a b]
        by_cases hab : a = ii ∧ b = jj
        · obtain ⟨rfl, rfl⟩ := hab
          have : g.mazeTypes a b = oldRoomID := by rw [← hcur]; exact hc
          simp [this]
        · simp only [hab, if_false]
          have e : (a = ii ∧ b < jj + 1) ↔ (a = ii ∧ b < jj) := by
            constructor
            · rintro ⟨h1, h2⟩
              refine ⟨h1, ?_⟩
              have : b ≠ jj := fun hb => hab ⟨h1, hb⟩
              omega
            · rintro ⟨h1, h2⟩; exact ⟨h1, by omega⟩
          exact if_congr (and_congr (or_congr Iff.rfl e.symm) Iff.rfl) rfl rfl
      · simp only [hc, if_false]
        refine ⟨hin.1, ?_⟩
        intro a b
        rw [hin.2 a b]
        by_cases hab : a = ii ∧ b = jj
        · obtain ⟨rfl, rfl⟩ := hab
          have : ¬ g.mazeTypes a b = oldRoomID := by rw [← hcur]; exact hc
          simp [this]
        · have e : (a = ii ∧ b < jj + 1) ↔ (a = ii ∧ b < jj) := by
            constructor
            · rintro ⟨h1, h2⟩
              refine ⟨h1, ?_⟩
              have : b ≠ jj := fun hb => hab ⟨h1, hb⟩
              omega
            · rintro ⟨h1, h2⟩; exact ⟨h1, by omega⟩
          exact if_congr (and_congr (or_congr Iff.rfl e.symm) Iff.rfl) rfl rfl
    · intro hin a b
      rw [hin a b]
      have e : ((a < ii ∧ b < cols) ∨ (a = ii ∧ b < cols)) ↔ (a < ii + 1 ∧ b < cols) := by
        constructor
        · rintro (⟨h1, h2⟩ | ⟨h1, h2⟩)
          · exact ⟨by omega, h2⟩
          · exact ⟨by omega, h2⟩
        · rintro ⟨h1, h2⟩
          by_cases h : a < ii
          · exact Or.inl ⟨h, h2⟩
          · exact Or.inr ⟨by omega, h2⟩
      exact if_congr (by rw [← and_assoc]; exact and_congr e Iff.rfl) rfl rfl

/-- After the initialisation loops every cell of the grid carries its linear index and has its
four doors closed. -/
theorem initMaze_spec :
    (∀ a b, a < rows → b < cols → initMaze.mazeTypes a b = cols * a + b) ∧
    (∀ a b c, initMaze.mazeDoors a b c = false) := by
  unfold initMaze
  refine forRange_inv rows _
    (fun ii (g : MazeGrid) => (∀ a b, a < ii → b < cols → g.mazeTypes a b = cols * a + b) ∧
      (∀ a b c, g.mazeDoors a b c = false)) _ ⟨?_, ?_⟩ ?_
  · intro a b h; omega
  · intro a b c; rfl
  · intro ii g _ hout
    refine (forRange_inv cols _
      (fun jj (g2 : MazeGrid) =>
        (∀ a b, (a < ii ∧ b < cols) ∨ (a = ii ∧ b < jj) → g2.mazeTypes a b = cols * a + b) ∧
        (∀ a b c, g2.mazeDoors a b c = false)) g ⟨?_, hout.2⟩ ?_).imp ?_ id
    · rintro a b (⟨h1, h2⟩ | ⟨_, h2⟩)
      · exact hout.1 a b h1 h2
      · omega
    · intro jj g2 _ hin
      refine forRange_inv 4 _
        (fun _ (g3 : MazeGrid) => (∀ a b, (a < ii ∧ b < cols) ∨ (a = ii ∧ b < jj + 1) →
            g3.mazeTypes a b = cols * a + b) ∧
          (∀ a b c, g3.mazeDoors a b c = false)) _ ⟨?_, hin.2⟩ ?_
      · intro a b hab
        show setType g2.mazeTypes ii jj (cols * ii + jj) a b = _
        rw [setType_apply]
        by_cases h : a = ii ∧ b = jj
        · obtain ⟨rfl, rfl⟩ := h; simp
        · simp only [h, if_false]
          apply hin.1
          rcases hab with h1 | ⟨h1, h2⟩
          · exact Or.inl h1
          · refine Or.inr ⟨h1, ?_⟩
            have : b ≠ jj := fun hb => h ⟨h1, hb⟩
            omega
      · intro k g3 _ h3
        refine ⟨h3.1, ?_⟩
        intro a b c
        show setDoor g3.mazeDoors ii jj k false a b c = false
        rw [setDoor_apply]
        split
        · rfl
        · exact h3.2 a b c
    · intro hin a b h1 h2
      apply hin
      by_cases h : a < ii
      · exact Or.inl ⟨h, h2⟩
      · exact Or.inr ⟨by omega, h2⟩


/-! ## Directions, neighbours, candidates -/

theorem neighbor_some {a b : Nat × Nat} {k : Nat} (h : neighbor a k = some b) :
    (k = 0 ∧ 0 < a.1 ∧ b = (a.1 - 1, a.2)) ∨ (k = 1 ∧ a.2 + 1 < cols ∧ b = (a.1, a.2 + 1)) ∨
    (k = 2 ∧ a.1 + 1 < rows ∧ b = (a.1 + 1, a.2)) ∨ (k = 3 ∧ 0 < a.2 ∧ b = (a.1, a.2 - 1)) := by
  unfold neighbor at h
  split_ifs at h with h0 h0' h1 h1' h2 h2' h3 h3'
  all_goals (injection h with h; subst h; simp_all)

theorem neighbor_lt_four {a b : Nat × Nat} {k : Nat} (h : neighbor a k = some b) : k < 4 := by
  rcases neighbor_some h with ⟨rfl, _⟩ | ⟨rfl, _⟩ | ⟨rfl, _⟩ | ⟨rfl, _⟩ <;> omega

theorem neighbor_inGrid {a b : Nat × Nat} {k : Nat} (ha : InGrid a) (h : neighbor a k = some b) :
    InGrid b := by
  unfold InGrid at *
  rcases neighbor_some h with ⟨_, h1, rfl⟩ | ⟨_, h1, rfl⟩ | ⟨_, h1, rfl⟩ | ⟨_, h1, rfl⟩ <;>
    simp <;> omega

theorem neighbor_back {a b : Nat × Nat} {k : Nat} (ha : InGrid a) (h : neighbor a k = some b) :
    neighbor b (opposite k) = some a := by
  obtain ⟨a1, a2⟩ := a
  unfold InGrid at ha
  simp only [rows_eq, cols_eq] at ha
  rcases neighbor_some h with ⟨rfl, h1, rfl⟩ | ⟨rfl, h1, rfl⟩ | ⟨rfl, h1, rfl⟩ | ⟨rfl, h1, rfl⟩
  · have e : a1 - 1 + 1 = a1 := by simp at h1; omega
    simp [neighbor, opposite, rows_eq, e]; omega
  · simp [neighbor, opposite]
  · simp [neighbor, opposite]
  · have e : a2 - 1 + 1 = a2 := by simp at h1; omega
    simp [neighbor, opposite, cols_eq, e]; omega

theorem opposite_opposite {k : Nat} (hk : k < 4) : opposite (opposite k) = k := by
  unfold opposite; omega

theorem opposite_lt_four (k : Nat) : opposite k < 4 := by
  unfold opposite; omega

theorem neighbor_ne {a b : Nat × Nat} {k : Nat} (h : neighbor a k = some b) : b ≠ a := by
  obtain ⟨a1, a2⟩ := a
  rcases neighbor_some h with ⟨_, h1, rfl⟩ | ⟨_, h1, rfl⟩ | ⟨_, h1, rfl⟩ | ⟨_, h1, rfl⟩ <;>
    simp at h1 ⊢ <;> omega

theorem cellIndex_inj {a b : Nat × Nat} (ha : InGrid a) (hb : InGrid b)
    (h : cellIndex a = cellIndex b) : a = b := by
  obtain ⟨a1, a2⟩ := a
  obtain ⟨b1, b2⟩ := b
  simp only [InGrid, cellIndex, rows_eq, cols_eq] at *
  have h1 : a1 = b1 := by omega
  have h2 : a2 = b2 := by omega
  rw [h1, h2]

theorem mem_pushed_candidates (C0 C1 C2 C3 : Prop) [Decidable C0] [Decidable C1] [Decidable C2]
    [Decidable C3] (k : Nat) :
    k ∈ (let c0 : List Nat := []
         let c1 := if C0 then c0 ++ [0] else c0
         let c2 := if C1 then c1 ++ [1] else c1
         let c3 := if C2 then c2 ++ [2] else c2
         let c4 := if C3 then c3 ++ [3] else c3
         c4) ↔
      (k = 0 ∧ C0) ∨ (k = 1 ∧ C1) ∨ (k = 2 ∧ C2) ∨ (k = 3 ∧ C3) := by
  by_cases c0 : C0 <;> by_cases c1 : C1 <;> by_cases c2 : C2 <;> by_cases c3 : C3 <;>
    simp [c0, c1, c2, c3]

theorem mem_candidateDoors_iff (t : Nat → Nat → Nat) (i j k : Nat) :
    k ∈ candidateDoors t i j ↔
      (k = 0 ∧ i > 0 ∧ t i j ≠ t (i - 1) j) ∨ (k = 1 ∧ j < cols - 1 ∧ t i j ≠ t i (j + 1)) ∨
      (k = 2 ∧ i < rows - 1 ∧ t i j ≠ t (i + 1) j) ∨ (k = 3 ∧ j > 0 ∧ t i j ≠ t i (j - 1)) :=
  mem_pushed_candidates _ _ _ _ k

theorem mem_candidateDoors (t : Nat → Nat → Nat) (i j k : Nat) :
    k ∈ candidateDoors t i j ↔ ∃ b, neighbor (i, j) k = some b ∧ t i j ≠ t b.1 b.2 := by
  rw [mem_candidateDoors_iff]
  constructor
  · rintro (⟨rfl, h1, h2⟩ | ⟨rfl, h1, h2⟩ | ⟨rfl, h1, h2⟩ | ⟨rfl, h1, h2⟩)
    · exact ⟨(i - 1, j), by simp [neighbor, h1], h2⟩
    · refine ⟨(i, j + 1), ?_, h2⟩
      have : j + 1 < cols := by simp only [cols_eq] at *; omega
      simp [neighbor, this]
    · refine ⟨(i + 1, j), ?_, h2⟩
      have : i + 1 < rows := by simp only [rows_eq] at *; omega
      simp [neighbor, this]
    · exact ⟨(i, j - 1), by simp [neighbor, h1], h2⟩
  · rintro ⟨b, hb, hne⟩
    rcases neighbor_some hb with ⟨rfl, h1, rfl⟩ | ⟨rfl, h1, rfl⟩ | ⟨rfl, h1, rfl⟩ | ⟨rfl, h1, rfl⟩
    · exact Or.inl ⟨rfl, h1, hne⟩
    · refine Or.inr (Or.inl ⟨rfl, ?_, hne⟩)
      simp only [cols_eq] at *; omega
    · refine Or.inr (Or.inr (Or.inl ⟨rfl, ?_, hne⟩))
      simp only [rows_eq] at *; omega
    · exact Or.inr (Or.inr (Or.inr ⟨rfl, h1, hne⟩))

theorem openDoor_spec (g : MazeGrid) (i j k : Nat) (q : Nat × Nat)
    (h : neighbor (i, j) k = some q) :
    openDoor g i j k =
      ({ g with mazeDoors :=
          setDoor (setDoor g.mazeDoors i j k true) q.1 q.2 (opposite k) true },
       g.mazeTypes q.1 q.2) := by
  rcases neighbor_some h with ⟨rfl, _, rfl⟩ | ⟨rfl, _, rfl⟩ | ⟨rfl, _, rfl⟩ | ⟨rfl, _, rfl⟩ <;>
    simp [openDoor, opposite]


/-! ## The carving invariant -/

theorem carved_types (g : MazeGrid) (i j k : Nat) (q a : Nat × Nat) (ha : InGrid a) :
    (carved g i j k q).mazeTypes a.1 a.2 =
      if g.mazeTypes a.1 a.2 = g.mazeTypes i j then g.mazeTypes q.1 q.2
      else g.mazeTypes a.1 a.2 := by
  unfold carved
  rw [(relabel_spec _ _ _).2]
  unfold InGrid at ha
  simp [ha.1, ha.2]

theorem carved_doors (g : MazeGrid) (i j k : Nat) (q : Nat × Nat) (a b c : Nat) :
    (carved g i j k q).mazeDoors a b c = true ↔
      (a = i ∧ b = j ∧ c = k) ∨ (a = q.1 ∧ b = q.2 ∧ c = opposite k) ∨
      g.mazeDoors a b c = true := by
  unfold carved
  rw [(relabel_spec _ _ _).1]
  simp only [setDoor_apply]
  by_cases h1 : a = q.1 ∧ b = q.2 ∧ c = opposite k
  · simp [h1]
  · by_cases h2 : a = i ∧ b = j ∧ c = k
    · simp [h1, h2]
    · simp [h1, h2]

theorem doorStep_carved_of_doorStep (g : MazeGrid) (i j k : Nat) (q : Nat × Nat)
    {a b : Nat × Nat} (h : DoorStep g.mazeDoors a b) :
    DoorStep (carved g i j k q).mazeDoors a b := by
  obtain ⟨ha, kk, hk, hd, hn⟩ := h
  exact ⟨ha, kk, hk, (carved_doors ..).mpr (Or.inr (Or.inr hd)), hn⟩

theorem reach_carved_of_reach (g : MazeGrid) (i j k : Nat) (q : Nat × Nat)
    {a b : Nat × Nat} (h : Reach g.mazeDoors a b) :
    Reach (carved g i j k q).mazeDoors a b :=
  Relation.ReflTransGen.mono (fun _ _ hs => doorStep_carved_of_doorStep g i j k q hs) h

theorem doorStep_carved_cases (g : MazeGrid) (c q : Nat × Nat) (k : Nat)
    (hc : InGrid c) (hq : neighbor c k = some q) {a b : Nat × Nat}
    (h : DoorStep (carved g c.1 c.2 k q).mazeDoors a b) :
    (a = c ∧ b = q) ∨ (a = q ∧ b = c) ∨ DoorStep g.mazeDoors a b := by
  obtain ⟨ha, kk, hk, hd, hn⟩ := h
  rcases (carved_doors ..).mp hd with ⟨h1, h2, h3⟩ | ⟨h1, h2, h3⟩ | h
  · have : a = c := Prod.ext h1 h2
    subst this; subst h3
    rw [hq] at hn
    exact Or.inl ⟨rfl, (Option.some.inj hn).symm⟩
  · have : a = q := Prod.ext h1 h2
    subst this; subst h3
    rw [neighbor_back hc hq] at hn
    exact Or.inr (Or.inl ⟨rfl, (Option.some.inj hn).symm⟩)
  · exact Or.inr (Or.inr ⟨ha, kk, hk, h, hn⟩)


theorem mem_openEdges (d : Nat → Nat → Nat → Bool) (a b kk : Nat) :
    ((a, b), kk) ∈ openEdges d ↔ (a < rows ∧ b < cols) ∧ (kk = 1 ∨ kk = 2) ∧ d a b kk = true := by
  simp [openEdges, and_assoc]

theorem openEdges_carved (g : MazeGrid) (c q : Nat × Nat) (k : Nat)
    (hc : InGrid c) (hq : neighbor c k = some q) :
    openEdges (carved g c.1 c.2 k q).mazeDoors =
      insert (if k = 1 ∨ k = 2 then (c, k) else (q, opposite k)) (openEdges g.mazeDoors) := by
  have hqg := neighbor_inGrid hc hq
  obtain ⟨c1, c2⟩ := c
  unfold InGrid at hc hqg
  ext ⟨⟨a, b⟩, kk⟩
  rw [Finset.mem_insert, mem_openEdges, mem_openEdges, carved_doors]
  rcases neighbor_some hq with ⟨rfl, h1, rfl⟩ | ⟨rfl, h1, rfl⟩ | ⟨rfl, h1, rfl⟩ | ⟨rfl, h1, rfl⟩
  · simp only [opposite, Nat.reduceAdd, Nat.reduceMod, if_neg (by decide : ¬ ((0:Nat) = 1 ∨ (0:Nat) = 2)), Prod.mk.injEq]
    constructor
    · rintro ⟨hab, hk, (⟨rfl, rfl, rfl⟩ | ⟨rfl, rfl, rfl⟩ | h)⟩
      · omega
      · left; simp
      · right; exact ⟨hab, hk, h⟩
    · rintro (⟨⟨rfl, rfl⟩, rfl⟩ | ⟨hab, hk, h⟩)
      · exact ⟨hqg, Or.inr rfl, Or.inr (Or.inl ⟨rfl, rfl, rfl⟩)⟩
      · exact ⟨hab, hk, Or.inr (Or.inr h)⟩
  · simp only [opposite, Nat.reduceAdd, Nat.reduceMod, if_pos (by decide : ((1:Nat) = 1 ∨ (1:Nat) = 2)), Prod.mk.injEq]
    constructor
    · rintro ⟨hab, hk, (⟨rfl, rfl, rfl⟩ | ⟨rfl, rfl, rfl⟩ | h)⟩
      · left; simp
      · omega
      · right; exact ⟨hab, hk, h⟩
    · rintro (⟨⟨rfl, rfl⟩, rfl⟩ | ⟨hab, hk, h⟩)
      · exact ⟨hc, Or.inl rfl, Or.inl ⟨rfl, rfl, rfl⟩⟩
      · exact ⟨hab, hk, Or.inr (Or.inr h)⟩
  · simp only [opposite, Nat.reduceAdd, Nat.reduceMod, if_pos (by decide : ((2:Nat) = 1 ∨ (2:Nat) = 2)), Prod.mk.injEq]
    constructor
    · rintro ⟨hab, hk, (⟨rfl, rfl, rfl⟩ | ⟨rfl, rfl, rfl⟩ | h)⟩
      · left; simp
      · omega
      · right; exact ⟨hab, hk, h⟩
    · rintro (⟨⟨rfl, rfl⟩, rfl⟩ | ⟨hab, hk, h⟩)
      · exact ⟨hc, Or.inr rfl, Or.inl ⟨rfl, rfl, rfl⟩⟩
      · exact ⟨hab, hk, Or.inr (Or.inr h)⟩
  · simp only [opposite, Nat.reduceAdd, Nat.reduceMod, if_neg (by decide : ¬ ((3:Nat) = 1 ∨ (3:Nat) = 2)), Prod.mk.injEq]
    constructor
    · rintro ⟨hab, hk, (⟨rfl, rfl, rfl⟩ | ⟨rfl, rfl, rfl⟩ | h)⟩
      · omega
      · left; simp
      · right; exact ⟨hab, hk, h⟩
    · rintro (⟨⟨rfl, rfl⟩, rfl⟩ | ⟨hab, hk, h⟩)
      · exact ⟨hqg, Or.inl rfl, Or.inr (Or.inl ⟨rfl, rfl, rfl⟩)⟩
      · exact ⟨hab, hk, Or.inr (Or.inr h)⟩


theorem doorStep_closed_of_label_ne {p : Nat} {g : MazeGrid} (inv : MazeInv p g)
    {a b : Nat × Nat} {k : Nat} (ha : InGrid a) (hn : neighbor a k = some b)
    (hne : g.mazeTypes a.1 a.2 ≠ g.mazeTypes b.1 b.2) : g.mazeDoors a.1 a.2 k = false := by
  by_contra h
  have h1 : g.mazeDoors a.1 a.2 k = true := by simpa using h
  exact hne (inv.door_label a b ⟨ha, k, neighbor_lt_four hn, h1, hn⟩)

/-- One carving step keeps the invariant. -/
theorem MazeInv.step {p : Nat} {g : MazeGrid} (inv : MazeInv p g) {c q : Nat × Nat} {k : Nat}
    (hc : InGrid c) (hp : cellIndex c = p) (hq : neighbor c k = some q)
    (hne : g.mazeTypes c.1 c.2 ≠ g.mazeTypes q.1 q.2) :
    MazeInv (p + 1) (carved g c.1 c.2 k q) := by
  have hqg : InGrid q := neighbor_inGrid hc hq
  have hk : k < 4 := neighbor_lt_four hq
  have hback : neighbor q (opposite k) = some c := neighbor_back hc hq
  have tyc : (carved g c.1 c.2 k q).mazeTypes c.1 c.2 = g.mazeTypes q.1 q.2 := by
    rw [carved_types g _ _ _ _ c hc]; simp
  have tyq : (carved g c.1 c.2 k q).mazeTypes q.1 q.2 = g.mazeTypes q.1 q.2 := by
    rw [carved_types g _ _ _ _ q hqg]; simp
  have stepcq : DoorStep (carved g c.1 c.2 k q).mazeDoors c q :=
    ⟨hc, k, hk, (carved_doors ..).mpr (Or.inl ⟨rfl, rfl, rfl⟩), hq⟩
  have stepqc : DoorStep (carved g c.1 c.2 k q).mazeDoors q c :=
    ⟨hqg, opposite k, opposite_lt_four k,
      (carved_doors ..).mpr (Or.inr (Or.inl ⟨rfl, rfl, rfl⟩)), hback⟩
  refine ⟨?_, ?_, ?_, ?_, ?_, ?_⟩
  · -- mirrored
    intro a kk ha hkk hd
    rcases (carved_doors ..).mp hd with ⟨h1, h2, h3⟩ | ⟨h1, h2, h3⟩ | h
    · have : a = c := Prod.ext h1 h2
      subst this; subst h3
      exact ⟨q, hq, (carved_doors ..).mpr (Or.inr (Or.inl ⟨rfl, rfl, rfl⟩))⟩
    · have : a = q := Prod.ext h1 h2
      subst this; subst h3
      refine ⟨c, hback, (carved_doors ..).mpr (Or.inl ⟨rfl, rfl, ?_⟩)⟩
      exact opposite_opposite hk
    · obtain ⟨b, hb, hdb⟩ := inv.mirrored a kk ha hkk h
      exact ⟨b, hb, (carved_doors ..).mpr (Or.inr (Or.inr hdb))⟩
  · -- door_label
    intro a b hab
    rcases doorStep_carved_cases g c q k hc hq hab with ⟨rfl, rfl⟩ | ⟨rfl, rfl⟩ | h
    · rw [tyc, tyq]
    · rw [tyc, tyq]
    · have ha : InGrid a := h.1
      obtain ⟨_, kk, _, _, hn⟩ := h
      have hb : InGrid b := neighbor_inGrid ha hn
      rw [carved_types g _ _ _ _ a ha, carved_types g _ _ _ _ b hb,
        inv.door_label a b ⟨ha, kk, ‹_›, ‹_›, hn⟩]
  · -- label_reach
    intro a b ha hb hab
    rw [carved_types g _ _ _ _ a ha, carved_types g _ _ _ _ b hb] at hab
    by_cases h1 : g.mazeTypes a.1 a.2 = g.mazeTypes c.1 c.2
    · by_cases h2 : g.mazeTypes b.1 b.2 = g.mazeTypes c.1 c.2
      · exact reach_carved_of_reach g _ _ _ _ (inv.label_reach a b ha hb (h1.trans h2.symm))
      · simp only [h1, h2, if_true, if_false] at hab
        have r1 := reach_carved_of_reach g c.1 c.2 k q (inv.label_reach a c ha hc h1)
        have r2 := reach_carved_of_reach g c.1 c.2 k q (inv.label_reach q b hqg hb hab)
        exact r1.trans (Relation.ReflTransGen.head stepcq r2)
    · by_cases h2 : g.mazeTypes b.1 b.2 = g.mazeTypes c.1 c.2
      · simp only [h1, h2, if_true, if_false] at hab
        have r1 := reach_carved_of_reach g c.1 c.2 k q (inv.label_reach a q ha hqg hab)
        have r2 := reach_carved_of_reach g c.1 c.2 k q (inv.label_reach c b hc hb h2.symm)
        exact r1.trans (Relation.ReflTransGen.head stepqc r2)
      · simp only [h1, h2, if_false] at hab
        exact reach_carved_of_reach g _ _ _ _ (inv.label_reach a b ha hb hab)
  · -- pending_distinct
    intro a b ha hb hpa hpb hab
    have na : g.mazeTypes a.1 a.2 ≠ g.mazeTypes c.1 c.2 := by
      intro h
      have := inv.pending_distinct a c ha hc (by omega) (by omega) h
      subst this; omega
    have nb : g.mazeTypes b.1 b.2 ≠ g.mazeTypes c.1 c.2 := by
      intro h
      have := inv.pending_distinct b c hb hc (by omega) (by omega) h
      subst this; omega
    rw [carved_types g _ _ _ _ a ha, carved_types g _ _ _ _ b hb] at hab
    simp only [na, nb, if_false] at hab
    exact inv.pending_distinct a b ha hb (by omega) (by omega) hab
  · -- pending_label
    intro a ha
    have key : ∀ x, InGrid x → g.mazeTypes x.1 x.2 ≠ g.mazeTypes c.1 c.2 →
        ∃ u, InGrid u ∧ p + 1 ≤ cellIndex u ∧
          (carved g c.1 c.2 k q).mazeTypes u.1 u.2 = g.mazeTypes x.1 x.2 := by
      intro x hx hxc
      obtain ⟨u, hu, hpu, htu⟩ := inv.pending_label x hx
      have huc : g.mazeTypes u.1 u.2 ≠ g.mazeTypes c.1 c.2 := by rw [htu]; exact hxc
      refine ⟨u, hu, ?_, ?_⟩
      · have : cellIndex u ≠ cellIndex c := by
          intro h
          have := cellIndex_inj hu hc h
          subst this; exact huc rfl
        omega
      · rw [carved_types g _ _ _ _ u hu]
        simp only [huc, if_false]
        exact htu
    rw [carved_types g _ _ _ _ a ha]
    by_cases h1 : g.mazeTypes a.1 a.2 = g.mazeTypes c.1 c.2
    · simp only [h1, if_true]
      exact key q hqg (fun h => hne h.symm)
    · simp only [h1, if_false]
      exact key a ha h1
  · -- edge_count
    rw [openEdges_carved g c q k hc hq, Finset.card_insert_of_not_mem, inv.edge_count]
    have dc : g.mazeDoors c.1 c.2 k = false := doorStep_closed_of_label_ne inv hc hq hne
    have dq : g.mazeDoors q.1 q.2 (opposite k) = false :=
      doorStep_closed_of_label_ne inv hqg hback (fun h => hne h.symm)
    obtain ⟨c1, c2⟩ := c
    obtain ⟨q1, q2⟩ := q
    split_ifs
    · rw [mem_openEdges]; simp only [] at dc; simp [dc]
    · rw [mem_openEdges]; simp only [] at dq; simp [dq]


theorem carveCell_break (rand : Nat → Nat) (i j : Nat) (s : MazeState)
    (h : candidateDoors s.grid.mazeTypes i j = []) :
    carveCell rand i j s =
      ({ s with trace := s.trace ++ [⟨i, j, [], none, s.grid, s.grid⟩] }, true) := by
  have hlen : (candidateDoors s.grid.mazeTypes i j).length = 0 := by rw [h]; rfl
  unfold carveCell
  simp only [hlen, dif_pos]
  rw [h]

theorem carveCell_open (rand : Nat → Nat) (i j : Nat) (s : MazeState)
    (h : candidateDoors s.grid.mazeTypes i j ≠ []) :
    ∃ k q, k ∈ candidateDoors s.grid.mazeTypes i j ∧ neighbor (i, j) k = some q ∧
      s.grid.mazeTypes i j ≠ s.grid.mazeTypes q.1 q.2 ∧
      carveCell rand i j s =
        ({ grid := carved s.grid i j k q, randCalls := s.randCalls + 1,
           trace := s.trace ++ [⟨i, j, candidateDoors s.grid.mazeTypes i j, some k, s.grid,
             carved s.grid i j k q⟩] }, false) := by
  have hlen : ¬ (candidateDoors s.grid.mazeTypes i j).length = 0 := by
    intro h0; exact h (List.length_eq_zero.mp h0)
  let k := (candidateDoors s.grid.mazeTypes i j).get
    ⟨rand s.randCalls % (candidateDoors s.grid.mazeTypes i j).length,
      Nat.mod_lt _ (Nat.pos_of_ne_zero hlen)⟩
  have hk : k ∈ candidateDoors s.grid.mazeTypes i j := List.get_mem _ _ _
  obtain ⟨q, hq, hne⟩ := (mem_candidateDoors _ _ _ _).mp hk
  refine ⟨k, q, hk, hq, hne, ?_⟩
  unfold carveCell
  simp only [hlen, dif_neg, not_false_eq_true]
  have e := openDoor_spec s.grid i j k q hq
  show (_, false) = _
  simp only [Prod.mk.injEq, and_true]
  show MazeState.mk _ _ _ = MazeState.mk _ _ _
  have e1 : relabel ((openDoor s.grid i j k).1.mazeTypes i j) (openDoor s.grid i j k).2
      (openDoor s.grid i j k).1 = carved s.grid i j k q := by
    rw [e]; rfl
  simp only [MazeState.mk.injEq, and_true, true_and]
  exact ⟨e1, by rw [e1]⟩


theorem openEdges_initMaze : openEdges initMaze.mazeDoors = ∅ := by
  apply Finset.eq_empty_of_forall_not_mem
  rintro ⟨⟨a, b⟩, k⟩ h
  rw [mem_openEdges, initMaze_spec.2] at h
  simp at h

/-- The invariant holds on the freshly initialised arrays. -/
theorem MazeInv.init : MazeInv 0 initMaze := by
  have hty : ∀ a : Nat × Nat, InGrid a → initMaze.mazeTypes a.1 a.2 = cellIndex a :=
    fun a ha => initMaze_spec.1 a.1 a.2 ha.1 ha.2
  have hinj : ∀ a b : Nat × Nat, InGrid a → InGrid b →
      initMaze.mazeTypes a.1 a.2 = initMaze.mazeTypes b.1 b.2 → a = b := by
    intro a b ha hb h
    rw [hty a ha, hty b hb] at h
    exact cellIndex_inj ha hb h
  refine ⟨?_, ?_, ?_, ?_, ?_, ?_⟩
  · intro a k _ _ h
    rw [initMaze_spec.2] at h; simp at h
  · rintro a b ⟨_, k, _, h, _⟩
    rw [initMaze_spec.2] at h; simp at h
  · intro a b ha hb h
    rw [hinj a b ha hb h]
    exact Relation.ReflTransGen.refl
  · intro a b ha hb _ _ h
    exact hinj a b ha hb h
  · intro a ha
    exact ⟨a, ha, Nat.zero_le _, rfl⟩
  · rw [openEdges_initMaze]; rfl

/-- Before the last cell there is always a candidate direction: the next cell in row-major
order (east, or south at the end of a row) has not been processed and carries another label. -/
theorem MazeInv.candidate_exists {p : Nat} {g : MazeGrid} (inv : MazeInv p g) {c : Nat × Nat}
    (hc : InGrid c) (hp : cellIndex c = p) (hlt : p < rows * cols - 1) :
    candidateDoors g.mazeTypes c.1 c.2 ≠ [] := by
  obtain ⟨i, j⟩ := c
  simp only [InGrid, cellIndex, rows_eq, cols_eq] at hc hp hlt
  by_cases hj : j + 1 < cols
  · have hn : neighbor (i, j) 1 = some (i, j + 1) := by simp [neighbor, hj]
    have hne : g.mazeTypes i j ≠ g.mazeTypes i (j + 1) := by
      intro h
      have hb : InGrid (i, j + 1) := neighbor_inGrid (by simp [InGrid, rows_eq, cols_eq, hc]) hn
      have := inv.pending_distinct (i, j) (i, j + 1) (by simp [InGrid, rows_eq, cols_eq, hc]) hb
        (by simp [cellIndex, cols_eq]; omega) (by simp [cellIndex, cols_eq]; omega) h
      simp at this
    have hm := (mem_candidateDoors g.mazeTypes i j 1).mpr ⟨(i, j + 1), hn, hne⟩
    intro h; rw [h] at hm; simp at hm
  · simp only [cols_eq] at hj
    have hi : i + 1 < rows := by simp only [rows_eq]; omega
    have hn : neighbor (i, j) 2 = some (i + 1, j) := by simp [neighbor, hi]
    have hne : g.mazeTypes i j ≠ g.mazeTypes (i + 1) j := by
      intro h
      have hb : InGrid (i + 1, j) := neighbor_inGrid (by simp [InGrid, rows_eq, cols_eq, hc]) hn
      have := inv.pending_distinct (i, j) (i + 1, j) (by simp [InGrid, rows_eq, cols_eq, hc]) hb
        (by simp [cellIndex, cols_eq]; omega) (by simp [cellIndex, cols_eq]; omega) h
      simp at this
    have hm := (mem_candidateDoors g.mazeTypes i j 2).mpr ⟨(i + 1, j), hn, hne⟩
    intro h; rw [h] at hm; simp at hm

/-- When only the last cell is left, every cell carries the label of the last cell. -/
theorem MazeInv.all_same_label {g : MazeGrid} (inv : MazeInv (rows * cols - 1) g)
    {a b : Nat × Nat} (ha : InGrid a) (hb : InGrid b) :
    g.mazeTypes a.1 a.2 = g.mazeTypes b.1 b.2 := by
  have key : ∀ x : Nat × Nat, InGrid x →
      g.mazeTypes x.1 x.2 = g.mazeTypes (rows - 1) (cols - 1) := by
    intro x hx
    obtain ⟨u, hu, hpu, htu⟩ := inv.pending_label x hx
    obtain ⟨u1, u2⟩ := u
    simp only [InGrid, cellIndex, rows_eq, cols_eq] at hu hpu
    have h1 : u1 = 7 := by omega
    have h2 : u2 = 4 := by omega
    subst h1; subst h2
    rw [← htu]; rfl
  rw [key a ha, key b hb]

/-- At the last cell there is no candidate direction. -/
theorem MazeInv.no_candidate_last {g : MazeGrid} (inv : MazeInv (rows * cols - 1) g)
    {c : Nat × Nat} (hc : InGrid c) : candidateDoors g.mazeTypes c.1 c.2 = [] := by
  apply List.eq_nil_iff_forall_not_mem.mpr
  intro k hk
  obtain ⟨b, hb, hne⟩ := (mem_candidateDoors _ _ _ _).mp hk
  exact hne (inv.all_same_label hc (neighbor_inGrid hc hb))

/-- When only the last cell is left the door graph is connected. -/
theorem MazeInv.connected {g : MazeGrid} (inv : MazeInv (rows * cols - 1) g) :
    MazeConnected g.mazeDoors :=
  fun a b ha hb => inv.label_reach a b ha hb (inv.all_same_label ha hb)


theorem TraceOK.append {p : Nat} {tr : List CarveStep} (h : TraceOK p tr) {st : CarveStep}
    (hst : StepOK p st) : TraceOK (p + 1) (tr ++ [st]) := by
  obtain ⟨hlen, hall⟩ := h
  refine ⟨by simp [hlen], ?_⟩
  intro n st' hn
  by_cases hlt : n < tr.length
  · rw [List.getElem?_append_left hlt] at hn
    exact hall n st' hn
  · rw [List.getElem?_append_right (by omega)] at hn
    have h0 : n - tr.length = 0 := by
      by_contra hne
      have : ([st] : List CarveStep)[n - tr.length]? = none := by
        apply List.getElem?_eq_none
        simp; omega
      rw [this] at hn; simp at hn
    rw [h0] at hn
    simp at hn
    subst hn
    have : n = p := by omega
    subst this
    exact hst

theorem traceChained_append (tr : List CarveStep) :
    ∀ (g : MazeGrid) (st : CarveStep), TraceChained g tr → st.before = lastGrid g tr →
      TraceChained g (tr ++ [st]) ∧ lastGrid g (tr ++ [st]) = st.after := by
  induction tr with
  | nil =>
    intro g st _ hb
    exact ⟨⟨hb, trivial⟩, rfl⟩
  | cons a rest ih =>
    intro g st h hb
    obtain ⟨h1, h2⟩ := ih a.after st h.2 hb
    exact ⟨⟨h.1, h1⟩, h2⟩

theorem TraceLinked.extend {s : MazeState} (h : TraceLinked s) (st : CarveStep)
    (hb : st.before = s.grid) (randCalls : Nat) :
    TraceLinked { grid := st.after, randCalls := randCalls, trace := s.trace ++ [st] } := by
  obtain ⟨h1, h2⟩ := traceChained_append s.trace initMaze st h.1 (by rw [h.2]; exact hb)
  exact ⟨h1, h2⟩

/-- The body of the carving loop at the cell of row-major index `p`, before the last cell:
it does not break and re-establishes the loop invariant for `p + 1`. -/
theorem carveCell_inv (rand : Nat → Nat) (i j : Nat) (s : MazeState) (hi : i < rows)
    (hj : j < cols) (inv : CarveInv (cols * i + j) s) (hlt : cols * i + j < rows * cols - 1) :
    (carveCell rand i j s).2 = false ∧ CarveInv (cols * i + j + 1) (carveCell rand i j s).1 := by
  obtain ⟨hg, hr, htr, hlink⟩ := inv
  have hc : InGrid (i, j) := ⟨hi, hj⟩
  have hne := hg.candidate_exists hc rfl hlt
  obtain ⟨k, q, hk, hq, hlab, e⟩ := carveCell_open rand i j s hne
  rw [e]
  have hstep : MazeInv (cols * i + j + 1) (carved s.grid i j k q) :=
    hg.step (c := (i, j)) hc rfl hq hlab
  have hi' : i = (cols * i + j) / cols := by
    simp only [cols_eq] at *
    omega
  have hj' : j = (cols * i + j) % cols := by
    simp only [cols_eq] at *
    omega
  have hok : StepOK (cols * i + j) ⟨i, j, candidateDoors s.grid.mazeTypes i j, some k, s.grid,
      carved s.grid i j k q⟩ := by
    unfold StepOK
    dsimp only
    exact ⟨hi', hj', hg, rfl, Or.inl ⟨hlt, k, q, rfl, hk, hq, rfl, hstep⟩⟩
  have hl := hlink.extend ⟨i, j, candidateDoors s.grid.mazeTypes i j, some k, s.grid,
    carved s.grid i j k q⟩ rfl (s.randCalls + 1)
  dsimp only at hl
  refine ⟨rfl, ?_⟩
  unfold CarveInv
  dsimp only
  exact ⟨hstep, by rw [hr], htr.append hok, hl⟩

/-- The body of the carving loop at the last cell: no candidate is left, the body breaks and
the grid stays as it is. -/
theorem carveCell_last (rand : Nat → Nat) (s : MazeState)
    (inv : CarveInv (rows * cols - 1) s) :
    (carveCell rand (rows - 1) (cols - 1) s).2 = true ∧
      CarveDone (carveCell rand (rows - 1) (cols - 1) s).1 := by
  obtain ⟨hg, hr, htr, hlink⟩ := inv
  have hc : InGrid (rows - 1, cols - 1) := by simp [InGrid, rows_eq, cols_eq]
  have hnil := hg.no_candidate_last hc
  rw [carveCell_break rand _ _ s hnil]
  have hl := hlink.extend ⟨rows - 1, cols - 1, [], none, s.grid, s.grid⟩ rfl s.randCalls
  dsimp only at hl
  refine ⟨rfl, hg, hr, ?_, hl⟩
  have hok : StepOK (rows * cols - 1) ⟨rows - 1, cols - 1, [], none, s.grid, s.grid⟩ :=
    ⟨by simp [rows_eq, cols_eq], by simp [rows_eq, cols_eq], hg, hnil.symm,
      Or.inr ⟨rfl, rfl, rfl, rfl⟩⟩
  have := htr.append hok
  simpa [rows_eq, cols_eq] using this

/-- The carving loops run every cell body once and end in `CarveDone`. -/
theorem carve_done (rand : Nat → Nat) : CarveDone (carve rand) := by
  unfold carve
  have hout := forRange_inv rows
    (fun i s => forRangeBreak cols (fun j s => carveCell rand i j s) s)
    (fun i s => (i < rows → CarveInv (cols * i) s) ∧ (i = rows → CarveDone s))
    { grid := initMaze, randCalls := 0, trace := [] } ?_ ?_
  · exact hout.2 rfl
  · refine ⟨fun _ => ⟨MazeInv.init, rfl, ⟨rfl, ?_⟩, trivial, rfl⟩,
      fun h => by simp [rows_eq] at h⟩
    intro n st h; simp at h
  · intro i s hi hP
    have hinv := hP.1 hi
    refine forRangeBreak_inv cols (fun j s => carveCell rand i j s)
      (fun j s => CarveInv (cols * i + j) s ∧ cols * i + j ≤ rows * cols - 1)
      (fun s => (i + 1 < rows → CarveInv (cols * (i + 1)) s) ∧ (i + 1 = rows → CarveDone s))
      s ⟨hinv, by simp only [rows_eq, cols_eq] at *; omega⟩ ?_ ?_
    · intro j s hj ⟨hinvj, hle⟩
      by_cases hlt : cols * i + j < rows * cols - 1
      · left
        obtain ⟨h1, h2⟩ := carveCell_inv rand i j s hi hj hinvj hlt
        exact ⟨h1, h2, by omega⟩
      · right
        have hp : cols * i + j = rows * cols - 1 := by omega
        have hi7 : i = rows - 1 := by simp only [rows_eq, cols_eq] at *; omega
        have hj4 : j = cols - 1 := by simp only [rows_eq, cols_eq] at *; omega
        subst hi7; subst hj4
        rw [hp] at hinvj
        obtain ⟨h1, h2⟩ := carveCell_last rand s hinvj
        refine ⟨h1, fun h => ?_, fun _ => h2⟩
        simp [rows_eq] at h
    · intro s ⟨hinvc, hle⟩
      refine ⟨fun _ => ?_, fun h => ?_⟩
      · have e : cols * (i + 1) = cols * i + cols := by ring
        rw [e]; exact hinvc
      · simp only [rows_eq, cols_eq] at *; omega


theorem MazeInv.doorsSymmetric {p : Nat} {g : MazeGrid} (inv : MazeInv p g) :
    DoorsSymmetric g.mazeDoors := by
  intro i hi j hj k hk
  have hc : InGrid (i, j) := ⟨hi, hj⟩
  unfold DoorAgrees
  cases hn : neighbor (i, j) k with
  | none =>
    show g.mazeDoors i j k = false
    by_contra h
    have h1 : g.mazeDoors i j k = true := by simpa using h
    obtain ⟨b, hb, _⟩ := inv.mirrored (i, j) k hc hk h1
    rw [hn] at hb; simp at hb
  | some b =>
    show g.mazeDoors i j k = g.mazeDoors b.1 b.2 (opposite k)
    have hbg : InGrid b := neighbor_inGrid hc hn
    have hback := neighbor_back hc hn
    cases h1 : g.mazeDoors i j k with
    | true =>
      obtain ⟨b', hb', hd⟩ := inv.mirrored (i, j) k hc hk h1
      rw [hn] at hb'
      have : b = b' := Option.some.inj hb'
      subst this
      exact hd.symm
    | false =>
      cases h2 : g.mazeDoors b.1 b.2 (opposite k) with
      | false => rfl
      | true =>
        obtain ⟨a', ha', hd⟩ := inv.mirrored b (opposite k) hbg (opposite_lt_four k) h2
        rw [hback] at ha'
        have : (i, j) = a' := Option.some.inj ha'
        subst this
        rw [opposite_opposite hk] at hd
        simp only [] at hd
        rw [h1] at hd
        exact hd

theorem StepOK.inv_after {n : Nat} {st : CarveStep} (h : StepOK n st) :
    ∃ p, MazeInv p st.after := by
  obtain ⟨_, _, hb, _, h | h⟩ := h
  · obtain ⟨_, _, _, _, _, _, _, ha⟩ := h
    exact ⟨_, ha⟩
  · obtain ⟨_, _, _, e⟩ := h
    exact ⟨n, by rw [e]; exact hb⟩

theorem TraceOK.stepOK_of_mem {p : Nat} {tr : List CarveStep} (h : TraceOK p tr)
    {st : CarveStep} (hst : st ∈ tr) : ∃ n, n < p ∧ StepOK n st := by
  obtain ⟨n, hn, e⟩ := List.getElem_of_mem hst
  refine ⟨n, by rw [← h.1]; exact hn, h.2 n st ?_⟩
  rw [List.getElem?_eq_getElem hn, e]


/-! ## Registry lemmas -/

theorem find_append (m1 m2 : LevelObjectsMap) (k : GObjectID) :
    LevelObjectsMap.find (m1 ++ m2) k =
      match LevelObjectsMap.find m1 k with
      | some v => some v
      | none => LevelObjectsMap.find m2 k := by
  induction m1 with
  | nil => rfl
  | cons p rest ih =>
    obtain ⟨k', v⟩ := p
    by_cases h : k' = k
    · simp [LevelObjectsMap.find, h]
    · simp only [List.cons_append, LevelObjectsMap.find, h, if_false]
      exact ih

theorem find_eq_none_iff (m : LevelObjectsMap) (k : GObjectID) :
    LevelObjectsMap.find m k = none ↔ ∀ p ∈ m, p.1 ≠ k := by
  induction m with
  | nil => simp [LevelObjectsMap.find]
  | cons p rest ih =>
    obtain ⟨k', v⟩ := p
    by_cases h : k' = k
    · simp [LevelObjectsMap.find, h]
    · simp [LevelObjectsMap.find, h, ih]

theorem find_emplace_self (m : LevelObjectsMap) (k : GObjectID) (v : Option GObject)
    (h : LevelObjectsMap.find m k = none) :
    LevelObjectsMap.find (LevelObjectsMap.emplace m k v) k = some v := by
  unfold LevelObjectsMap.emplace
  rw [h]
  simp [find_append, h, LevelObjectsMap.find]

theorem emplace_of_absent (m : LevelObjectsMap) (k : GObjectID) (v : Option GObject)
    (h : LevelObjectsMap.find m k = none) :
    LevelObjectsMap.emplace m k v = m ++ [(k, v)] := by
  unfold LevelObjectsMap.emplace
  rw [h]

theorem find_erase_self (m : LevelObjectsMap) (k : GObjectID) :
    LevelObjectsMap.find (LevelObjectsMap.erase m k) k = none := by
  rw [find_eq_none_iff]
  intro p hp
  unfold LevelObjectsMap.erase at hp
  have := (List.mem_filter.mp hp).2
  simpa using this

theorem KeysBelow.find_next {w : World} (h : KeysBelow w) :
    LevelObjectsMap.find w.level.m_gobjects w.rt.m_next_id = none := by
  rw [find_eq_none_iff]
  intro p hp
  exact Nat.ne_of_lt (h p hp)

/-- `createObject` when initialisation succeeds on an identity that is not yet a key. -/
theorem createObject_of_load (env : Env) (d : ObjectInstanceRes) (w : World)
    (hload : env.gobjectLoad d = true)
    (hfresh : LevelObjectsMap.find w.level.m_gobjects w.rt.m_next_id = none) :
    Level.createObject env d w =
      (w.rt.m_next_id,
       { level := { w.level with
                    m_gobjects := w.level.m_gobjects ++
                      [(w.rt.m_next_id, some (createdObject env w.rt.m_next_id d))] },
         rt := { w.rt with m_next_id := w.rt.m_next_id + 1 } }) := by
  unfold Level.createObject
  simp only [ObjectIDAllocator.alloc, GObject.load, hload, if_true]
  rw [emplace_of_absent _ _ _ hfresh]
  rfl

/-- `createObject` when initialisation fails. -/
theorem createObject_of_fail (env : Env) (d : ObjectInstanceRes) (w : World)
    (hload : env.gobjectLoad d = false) :
    Level.createObject env d w =
      (env.k_invalid_gobject_id,
       { level := w.level, rt := { w.rt with m_next_id := w.rt.m_next_id + 1 } }) := by
  unfold Level.createObject
  simp [ObjectIDAllocator.alloc, GObject.load, hload]


/-- A failed fetch: what `load` returns and which locator it leaves. -/
theorem load_of_fetch_failure (env : Env) (level_res_url : String) (w : World)
    (hfetch : env.loadAsset level_res_url = none) :
    (Level.load env level_res_url w).1 = false ∧
      (Level.load env level_res_url w).2.level.m_level_res_url = level_res_url := by
  unfold Level.load
  simp [hfetch]


/-! ## `load` -/

/-- `load` after a successful fetch, in terms of its phases. -/
theorem load_of_fetch (env : Env) (level_res_url : String) (w : World) (level_res : LevelRes)
    (hfetch : env.loadAsset level_res_url = some level_res) :
    Level.load env level_res_url w =
      (true,
       { level := { (Level.loadCreated env level_res_url level_res w).level with
                    m_current_active_character :=
                      Level.loadCharacterLoop level_res.m_character_name
                        (Level.loadCreated env level_res_url level_res w).level.m_gobjects
                        (Level.loadCreated env level_res_url level_res
                          w).level.m_current_active_character,
                    m_is_loaded := true },
         rt := (Level.loadCreated env level_res_url level_res w).rt }) := by
  unfold Level.load
  simp only [hfetch]
  rfl

theorem createObject_character (env : Env) (d : ObjectInstanceRes) (w : World) :
    (Level.createObject env d w).2.level.m_current_active_character =
      w.level.m_current_active_character := by
  unfold Level.createObject
  simp only [ObjectIDAllocator.alloc, GObject.load]
  split_ifs <;> rfl

theorem createObjects_character (env : Env) (ds : List ObjectInstanceRes) (w : World) :
    (Level.createObjects env ds w).level.m_current_active_character =
      w.level.m_current_active_character := by
  induction ds generalizing w with
  | nil => rfl
  | cons d rest ih =>
    simp only [Level.createObjects]
    rw [ih, createObject_character]

/-- The character loop of `load`: if some registered object carries the character name, the
loop wraps one of them; otherwise it leaves the binding as it was. -/
theorem loadCharacterLoop_spec (character_name : String) (m : LevelObjectsMap)
    (c : Option Character) :
    ((∃ go_id o, (go_id, some o) ∈ m ∧ o.m_name = character_name) →
      ∃ go_id o, (go_id, some o) ∈ m ∧ o.m_name = character_name ∧
        Level.loadCharacterLoop character_name m c = some { m_character_object := some o }) ∧
    ((¬ ∃ go_id o, (go_id, some o) ∈ m ∧ o.m_name = character_name) →
      Level.loadCharacterLoop character_name m c = c) := by
  induction m with
  | nil =>
    refine ⟨?_, fun _ => rfl⟩
    rintro ⟨_, _, h, _⟩
    simp at h
  | cons p rest ih =>
    obtain ⟨k, v⟩ := p
    cases v with
    | none =>
      simp only [Level.loadCharacterLoop]
      constructor
      · rintro ⟨go_id, o, hmem, hname⟩
        have hmem' : (go_id, some o) ∈ rest := by simpa using hmem
        obtain ⟨g2, o2, h1, h2, h3⟩ := ih.1 ⟨go_id, o, hmem', hname⟩
        exact ⟨g2, o2, List.mem_cons_of_mem _ h1, h2, h3⟩
      · intro hno
        apply ih.2
        rintro ⟨go_id, o, hmem, hname⟩
        exact hno ⟨go_id, o, List.mem_cons_of_mem _ hmem, hname⟩
    | some object =>
      simp only [Level.loadCharacterLoop]
      by_cases hn : character_name = object.m_name
      · simp only [hn, if_true]
        constructor
        · intro _
          exact ⟨k, object, List.mem_cons_self _ _, rfl, rfl⟩
        · intro hno
          exact absurd ⟨k, object, List.mem_cons_self _ _, rfl⟩ hno
      · simp only [hn, if_false]
        constructor
        · rintro ⟨go_id, o, hmem, hname⟩
          rcases List.mem_cons.mp hmem with h | h
          · simp only [Prod.mk.injEq, Option.some.injEq] at h
            exact absurd (by rw [← h.2, hname]) hn
          · obtain ⟨g2, o2, h1, h2, h3⟩ := ih.1 ⟨go_id, o, h, hname⟩
            exact ⟨g2, o2, List.mem_cons_of_mem _ h1, h2, h3⟩
        · intro hno
          apply ih.2
          rintro ⟨go_id, o, hmem, hname⟩
          exact hno ⟨go_id, o, List.mem_cons_of_mem _ hmem, hname⟩


/-! ## `save` and `unload` -/

theorem take_succ_set_aux {α : Type} (out : List α) (idx : Nat) (s : α) (h : idx < out.length) :
    (out.set idx s).take (idx + 1) = out.take idx ++ [s] := by
  induction out generalizing idx with
  | nil => simp at h
  | cons a rest ih =>
    cases idx with
    | zero => simp
    | succ n =>
      simp only [List.set_cons_succ, List.take_succ_cons, List.cons_append, List.cons.injEq,
        true_and]
      exact ih n (by simpa using h)

/-- The save loop writes the saved objects into consecutive slots from `object_index` on. -/
theorem saveLoop_spec (m : LevelObjectsMap) :
    ∀ (object_index : Nat) (out : List ObjectInstanceRes),
      object_index + (savedObjects m).length ≤ out.length →
      Level.saveLoop m object_index out =
        out.take object_index ++ savedObjects m ++
          out.drop (object_index + (savedObjects m).length) := by
  induction m with
  | nil =>
    intro idx out _
    simp [Level.saveLoop, savedObjects]
  | cons p rest ih =>
    obtain ⟨k, v⟩ := p
    cases v with
    | none =>
      intro idx out h
      have e : savedObjects ((k, none) :: rest) = savedObjects rest := by
        simp [savedObjects]
      rw [e] at h ⊢
      simp only [Level.saveLoop]
      exact ih idx out h
    | some o =>
      intro idx out h
      have e : savedObjects ((k, some o) :: rest) =
          GObject.save o ⟨"", ""⟩ :: savedObjects rest := by
        simp [savedObjects]
      rw [e] at h ⊢
      simp only [List.length_cons] at h ⊢
      simp only [Level.saveLoop]
      have hlt : idx < out.length := by omega
      rw [ih (idx + 1) _ (by simp; omega), take_succ_set_aux out idx _ hlt,
        List.drop_set_of_lt _ _ (by omega)]
      have e2 : idx + 1 + (savedObjects rest).length = idx + ((savedObjects rest).length + 1) := by
        omega
      rw [e2]
      simp [GObject.save]

theorem savedObjects_createdEntries (env : Env) (object_id : GObjectID)
    (ds : List ObjectInstanceRes) : savedObjects (createdEntries env object_id ds) = ds := by
  induction ds generalizing object_id with
  | nil => rfl
  | cons d rest ih =>
    have : savedObjects (createdEntries env object_id (d :: rest)) =
        GObject.save (createdObject env object_id d) ⟨"", ""⟩ ::
          savedObjects (createdEntries env (object_id + 1) rest) := by
      simp [savedObjects, createdEntries]
    rw [this, ih]
    rfl

theorem length_createdEntries (env : Env) (object_id : GObjectID)
    (ds : List ObjectInstanceRes) : (createdEntries env object_id ds).length = ds.length := by
  induction ds generalizing object_id with
  | nil => rfl
  | cons d rest ih => simp [createdEntries, ih]

theorem createdEntries_key_bounds (env : Env) (object_id : GObjectID)
    (ds : List ObjectInstanceRes) :
    ∀ p ∈ createdEntries env object_id ds, object_id ≤ p.1 ∧ p.1 < object_id + ds.length := by
  induction ds generalizing object_id with
  | nil => intro p hp; simp [createdEntries] at hp
  | cons d rest ih =>
    intro p hp
    simp only [createdEntries, List.mem_cons] at hp
    rcases hp with rfl | hp
    · simp
    · have h := ih (object_id + 1) p hp
      simp only [List.length_cons]
      unfold GObjectID at *
      omega

/-- The creation loop when every object initialises and the allocator is fresh: the registry
gains one entry per descriptor, in order, under consecutive identities; nothing else in the
level changes. -/
theorem createObjects_all (env : Env) (ds : List ObjectInstanceRes) :
    ∀ (w : World), KeysBelow w → (∀ d ∈ ds, env.gobjectLoad d = true) →
      Level.createObjects env ds w =
        { level := { w.level with
                     m_gobjects := w.level.m_gobjects ++ createdEntries env w.rt.m_next_id ds },
          rt := { w.rt with m_next_id := w.rt.m_next_id + ds.length } } := by
  induction ds with
  | nil => intro w _ _; simp [Level.createObjects, createdEntries]
  | cons d rest ih =>
    intro w hk hall
    simp only [Level.createObjects]
    rw [createObject_of_load env d w (hall d (List.mem_cons_self _ _)) hk.find_next]
    rw [ih _ ?_ (fun d' hd' => hall d' (List.mem_cons_of_mem _ hd'))]
    · simp [createdEntries, Nat.add_assoc, Nat.add_comm 1]
    · intro p hp
      simp only [List.mem_append, List.mem_singleton] at hp
      rcases hp with hp | rfl
      · exact Nat.lt_succ_of_lt (hk p hp)
      · exact Nat.lt_succ_self _


/-- The output vector of `save`: the saved objects, then one default descriptor per null
entry of the registry. -/
theorem save_objects (env : Env) (w : World) :
    (Level.save env w).2.m_objects =
      savedObjects w.level.m_gobjects ++
        List.replicate (w.level.m_gobjects.length - (savedObjects w.level.m_gobjects).length)
          ⟨"", ""⟩ := by
  have hle : (savedObjects w.level.m_gobjects).length ≤ w.level.m_gobjects.length :=
    List.length_filterMap_le _ _
  simp only [Level.save]
  rw [saveLoop_spec _ 0 _ (by simpa using hle)]
  simp

/-- The registry after a `load` on an empty registry when every object initialises. -/
theorem load_registry_all (env : Env) (level_res_url : String) (w : World) (level_res : LevelRes)
    (hreg : w.level.m_gobjects = []) (hfetch : env.loadAsset level_res_url = some level_res)
    (hall : ∀ d ∈ level_res.m_objects, env.gobjectLoad d = true) :
    (Level.load env level_res_url w).2.level.m_gobjects =
      createdEntries env w.rt.m_next_id level_res.m_objects := by
  rw [load_of_fetch env level_res_url w level_res hfetch]
  show (Level.loadCreated env level_res_url level_res w).level.m_gobjects = _
  unfold Level.loadCreated
  rw [createObjects_all env _ _ ?_ hall]
  · show w.level.m_gobjects ++ _ = _
    rw [hreg]
    rfl
  · intro p hp
    have : p ∈ w.level.m_gobjects := hp
    rw [hreg] at this
    simp at this

theorem lock_deletePhysicsScene (rt : Runtime) (scene : Option Nat) :
    PhysicsManager.lock (PhysicsManager.deletePhysicsScene rt scene) scene = false := by
  cases scene with
  | none => rfl
  | some h =>
    simp only [PhysicsManager.lock, PhysicsManager.deletePhysicsScene]
    rw [List.any_eq_false]
    intro p hp
    have := (List.mem_filter.mp hp).2
    simpa using this

/-- What `tick` does after `unload`: the guard looks at the loaded flag, which `unload` leaves
alone; a tick that passes the guard finds nothing to update. -/
theorem tick_unload (env : Env) (w : World) :
    (Level.unload w).level.m_is_loaded = w.level.m_is_loaded ∧
      (Level.unload w).level.m_gobjects = [] ∧
      (Level.unload w).level.m_current_active_character = none ∧
      Level.tick env (Level.unload w) =
        { returned_at_guard := !w.level.m_is_loaded, ticked_objects := [],
          ticked_character := false, ticked_physics := false } := by
  refine ⟨rfl, rfl, rfl, ?_⟩
  have hl := lock_deletePhysicsScene w.rt w.level.m_physics_scene
  cases hf : w.level.m_is_loaded with
  | false => simp [Level.tick, Level.unload, Level.clear, hf]
  | true =>
    simp only [Level.tick, Level.unload, Level.clear, hf]
    simp [hl]

theorem load_flags (env : Env) (level_res_url : String) (w : World) (level_res : LevelRes)
    (hfetch : env.loadAsset level_res_url = some level_res) :
    (Level.load env level_res_url w).1 = true ∧
      (Level.load env level_res_url w).2.level.m_is_loaded = true := by
  rw [load_of_fetch env level_res_url w level_res hfetch]
  exact ⟨rfl, rfl⟩


/-! ## The wall-emission pass -/

/-- A counted loop whose body folds a step over a list is a fold over the concatenation. -/
theorem forLoop_eq_foldl {σ α : Type} (body : Nat → σ → σ) (f : Nat → List α)
    (step : σ → α → σ) (hbody : ∀ k s, body k s = (f k).foldl step s) :
    ∀ (n i : Nat) (s : σ),
      forLoop body n i s = ((List.range' i n).flatMap f).foldl step s := by
  intro n
  induction n with
  | zero => intro i s; rfl
  | succ n ih =>
    intro i s
    rw [forLoop, ih, List.range'_succ, List.flatMap_cons, List.foldl_append, hbody]

theorem forRange_eq_foldl {σ α : Type} (hi : Nat) (body : Nat → σ → σ) (f : Nat → List α)
    (step : σ → α → σ) (hbody : ∀ k s, body k s = (f k).foldl step s) (s : σ) :
    forRange hi body s = ((List.range' 0 hi).flatMap f).foldl step s :=
  forLoop_eq_foldl body f step hbody hi 0 s

/-- The emission loops create the walls of `wallList`, in order. -/
theorem emitWallsWith_eq_foldl {σ : Type} (create : Nat → σ → σ)
    (mazeDoors : Nat → Nat → Nat → Bool) (s : σ) :
    emitWallsWith create mazeDoors s =
      (wallList mazeDoors).foldl (fun s wallNum => create wallNum s) s := by
  unfold emitWallsWith wallList
  apply forRange_eq_foldl
  intro i s
  apply forRange_eq_foldl
  intro j s
  unfold wallsOfCell
  cases mazeDoors i j 0 <;> cases mazeDoors i j 3 <;>
    by_cases hj : j = cols - 1 <;> by_cases hi : i = rows - 1 <;> simp [hj, hi]

theorem foldl_snoc_eq {α : Type} (l acc : List α) :
    l.foldl (fun l x => l ++ [x]) acc = acc ++ l := by
  induction l generalizing acc with
  | nil => simp
  | cons a rest ih => simp [ih]

theorem emittedWallNums_eq (mazeDoors : Nat → Nat → Nat → Bool) :
    emittedWallNums mazeDoors = wallList mazeDoors := by
  unfold emittedWallNums
  rw [emitWallsWith_eq_foldl, foldl_snoc_eq]
  rfl

theorem mem_wallsOfCell (d : Nat → Nat → Nat → Bool) (i j n : Nat) :
    n ∈ wallsOfCell d i j ↔
      (n = i * (2 * cols + 1) + j ∧ d i j 0 = false) ∨
      (n = i * (2 * cols + 1) + j + cols ∧ d i j 3 = false) ∨
      (n = i * (2 * cols + 1) + j + cols + 1 ∧ j = cols - 1) ∨
      (n = i * (2 * cols + 1) + j + 2 * cols + 1 ∧ i = rows - 1) := by
  unfold wallsOfCell
  cases d i j 0 <;> cases d i j 3 <;>
    by_cases hj : j = cols - 1 <;> by_cases hi : i = rows - 1 <;> simp [hj, hi]

theorem nodup_wallsOfCell (d : Nat → Nat → Nat → Bool) (i j : Nat) :
    (wallsOfCell d i j).Nodup := by
  unfold wallsOfCell
  simp only [cols_eq, rows_eq]
  cases d i j 0 <;> cases d i j 3 <;>
    by_cases hj : j = 5 - 1 <;> by_cases hi : i = 8 - 1 <;>
    simp [hj, hi] <;> omega

theorem mem_wallList (d : Nat → Nat → Nat → Bool) (n : Nat) :
    n ∈ wallList d ↔ ∃ i j, i < rows ∧ j < cols ∧ n ∈ wallsOfCell d i j := by
  unfold wallList
  simp only [List.mem_flatMap, List.mem_range'_1]
  constructor
  · rintro ⟨i, ⟨_, hi⟩, j, ⟨_, hj⟩, h⟩
    exact ⟨i, j, by omega, by omega, h⟩
  · rintro ⟨i, j, hi, hj, h⟩
    exact ⟨i, ⟨by omega, by omega⟩, j, ⟨by omega, by omega⟩, h⟩

theorem nodup_wallList (d : Nat → Nat → Nat → Bool) : (wallList d).Nodup := by
  unfold wallList
  rw [List.nodup_flatMap]
  constructor
  · intro i hi
    rw [List.nodup_flatMap]
    refine ⟨fun j _ => nodup_wallsOfCell d i j, ?_⟩
    refine List.Pairwise.imp_of_mem ?_ (List.pairwise_lt_range' 0 cols)
    intro j j' hj hj' hlt
    simp only [List.mem_range'_1, cols_eq] at hj hj'
    rw [Function.onFun, List.disjoint_left]
    intro n h1 h2
    rw [mem_wallsOfCell] at h1 h2
    simp only [cols_eq, rows_eq] at h1 h2
    omega
  · refine List.Pairwise.imp_of_mem ?_ (List.pairwise_lt_range' 0 rows)
    intro i i' hi hi' hlt
    simp only [List.mem_range'_1, rows_eq] at hi hi'
    rw [Function.onFun, List.disjoint_left]
    intro n h1 h2
    simp only [List.mem_flatMap, List.mem_range'_1, cols_eq] at h1 h2
    obtain ⟨j, hj, h1⟩ := h1
    obtain ⟨j', hj', h2⟩ := h2
    rw [mem_wallsOfCell] at h1 h2
    simp only [cols_eq, rows_eq] at h1 h2
    omega


theorem foldl_createObject_eq (env : Env) (l : List Nat) (w : World) :
    l.foldl (fun w wallNum => (Level.createObject env (wallRes wallNum) w).2) w =
      Level.createObjects env (l.map wallRes) w := by
  induction l generalizing w with
  | nil => rfl
  | cons n rest ih => simp only [List.foldl_cons, List.map_cons, Level.createObjects, ih]

/-- The emission pass on the level when every wall initialises and the allocator is fresh: one
registry entry per emitted wall number, in emission order. -/
theorem emitWalls_registry (env : Env) (mazeDoors : Nat → Nat → Nat → Bool) (w : World)
    (hall : ∀ n, env.gobjectLoad (wallRes n) = true) (hfresh : KeysBelow w) :
    (Level.emitWalls env mazeDoors w).level.m_gobjects =
      w.level.m_gobjects ++
        createdEntries env w.rt.m_next_id ((emittedWallNums mazeDoors).map wallRes) := by
  unfold Level.emitWalls
  rw [emitWallsWith_eq_foldl, foldl_createObject_eq, emittedWallNums_eq,
    createObjects_all env _ w hfresh]
  intro d hd
  obtain ⟨n, _, rfl⟩ := List.mem_map.mp hd
  exact hall n

/-- Which wall numbers the emission pass produces, and how often, on a grid with symmetric
doors. -/
theorem wallList_count (d : Nat → Nat → Nat → Bool) (hsym : DoorsSymmetric d) (i j : Nat)
    (hi : i < rows) (hj : j < cols) :
    ((wallList d).count (i * (2 * cols + 1) + j) = if 0 < i ∧ d i j 0 = true then 0 else 1) ∧
    ((wallList d).count (i * (2 * cols + 1) + j + cols) =
      if 0 < j ∧ d i j 3 = true then 0 else 1) ∧
    (j = cols - 1 → (wallList d).count (i * (2 * cols + 1) + j + cols + 1) = 1) ∧
    (i = rows - 1 → (wallList d).count (i * (2 * cols + 1) + j + 2 * cols + 1) = 1) := by
  have hnd := nodup_wallList d
  have hnorth : i = 0 → d i j 0 = false := by
    intro h0
    have := hsym i hi j hj 0 (by omega)
    simpa [DoorAgrees, neighbor, h0] using this
  have hwest : j = 0 → d i j 3 = false := by
    intro h0
    have := hsym i hi j hj 3 (by omega)
    simpa [DoorAgrees, neighbor, h0] using this
  have one : ∀ n, n ∈ wallList d → (wallList d).count n = 1 :=
    fun n h => List.count_eq_one_of_mem hnd h
  have zero : ∀ n, n ∉ wallList d → (wallList d).count n = 0 :=
    fun n h => List.count_eq_zero_of_not_mem h
  refine ⟨?_, ?_, ?_, ?_⟩
  · by_cases hopen : 0 < i ∧ d i j 0 = true
    · rw [if_pos hopen]
      apply zero
      rw [mem_wallList]
      rintro ⟨i', j', hi', hj', hm⟩
      rw [mem_wallsOfCell] at hm
      simp only [cols_eq, rows_eq] at hm hi hj hi' hj'
      have hij : i' = i ∧ j' = j → False := by
        rintro ⟨rfl, rfl⟩
        rcases hm with ⟨_, h⟩ | ⟨h, _⟩ | ⟨h, _⟩ | ⟨h, _⟩
        · rw [hopen.2] at h; exact Bool.noConfusion h
        all_goals omega
      apply hij
      omega
    · rw [if_neg hopen]
      apply one
      rw [mem_wallList]
      refine ⟨i, j, hi, hj, (mem_wallsOfCell ..).mpr (Or.inl ⟨rfl, ?_⟩)⟩
      by_cases h0 : i = 0
      · exact hnorth h0
      · cases hd : d i j 0 with
        | false => rfl
        | true => exact absurd ⟨by omega, hd⟩ hopen
  · by_cases hopen : 0 < j ∧ d i j 3 = true
    · rw [if_pos hopen]
      apply zero
      rw [mem_wallList]
      rintro ⟨i', j', hi', hj', hm⟩
      rw [mem_wallsOfCell] at hm
      simp only [cols_eq, rows_eq] at hm hi hj hi' hj'
      have hij : i' = i ∧ j' = j → False := by
        rintro ⟨rfl, rfl⟩
        rcases hm with ⟨h, _⟩ | ⟨_, h⟩ | ⟨h, _⟩ | ⟨h, _⟩
        · omega
        · rw [hopen.2] at h; exact Bool.noConfusion h
        all_goals omega
      apply hij
      omega
    · rw [if_neg hopen]
      apply one
      rw [mem_wallList]
      refine ⟨i, j, hi, hj, (mem_wallsOfCell ..).mpr (Or.inr (Or.inl ⟨rfl, ?_⟩))⟩
      by_cases h0 : j = 0
      · exact hwest h0
      · cases hd : d i j 3 with
        | false => rfl
        | true => exact absurd ⟨by omega, hd⟩ hopen
  · intro hlast
    apply one
    rw [mem_wallList]
    exact ⟨i, j, hi, hj, (mem_wallsOfCell ..).mpr (Or.inr (Or.inr (Or.inl ⟨rfl, hlast⟩)))⟩
  · intro hlast
    apply one
    rw [mem_wallList]
    exact ⟨i, j, hi, hj, (mem_wallsOfCell ..).mpr (Or.inr (Or.inr (Or.inr ⟨rfl, hlast⟩)))⟩

/-- Sanity check of the connectivity predicate: with all doors closed, as on the freshly
initialised arrays, no cell reaches another one, so the grid is not connected. -/
theorem initMaze_not_connected : ¬ MazeConnected initMaze.mazeDoors := by
  intro h
  have hreach := h (0, 0) (0, 1) (by decide) (by decide)
  have hstay : ∀ a b : Nat × Nat, Reach initMaze.mazeDoors a b → a = b := by
    intro a b hab
    induction hab with
    | refl => rfl
    | tail _ hstep _ =>
      obtain ⟨_, k, _, hd, _⟩ := hstep
      rw [initMaze_spec.2] at hd
      exact Bool.noConfusion hd
  have hsnd : (0 : Nat) = 1 := congrArg Prod.snd (hstay _ _ hreach)
  exact absurd hsnd (by decide)

/-- Allocator freshness is kept by `createObject`. -/
theorem createObject_keysBelow (env : Env) (d : ObjectInstanceRes) (w : World)
    (h : KeysBelow w) : KeysBelow (Level.createObject env d w).2 := by
  cases hload : env.gobjectLoad d with
  | false =>
    rw [createObject_of_fail env d w hload]
    intro p hp
    exact Nat.lt_succ_of_lt (h p hp)
  | true =>
    rw [createObject_of_load env d w hload h.find_next]
    intro p hp
    have hp' : p ∈ w.level.m_gobjects ++
        [(w.rt.m_next_id, some (createdObject env w.rt.m_next_id d))] := hp
    rcases List.mem_append.mp hp' with hp1 | hp1
    · exact Nat.lt_succ_of_lt (h p hp1)
    · rw [List.mem_singleton.mp hp1]
      exact Nat.lt_succ_self _

theorem keysBelow_boundWorld : KeysBelow boundWorld := by
  intro p hp
  have hp' : p ∈ [((0 : GObjectID), some heroObject)] := hp
  rw [List.mem_singleton.mp hp']
  exact Nat.zero_lt_one


/-! ## Wall placement arithmetic -/

theorem tdiv_wall (n : Nat) :
    Int.tdiv (n : Int) (2 * (cols : Int) + 1) = ((n / 11 : Nat) : Int) := by
  simp only [cols_eq]
  rw [Int.tdiv_eq_ediv (by omega) (by omega)]
  omega

theorem tmod_wall (n : Nat) :
    Int.tmod (n : Int) (2 * (cols : Int) + 1) = ((n % 11 : Nat) : Int) := by
  simp only [cols_eq]
  rw [Int.tmod_eq_emod (by omega) (by omega)]
  omega

/-- The decoding of a wall index, in closed form. -/
theorem decodeWall_eq (n : Nat) :
    decodeWall n =
      if n % 11 < 5 then (((n / 11 : Nat) : Int), ((n % 11 : Nat) : Int), false)
      else (((n / 11 : Nat) : Int), ((n % 11 : Nat) : Int) - 5, true) := by
  unfold decodeWall
  simp only [tdiv_wall, tmod_wall]
  simp only [cols_eq, Nat.cast_ofNat]
  by_cases h : n % 11 < 5
  · have h' : ((n % 11 : Nat) : Int) < 5 := by omega
    simp only [h, h', if_true]
  · have h' : ¬ ((n % 11 : Nat) : Int) < 5 := by omega
    simp only [h, h', if_false]

/-- The transform written by `placeWall`, in terms of the decoded index. -/
theorem placeWall_decode (n : Nat) (o : GObject) :
    placeWall n o =
      if (decodeWall n).2.2 = false then
        { o with
          m_position := ⟨-45 + (decodeWall n).1 * 10, -20 + (decodeWall n).2.1 * 10, 0⟩,
          m_rotation := Quaternion.identity }
      else
        { o with
          m_position := ⟨-40 + (decodeWall n).1 * 10, -25 + (decodeWall n).2.1 * 10, 0⟩,
          m_rotation := Quaternion.angleAxisZ90 } := by
  have c1 : Int.tdiv (10 * (((rows : Nat) : Int) - 1)) 2 = 35 := by decide
  have c2 : Int.tdiv (-10 * (((cols : Nat) : Int) - 1)) 2 = -20 := by decide
  have c3 : Int.tdiv (10 * (((cols : Nat) : Int) - 1)) 2 = 20 := by decide
  unfold placeWall decodeWall
  simp only [c1, c2, c3]
  split_ifs <;> simp_all

/-- The position and rotation written by `placeWall`, in closed form. -/
theorem placeWall_eq (n : Nat) (o : GObject) :
    placeWall n o =
      if n % 11 < 5 then
        { o with
          m_position := ⟨-45 + ((n / 11 : Nat) : Int) * 10, -20 + ((n % 11 : Nat) : Int) * 10, 0⟩,
          m_rotation := Quaternion.identity }
      else
        { o with
          m_position :=
            ⟨-40 + ((n / 11 : Nat) : Int) * 10, -25 + (((n % 11 : Nat) : Int) - 5) * 10, 0⟩,
          m_rotation := Quaternion.angleAxisZ90 } := by
  rw [placeWall_decode, decodeWall_eq]
  by_cases h : n % 11 < 5 <;> simp [h]


/-! ## Wall names -/

theorem digitsValue_toDigits : ∀ n, n < 93 → digitsValue (Nat.toDigits 10 n) = n := by
  decide

theorem wallName_data (n : Nat) :
    ("Wall_" ++ toString n).data = "Wall_".data ++ Nat.toDigits 10 n := by
  rw [String.data_append]
  rfl

/-- Different wall numbers below 93 give different names. -/
theorem wallName_inj {a b : Nat} (ha : a < 93) (hb : b < 93)
    (h : "Wall_" ++ toString a = "Wall_" ++ toString b) : a = b := by
  have hd := congrArg String.data h
  rw [wallName_data, wallName_data] at hd
  have hd' := List.append_cancel_left hd
  have := congrArg digitsValue hd'
  rwa [digitsValue_toDigits a ha, digitsValue_toDigits b hb] at this

theorem player_ne_wallName (n : Nat) : "Player" ≠ "Wall_" ++ toString n := by
  intro h
  have := congrArg String.data h
  simp at this

theorem ground_ne_wallName (n : Nat) : "Ground" ≠ "Wall_" ++ toString n := by
  intro h
  have := congrArg String.data h
  simp at this

theorem placeWall_id_name (n : Nat) (o : GObject) :
    (placeWall n o).m_id = o.m_id ∧ (placeWall n o).m_name = o.m_name := by
  rw [placeWall_eq]
  split_ifs <;> exact ⟨rfl, rfl⟩

/-- The placement loop keeps identity and name of every object. -/
theorem placedObject_id_name (o : GObject) :
    (placedObject o).m_id = o.m_id ∧ (placedObject o).m_name = o.m_name := by
  unfold placedObject
  refine forRange_inv _ _ (fun _ o' => o'.m_id = o.m_id ∧ o'.m_name = o.m_name) o ⟨rfl, rfl⟩ ?_
  intro k o' _ h
  dsimp only
  split_ifs
  · rw [(placeWall_id_name k o').1, (placeWall_id_name k o').2]
    exact h
  · exact h

/-- The placement loop applies `placeWall n` to the object named after wall `n`, once. -/
theorem placedObject_wall (n : Nat) (o : GObject) (hn : n < rows * (2 * cols + 1) + cols)
    (hname : o.m_name = "Wall_" ++ toString n) : placedObject o = placeWall n o := by
  have hn' : n < 93 := hn
  unfold placedObject
  have h := forRange_inv (rows * (2 * cols + 1) + cols)
    (fun (i : Nat) (o' : GObject) =>
      if "Wall_" ++ toString i = o'.m_name then placeWall i o' else o')
    (fun k o' => (k ≤ n → o' = o) ∧ (n < k → o' = placeWall n o)) o
    ⟨fun _ => rfl, fun h => absurd h (Nat.not_lt_zero _)⟩ ?_
  · exact h.2 hn
  · intro k o' hk hP
    have hk' : k < 93 := hk
    dsimp only
    by_cases hkn : k < n
    · have e := hP.1 (by omega)
      subst e
      have hne : ¬ "Wall_" ++ toString k = o'.m_name := by
        rw [hname]
        intro h
        have := wallName_inj hk' hn' h
        omega
      rw [if_neg hne]
      exact ⟨fun _ => rfl, fun h => by omega⟩
    · by_cases hkeq : k = n
      · subst hkeq
        have e := hP.1 (Nat.le_refl _)
        subst e
        rw [if_pos hname.symm]
        exact ⟨fun h => by omega, fun _ => rfl⟩
      · have e := hP.2 (by omega)
        have hne : ¬ "Wall_" ++ toString k = o'.m_name := by
          rw [e, (placeWall_id_name n o).2, hname]
          intro h
          exact hkeq (wallName_inj hk' hn' h)
        rw [if_neg hne]
        exact ⟨fun h => by omega, fun _ => e⟩

/-- The placement loop leaves an object alone whose name is not a wall name. -/
theorem placedObject_other (o : GObject)
    (hname : ∀ n : Nat, o.m_name ≠ "Wall_" ++ toString n) : placedObject o = o := by
  unfold placedObject
  refine forRange_inv _ _ (fun _ o' => o' = o) o rfl ?_
  intro k o' _ h
  subst h
  exact if_neg (fun h => hname k h.symm)


theorem registryNames_createdEntries (env : Env) (object_id : GObjectID)
    (ds : List ObjectInstanceRes) :
    registryNames (createdEntries env object_id ds) = ds.map (fun d => d.m_name) := by
  induction ds generalizing object_id with
  | nil => rfl
  | cons d rest ih =>
    have : registryNames (createdEntries env object_id (d :: rest)) =
        (createdObject env object_id d).m_name ::
          registryNames (createdEntries env (object_id + 1) rest) := by
      simp [registryNames, createdEntries]
    rw [this, ih]
    rfl


theorem placeWall_horizontal (q m : Nat) (hm : m < 5) (o : GObject) :
    placeWall (q * 11 + m) o =
      { o with
        m_position := ⟨-45 + (q : Int) * 10, -20 + (m : Int) * 10, 0⟩,
        m_rotation := Quaternion.identity } := by
  have e1 : (q * 11 + m) % 11 = m := by omega
  have e2 : (q * 11 + m) / 11 = q := by omega
  rw [placeWall_eq, e1, e2, if_pos hm]

theorem placeWall_vertical (q m : Nat) (hm : m < 6) (o : GObject) :
    placeWall (q * 11 + m + 5) o =
      { o with
        m_position := ⟨-40 + (q : Int) * 10, -25 + (((m + 5 : Nat) : Int) - 5) * 10, 0⟩,
        m_rotation := Quaternion.angleAxisZ90 } := by
  have e1 : (q * 11 + m + 5) % 11 = m + 5 := by omega
  have e2 : (q * 11 + m + 5) / 11 = q := by omega
  have h : ¬ m + 5 < 5 := by omega
  rw [placeWall_eq, e1, e2, if_neg h]


theorem rowMajor_nodup :
    ((List.range (rows * cols)).map (fun n => (n / cols, n % cols))).Nodup := by
  refine List.Nodup.map_on ?_ (List.nodup_range _)
  intro a _ b _ h
  simp only [cols_eq, Prod.mk.injEq] at h
  omega

theorem mem_rowMajor (c : Nat × Nat) (hc : InGrid c) :
    c ∈ (List.range (rows * cols)).map (fun n => (n / cols, n % cols)) := by
  obtain ⟨h1, h2⟩ := hc
  simp only [rows_eq, cols_eq] at h1 h2
  refine List.mem_map.2 ⟨5 * c.1 + c.2, List.mem_range.2 ?_, ?_⟩
  · simp only [rows_eq, cols_eq]
    omega
  · simp only [cols_eq]
    apply Prod.ext
    · show (5 * c.1 + c.2) / 5 = c.1
      omega
    · show (5 * c.1 + c.2) % 5 = c.2
      omega

theorem TraceOK.cells {p : Nat} {tr : List CarveStep} (h : TraceOK p tr) :
    tr.map (fun st => (st.i, st.j)) = (List.range p).map (fun n => (n / cols, n % cols)) := by
  apply List.ext_getElem
  · simp only [List.length_map, List.length_range, h.1]
  · intro n h1 h2
    simp only [List.length_map] at h1
    have hs := h.2 n tr[n] (List.getElem?_eq_getElem h1)
    simp only [List.getElem_map, List.getElem_range, hs.1, hs.2.1]


/-! ## Labels, reachability and cycles -/

theorem MazeInv.reach_label {p : Nat} {g : MazeGrid} (inv : MazeInv p g) {a b : Nat × Nat}
    (h : Reach g.mazeDoors a b) : g.mazeTypes a.1 a.2 = g.mazeTypes b.1 b.2 := by
  induction h with
  | refl => rfl
  | tail _ hs ih => exact ih.trans (inv.door_label _ _ hs)

theorem doorsForest_initMaze : DoorsForest initMaze.mazeDoors := by
  intro a b hab
  obtain ⟨_, k, _, hd, _⟩ := hab
  rw [initMaze_spec.2] at hd
  exact absurd hd (by simp)

/-- One carving step keeps every open door a bridge. -/
theorem doorsForest_carved {p : Nat} {g : MazeGrid} (inv : MazeInv p g)
    (hf : DoorsForest g.mazeDoors) {c q : Nat × Nat} {k : Nat} (hc : InGrid c)
    (hq : neighbor c k = some q) (hne : g.mazeTypes c.1 c.2 ≠ g.mazeTypes q.1 q.2) :
    DoorsForest (carved g c.1 c.2 k q).mazeDoors := by
  intro a b hab hpath
  by_cases hnew : (a = c ∧ b = q) ∨ (a = q ∧ b = c)
  · have hr : Reach g.mazeDoors b a := by
      refine Relation.ReflTransGen.mono ?_ hpath
      intro x y hxy
      obtain ⟨hs, h1, h2⟩ := hxy
      rcases doorStep_carved_cases g c q k hc hq hs with h | h | h
      · rcases hnew with ⟨e1, e2⟩ | ⟨e1, e2⟩
        · exact absurd ⟨h.1.trans e1.symm, h.2.trans e2.symm⟩ h1
        · exact absurd ⟨h.1.trans e2.symm, h.2.trans e1.symm⟩ h2
      · rcases hnew with ⟨e1, e2⟩ | ⟨e1, e2⟩
        · exact absurd ⟨h.1.trans e2.symm, h.2.trans e1.symm⟩ h2
        · exact absurd ⟨h.1.trans e1.symm, h.2.trans e2.symm⟩ h1
      · exact h
    have hl := inv.reach_label hr
    rcases hnew with ⟨e1, e2⟩ | ⟨e1, e2⟩
    · rw [e1, e2] at hl
      exact hne hl.symm
    · rw [e1, e2] at hl
      exact hne hl
  · have hold : DoorStep g.mazeDoors a b := by
      rcases doorStep_carved_cases g c q k hc hq hab with h | h | h
      · exact absurd (Or.inl h) hnew
      · exact absurd (Or.inr h) hnew
      · exact h
    have key : ∀ x, Relation.ReflTransGen
        (DoorStepAvoiding (carved g c.1 c.2 k q).mazeDoors a b) b x →
        Relation.ReflTransGen (DoorStepAvoiding g.mazeDoors a b) b x ∨
        (Relation.ReflTransGen (DoorStepAvoiding g.mazeDoors a b) b c ∧
          g.mazeTypes x.1 x.2 = g.mazeTypes q.1 q.2) ∨
        (Relation.ReflTransGen (DoorStepAvoiding g.mazeDoors a b) b q ∧
          g.mazeTypes x.1 x.2 = g.mazeTypes c.1 c.2) := by
      intro x hx
      induction hx with
      | refl => exact Or.inl Relation.ReflTransGen.refl
      | tail _ hstep ih =>
        obtain ⟨hs, h1, h2⟩ := hstep
        rcases doorStep_carved_cases g c q k hc hq hs with ⟨e1, e2⟩ | ⟨e1, e2⟩ | hs'
        · rw [e1] at ih
          rw [e2]
          rcases ih with h | ⟨h, _⟩ | ⟨h, _⟩
          · exact Or.inr (Or.inl ⟨h, rfl⟩)
          · exact Or.inr (Or.inl ⟨h, rfl⟩)
          · exact Or.inl h
        · rw [e1] at ih
          rw [e2]
          rcases ih with h | ⟨h, _⟩ | ⟨h, _⟩
          · exact Or.inr (Or.inr ⟨h, rfl⟩)
          · exact Or.inl h
          · exact Or.inr (Or.inr ⟨h, rfl⟩)
        · have hl := inv.door_label _ _ hs'
          rcases ih with h | ⟨h, e⟩ | ⟨h, e⟩
          · exact Or.inl (h.tail ⟨hs', h1, h2⟩)
          · exact Or.inr (Or.inl ⟨h, hl.symm.trans e⟩)
          · exact Or.inr (Or.inr ⟨h, hl.symm.trans e⟩)
    have hab' := inv.door_label a b hold
    rcases key a hpath with h | ⟨h, e⟩ | ⟨h, e⟩
    · exact hf a b hold h
    · have h1 := inv.reach_label (Relation.ReflTransGen.mono (fun _ _ hh => hh.1) h)
      exact hne (h1.symm.trans (hab'.symm.trans e))
    · have h1 := inv.reach_label (Relation.ReflTransGen.mono (fun _ _ hh => hh.1) h)
      exact hne (e.symm.trans (hab'.trans h1))

theorem chain_avoiding (d : Nat → Nat → Nat → Bool) (a c : Nat × Nat) :
    ∀ (l : List (Nat × Nat)) (x b : Nat × Nat), List.Chain (DoorStep d) x l →
      (∀ y ∈ x :: l, y ≠ a) → (x :: l).getLast? = some b →
      Relation.ReflTransGen (DoorStepAvoiding d a c) x b := by
  intro l
  induction l with
  | nil =>
    intro x b _ _ hb
    simp only [List.getLast?_singleton, Option.some.injEq] at hb
    rw [hb]
  | cons y l ih =>
    intro x b hch hall hb
    rw [List.getLast?_cons_cons] at hb
    rw [List.chain_cons] at hch
    have hx : x ≠ a := hall x (List.mem_cons_self _ _)
    have hy : y ≠ a := hall y (List.mem_cons_of_mem _ (List.mem_cons_self _ _))
    have hrest := ih y b hch.2 (fun z hz => hall z (List.mem_cons_of_mem _ hz)) hb
    exact Relation.ReflTransGen.head ⟨hch.1, fun h => hx h.1, fun h => hy h.2⟩ hrest

/-- A door graph in which every open door is a bridge has no cycle. -/
theorem DoorsForest.acyclic {d : Nat → Nat → Nat → Bool} (h : DoorsForest d) :
    DoorsAcyclic d := by
  intro l hc
  obtain ⟨hlen, hnd, hch, a, b, hhead, hlast, hstep⟩ := hc
  match l, hlen, hnd, hch, hhead, hlast with
  | c0 :: c1 :: c2 :: rest, _, hnd, hch, hhead, hlast =>
    simp only [List.head?_cons, Option.some.injEq] at hhead
    subst hhead
    rw [List.chain'_cons] at hch
    rw [List.getLast?_cons_cons] at hlast
    have hnd0 : ∀ y ∈ c1 :: c2 :: rest, y ≠ c0 := by
      intro y hy e
      rw [e] at hy
      exact (List.nodup_cons.1 hnd).1 hy
    have hpath := chain_avoiding d c0 c1 (c2 :: rest) c1 b hch.2 hnd0 hlast
    have hb0 : b ≠ c0 := hnd0 b (List.mem_of_getLast?_eq_some hlast)
    have hb1 : b ≠ c1 := by
      rw [List.getLast?_cons_cons] at hlast
      intro e
      rw [e] at hlast
      exact (List.nodup_cons.1 (List.nodup_cons.1 hnd).2).1 (List.mem_of_getLast?_eq_some hlast)
    exact h c0 c1 hch.1 (hpath.tail ⟨hstep, fun e => hb0 e.1, fun e => hb1 e.1⟩)

theorem StepOK.forest_after {n : Nat} {st : CarveStep} (h : StepOK n st) (hn : n < rows * cols)
    (hf : DoorsForest st.before.mazeDoors) : DoorsForest st.after.mazeDoors := by
  obtain ⟨hi, hj, hb, hcand, h | h⟩ := h
  · obtain ⟨_, k, q, _, hk, hq, hafter, _⟩ := h
    rw [hcand] at hk
    obtain ⟨q', hq', hne⟩ := (mem_candidateDoors _ _ _ _).mp hk
    rw [hq] at hq'
    have e : q' = q := (Option.some.inj hq').symm
    rw [e] at hne
    have hc : InGrid (st.i, st.j) := by
      rw [hi, hj]
      simp only [InGrid, rows_eq, cols_eq] at hn ⊢
      omega
    rw [hafter]
    exact doorsForest_carved (c := (st.i, st.j)) hb hf hc hq hne
  · obtain ⟨_, _, _, e⟩ := h
    rw [e]
    exact hf

theorem chain_grids : ∀ (tr : List CarveStep) (g : MazeGrid), TraceChained g tr →
    (∀ st ∈ tr, ∃ n, n < rows * cols ∧ StepOK n st) → DoorsForest g.mazeDoors →
    (∃ p, MazeInv p g) →
    ∀ n, DoorsForest (lastGrid g (tr.take n)).mazeDoors ∧
      ∃ p, MazeInv p (lastGrid g (tr.take n)) := by
  intro tr
  induction tr with
  | nil =>
    intro g _ _ hf hinv n
    simp only [List.take_nil]
    exact ⟨hf, hinv⟩
  | cons st rest ih =>
    intro g hch hok hf hinv n
    cases n with
    | zero => exact ⟨hf, hinv⟩
    | succ n =>
      obtain ⟨m, hm, hst⟩ := hok st (List.mem_cons_self _ _)
      have hf' : DoorsForest st.after.mazeDoors := by
        apply hst.forest_after hm
        rw [hch.1]
        exact hf
      exact ih st.after hch.2 (fun s hs => hok s (List.mem_cons_of_mem _ hs)) hf'
        hst.inv_after n

theorem chain_before_after : ∀ (tr : List CarveStep) (g : MazeGrid) (n : Nat) (st : CarveStep),
    TraceChained g tr → tr[n]? = some st →
    st.before = lastGrid g (tr.take n) ∧ st.after = lastGrid g (tr.take (n + 1)) := by
  intro tr
  induction tr with
  | nil =>
    intro g n st _ h
    simp at h
  | cons s rest ih =>
    intro g n st hch h
    cases n with
    | zero =>
      simp only [List.getElem?_cons_zero, Option.some.injEq] at h
      subst h
      exact ⟨hch.1, rfl⟩
    | succ n =>
      rw [List.getElem?_cons_succ] at h
      exact ih s.after n st hch.2 h

theorem TraceLinked.chained {s : MazeState} (h : TraceLinked s) :
    TraceChained initMaze s.trace := h.1

theorem TraceLinked.last {s : MazeState} (h : TraceLinked s) :
    lastGrid initMaze s.trace = s.grid := h.2

theorem CarveDone.grids {s : MazeState} (h : CarveDone s) (n : Nat) :
    DoorsForest (lastGrid initMaze (s.trace.take n)).mazeDoors ∧
      ∃ p, MazeInv p (lastGrid initMaze (s.trace.take n)) := by
  obtain ⟨_, _, ht, hl⟩ := h
  exact chain_grids s.trace initMaze hl.chained (fun st hst => ht.stepOK_of_mem hst)
    doorsForest_initMaze (Exists.intro 0 MazeInv.init) n

theorem CarveDone.final {s : MazeState} (h : CarveDone s) (n : Nat) (hn : rows * cols ≤ n) :
    lastGrid initMaze (s.trace.take n) = s.grid := by
  obtain ⟨_, _, ht, hl⟩ := h
  rw [List.take_of_length_le (by rw [ht.1]; exact hn)]
  exact hl.last

theorem CarveDone.before_after {s : MazeState} (h : CarveDone s) (n : Nat) (st : CarveStep)
    (hst : s.trace[n]? = some st) :
    st.before = lastGrid initMaze (s.trace.take n) ∧
      st.after = lastGrid initMaze (s.trace.take (n + 1)) := by
  obtain ⟨_, _, _, hl⟩ := h
  exact chain_before_after s.trace initMaze n st hl.chained hst

theorem gridAfter_spec (rand : Nat → Nat) (n : Nat) :
    DoorsForest (gridAfter rand n).mazeDoors ∧ ∃ p, MazeInv p (gridAfter rand n) :=
  (carve_done rand).grids n

theorem gridAfter_final (rand : Nat → Nat) (n : Nat) (hn : rows * cols ≤ n) :
    gridAfter rand n = (carve rand).grid :=
  (carve_done rand).final n hn

theorem gridAfter_before_after (rand : Nat → Nat) (n : Nat) (st : CarveStep)
    (hst : (carve rand).trace[n]? = some st) :
    st.before = gridAfter rand n ∧ st.after = gridAfter rand (n + 1) :=
  (carve_done rand).before_after n st hst


/-! ## Counting the emitted walls -/

theorem DoorsSymmetric.south {d : Nat → Nat → Nat → Bool} (hsym : DoorsSymmetric d)
    (a b : Nat) (ha : a < rows) (hb : b < cols) :
    (a + 1 < rows → d a b 2 = d (a + 1) b 0) ∧ (¬ a + 1 < rows → d a b 2 = false) := by
  have h := hsym a ha b hb 2 (by omega)
  constructor
  · intro h1
    simpa [DoorAgrees, neighbor, opposite, h1] using h
  · intro h1
    simpa [DoorAgrees, neighbor, opposite, h1] using h

theorem DoorsSymmetric.east {d : Nat → Nat → Nat → Bool} (hsym : DoorsSymmetric d)
    (a b : Nat) (ha : a < rows) (hb : b < cols) :
    (b + 1 < cols → d a b 1 = d a (b + 1) 3) ∧ (¬ b + 1 < cols → d a b 1 = false) := by
  have h := hsym a ha b hb 1 (by omega)
  constructor
  · intro h1
    simpa [DoorAgrees, neighbor, opposite, h1] using h
  · intro h1
    simpa [DoorAgrees, neighbor, opposite, h1] using h

theorem DoorsSymmetric.north_closed {d : Nat → Nat → Nat → Bool} (hsym : DoorsSymmetric d)
    (b : Nat) (hb : b < cols) : d 0 b 0 = false := by
  have h := hsym 0 (by decide) b hb 0 (by omega)
  simpa [DoorAgrees, neighbor] using h

theorem DoorsSymmetric.west_closed {d : Nat → Nat → Nat → Bool} (hsym : DoorsSymmetric d)
    (a : Nat) (ha : a < rows) : d a 0 3 = false := by
  have h := hsym a ha 0 (by decide) 3 (by omega)
  simpa [DoorAgrees, neighbor] using h

theorem doorWall_injOn (d : Nat → Nat → Nat → Bool) :
    Set.InjOn doorWall (openEdges d : Set ((Nat × Nat) × Nat)) := by
  rintro ⟨⟨a, b⟩, k⟩ h1 ⟨⟨a', b'⟩, k'⟩ h2 heq
  rw [Finset.mem_coe, mem_openEdges] at h1 h2
  obtain ⟨⟨ha, hb⟩, hk, _⟩ := h1
  obtain ⟨⟨ha', hb'⟩, hk', _⟩ := h2
  simp only [rows_eq, cols_eq] at ha hb ha' hb'
  rcases hk with rfl | rfl <;> rcases hk' with rfl | rfl <;>
    simp only [doorWall, cols_eq, if_true, OfNat.ofNat_ne_one, if_false] at heq <;>
    first
    | (exfalso; omega)
    | (have e1 : a = a' := by omega
       have e2 : b = b' := by omega
       rw [e1, e2])

theorem doorWall_lt (d : Nat → Nat → Nat → Bool) :
    (openEdges d).image doorWall ⊆ Finset.range (rows * (2 * cols + 1) + cols) := by
  intro n hn
  obtain ⟨⟨⟨a, b⟩, k⟩, he, rfl⟩ := Finset.mem_image.1 hn
  rw [mem_openEdges] at he
  obtain ⟨⟨ha, hb⟩, hk, _⟩ := he
  rw [Finset.mem_range]
  simp only [rows_eq, cols_eq] at ha hb ⊢
  rcases hk with rfl | rfl <;>
    simp only [doorWall, cols_eq, if_true, OfNat.ofNat_ne_one, if_false] <;> omega

theorem wallList_toFinset (d : Nat → Nat → Nat → Bool) (hsym : DoorsSymmetric d) :
    (wallList d).toFinset =
      Finset.range (rows * (2 * cols + 1) + cols) \ (openEdges d).image doorWall := by
  ext n
  simp only [List.mem_toFinset, Finset.mem_sdiff, Finset.mem_range, Finset.mem_image,
    mem_wallList, mem_wallsOfCell]
  constructor
  · rintro ⟨i, j, hi, hj, hm⟩
    constructor
    · simp only [rows_eq, cols_eq] at hi hj hm ⊢
      omega
    · rintro ⟨⟨⟨a, b⟩, k⟩, he, heq⟩
      rw [mem_openEdges] at he
      obtain ⟨⟨ha, hb⟩, hk, hd⟩ := he
      rcases hk with rfl | rfl
      · have hb1 : b + 1 < cols := by
          by_contra hcon
          rw [(hsym.east a b ha hb).2 hcon] at hd
          exact Bool.noConfusion hd
        have hs := (hsym.east a b ha hb).1 hb1
        simp only [doorWall, if_true] at heq
        simp only [rows_eq, cols_eq] at hi hj hm ha hb hb1 heq
        rcases hm with ⟨h, _⟩ | ⟨h, hclosed⟩ | ⟨h, _⟩ | ⟨h, _⟩
        · omega
        · have e1 : i = a := by omega
          have e2 : j = b + 1 := by omega
          rw [e1, e2, ← hs, hd] at hclosed
          exact Bool.noConfusion hclosed
        · omega
        · omega
      · have ha1 : a + 1 < rows := by
          by_contra hcon
          rw [(hsym.south a b ha hb).2 hcon] at hd
          exact Bool.noConfusion hd
        have hs := (hsym.south a b ha hb).1 ha1
        simp only [doorWall, OfNat.ofNat_ne_one, if_false] at heq
        simp only [rows_eq, cols_eq] at hi hj hm ha hb ha1 heq
        rcases hm with ⟨h, hclosed⟩ | ⟨h, _⟩ | ⟨h, _⟩ | ⟨h, _⟩
        · have e1 : i = a + 1 := by omega
          have e2 : j = b := by omega
          rw [e1, e2, ← hs, hd] at hclosed
          exact Bool.noConfusion hclosed
        · omega
        · omega
        · omega
  · rintro ⟨hn, hnot⟩
    simp only [rows_eq, cols_eq] at hn
    by_cases hm : n % 11 < 5
    · by_cases hi : n / 11 < 8
      · cases hd : d (n / 11) (n % 11) 0 with
        | false =>
          refine ⟨n / 11, n % 11, hi, hm, Or.inl ⟨?_, hd⟩⟩
          simp only [cols_eq]
          omega
        | true =>
          exfalso
          have h0 : n / 11 ≠ 0 := by
            intro h0
            rw [h0, hsym.north_closed _ hm] at hd
            exact Bool.noConfusion hd
          obtain ⟨a, ha⟩ := Nat.exists_eq_succ_of_ne_zero h0
          have ha8 : a + 1 < rows := by
            simp only [rows_eq]
            omega
          have hs := (hsym.south a (n % 11) (by omega) hm).1 ha8
          rw [ha] at hd
          apply hnot
          refine ⟨((a, n % 11), 2), (mem_openEdges ..).2 ⟨⟨by omega, hm⟩, Or.inr rfl, ?_⟩, ?_⟩
          · rw [hs]
            exact hd
          · simp only [doorWall, OfNat.ofNat_ne_one, if_false, cols_eq]
            omega
      · refine ⟨7, n % 11, by decide, hm, Or.inr (Or.inr (Or.inr ⟨?_, rfl⟩))⟩
        simp only [cols_eq]
        omega
    · have hi : n / 11 < rows := by
        simp only [rows_eq]
        omega
      by_cases h10 : n % 11 = 10
      · refine ⟨n / 11, 4, hi, by decide, Or.inr (Or.inr (Or.inl ⟨?_, rfl⟩))⟩
        simp only [cols_eq]
        omega
      · have hj : n % 11 - 5 < cols := by
          simp only [cols_eq]
          omega
        cases hd : d (n / 11) (n % 11 - 5) 3 with
        | false =>
          refine ⟨n / 11, n % 11 - 5, hi, hj, Or.inr (Or.inl ⟨?_, hd⟩)⟩
          simp only [cols_eq]
          omega
        | true =>
          exfalso
          have h0 : n % 11 - 5 ≠ 0 := by
            intro h0
            rw [h0, hsym.west_closed _ hi] at hd
            exact Bool.noConfusion hd
          obtain ⟨b, hb⟩ := Nat.exists_eq_succ_of_ne_zero h0
          have hb5 : b + 1 < cols := by
            simp only [cols_eq]
            omega
          have hs := (hsym.east (n / 11) b hi (by omega)).1 hb5
          rw [hb] at hd
          apply hnot
          refine ⟨((n / 11, b), 1), (mem_openEdges ..).2 ⟨⟨hi, by omega⟩, Or.inl rfl, ?_⟩, ?_⟩
          · rw [hs]
            exact hd
          · simp only [doorWall, if_true, cols_eq]
            omega

/-- On a grid with symmetric doors the emission pass produces one wall for every unit edge
of the grid that carries no open door. -/
theorem wallList_length (d : Nat → Nat → Nat → Bool) (hsym : DoorsSymmetric d) :
    (wallList d).length + (openEdges d).card = rows * (2 * cols + 1) + cols := by
  rw [← List.toFinset_card_of_nodup (nodup_wallList d), wallList_toFinset d hsym,
    Finset.card_sdiff (doorWall_lt d), Finset.card_image_of_injOn (doorWall_injOn d),
    Finset.card_range]
  have h := Finset.card_le_card (doorWall_lt d)
  rw [Finset.card_image_of_injOn (doorWall_injOn d), Finset.card_range] at h
  omega


/-! ## Registry invariants -/

theorem find_of_mem_nodup : ∀ (m : LevelObjectsMap) (k : GObjectID) (v : Option GObject),
    (m.map Prod.fst).Nodup → (k, v) ∈ m → LevelObjectsMap.find m k = some v := by
  intro m
  induction m with
  | nil =>
    intro k v _ h
    simp at h
  | cons p rest ih =>
    intro k v hnd hmem
    obtain ⟨k', v'⟩ := p
    simp only [List.map_cons, List.nodup_cons] at hnd
    rcases List.mem_cons.1 hmem with h | h
    · have e1 : k = k' := congrArg Prod.fst h
      have e2 : v = v' := congrArg Prod.snd h
      simp [LevelObjectsMap.find, e1, e2]
    · have hne : k' ≠ k := by
        intro e
        apply hnd.1
        rw [e]
        exact List.mem_map.2 ⟨(k, v), h, rfl⟩
      simp only [LevelObjectsMap.find, hne, if_false]
      exact ih k v hnd.2 h

theorem find_erase_ne (m : LevelObjectsMap) (k k' : GObjectID) (h : k ≠ k') :
    LevelObjectsMap.find (LevelObjectsMap.erase m k) k' = LevelObjectsMap.find m k' := by
  induction m with
  | nil => rfl
  | cons p rest ih =>
    obtain ⟨a, v⟩ := p
    unfold LevelObjectsMap.erase at ih ⊢
    by_cases ha : a = k
    · have hak' : a ≠ k' := fun e => h (ha.symm.trans e)
      simp only [List.filter_cons, ha, bne_self_eq_false, Bool.false_eq_true, if_false]
      rw [ih]
      rw [← ha]
      simp [LevelObjectsMap.find, hak']
    · have hb : (a != k) = true := by simpa using ha
      simp only [List.filter_cons, hb, if_true]
      by_cases hak' : a = k'
      · simp [LevelObjectsMap.find, hak']
      · simp only [LevelObjectsMap.find, hak', if_false]
        exact ih

theorem RegistryOK.nil : RegistryOK [] :=
  ⟨fun _ h => absurd h (List.not_mem_nil _), List.nodup_nil⟩

theorem RegistryOK.erase {m : LevelObjectsMap} (h : RegistryOK m) (k : GObjectID) :
    RegistryOK (LevelObjectsMap.erase m k) := by
  unfold LevelObjectsMap.erase
  refine ⟨fun p hp => h.1 p (List.mem_filter.1 hp).1, ?_⟩
  exact List.Nodup.sublist (List.Sublist.map _ (List.filter_sublist _)) h.2

theorem RegistryOK.snoc {m : LevelObjectsMap} (h : RegistryOK m) (o : GObject)
    (hfresh : LevelObjectsMap.find m o.m_id = none) : RegistryOK (m ++ [(o.m_id, some o)]) := by
  constructor
  · intro p hp
    rcases List.mem_append.1 hp with hp | hp
    · exact h.1 p hp
    · exact ⟨o, List.mem_singleton.1 hp⟩
  · rw [List.map_append, List.nodup_append]
    refine ⟨h.2, List.nodup_singleton _, ?_⟩
    intro k hk hk'
    simp only [List.map_cons, List.map_nil, List.mem_singleton] at hk'
    obtain ⟨p, hp, e⟩ := List.mem_map.1 hk
    exact (find_eq_none_iff m o.m_id).1 hfresh p hp (e.trans hk')

theorem RegistryOK.find_of_mem {m : LevelObjectsMap} (h : RegistryOK m) {k : GObjectID}
    {o : GObject} (hmem : (k, some o) ∈ m) :
    LevelObjectsMap.find m o.m_id = some (some o) := by
  obtain ⟨o', e⟩ := h.1 _ hmem
  have e2 : some o = some o' := congrArg Prod.snd e
  have e3 : o = o' := Option.some.inj e2
  have e1 : k = o.m_id := by
    rw [e3]
    exact congrArg Prod.fst e
  rw [e1] at hmem
  exact find_of_mem_nodup m _ _ h.2 hmem

/-- What `createObject` does to the level in every case: the registry stays as it is or gains
one entry for the new object at its end; nothing else in the level changes, and the allocator
advances by one. -/
theorem createObject_cases (env : Env) (d : ObjectInstanceRes) (w : World) :
    ((Level.createObject env d w).2.level = w.level ∨
      (LevelObjectsMap.find w.level.m_gobjects w.rt.m_next_id = none ∧
        env.gobjectLoad d = true ∧
        (Level.createObject env d w).2.level =
          { w.level with
            m_gobjects := w.level.m_gobjects ++
              [(w.rt.m_next_id, some (createdObject env w.rt.m_next_id d))] })) ∧
    (Level.createObject env d w).2.rt = { w.rt with m_next_id := w.rt.m_next_id + 1 } := by
  cases hload : env.gobjectLoad d with
  | false =>
    rw [createObject_of_fail env d w hload]
    exact ⟨Or.inl rfl, rfl⟩
  | true =>
    cases hfind : LevelObjectsMap.find w.level.m_gobjects w.rt.m_next_id with
    | none =>
      rw [createObject_of_load env d w hload hfind]
      exact ⟨Or.inr ⟨rfl, rfl, rfl⟩, rfl⟩
    | some v =>
      refine ⟨Or.inl ?_, ?_⟩
      · unfold Level.createObject
        simp only [ObjectIDAllocator.alloc, GObject.load, hload, if_true,
          LevelObjectsMap.emplace, hfind]
      · unfold Level.createObject
        simp only [ObjectIDAllocator.alloc, GObject.load, hload, if_true]

theorem createdObject_id_name (env : Env) (k : GObjectID) (d : ObjectInstanceRes) :
    (createdObject env k d).m_id = k ∧ (createdObject env k d).m_name = d.m_name :=
  ⟨rfl, rfl⟩

theorem createObject_registryOK (env : Env) (d : ObjectInstanceRes) (w : World)
    (h : RegistryOK w.level.m_gobjects) :
    RegistryOK (Level.createObject env d w).2.level.m_gobjects := by
  rcases (createObject_cases env d w).1 with e | ⟨hfind, _, e⟩
  · rw [e]
    exact h
  · rw [e]
    exact h.snoc (createdObject env w.rt.m_next_id d) hfind

theorem find_append_of_some (m1 m2 : LevelObjectsMap) (k : GObjectID) (v : Option GObject)
    (h : LevelObjectsMap.find m1 k = some v) : LevelObjectsMap.find (m1 ++ m2) k = some v := by
  rw [find_append, h]

theorem createObject_bindingOK (env : Env) (d : ObjectInstanceRes) (w : World)
    (h : BindingOK w.level) : BindingOK (Level.createObject env d w).2.level := by
  rcases (createObject_cases env d w).1 with e | ⟨_, _, e⟩
  · rw [e]
    exact h
  · rw [e]
    intro object hobj
    exact find_append_of_some _ _ _ _ (h object hobj)

theorem createObjects_registryOK (env : Env) (ds : List ObjectInstanceRes) :
    ∀ w : World, RegistryOK w.level.m_gobjects →
      RegistryOK (Level.createObjects env ds w).level.m_gobjects := by
  induction ds with
  | nil => intro w h; exact h
  | cons d rest ih =>
    intro w h
    exact ih _ (createObject_registryOK env d w h)

theorem createObjects_bindingOK (env : Env) (ds : List ObjectInstanceRes) :
    ∀ w : World, BindingOK w.level → BindingOK (Level.createObjects env ds w).level := by
  induction ds with
  | nil => intro w h; exact h
  | cons d rest ih =>
    intro w h
    exact ih _ (createObject_bindingOK env d w h)


/-! ## Deletion, loading and placement keep the invariants -/

theorem activeObject_eq_some {lv : Level} {object : GObject}
    (h : lv.activeObject = some object) :
    ∃ c : Character, lv.m_current_active_character = some c ∧
      c.m_character_object = some object := by
  unfold Level.activeObject at h
  cases hc : lv.m_current_active_character with
  | none => rw [hc] at h; exact absurd h (by simp)
  | some c => rw [hc] at h; exact ⟨c, rfl, h⟩

theorem deleteGObjectByID_registryOK (env : Env) (go_id : GObjectID) (lv : Level)
    (h : RegistryOK lv.m_gobjects) :
    RegistryOK (Level.deleteGObjectByID env go_id lv).m_gobjects :=
  h.erase go_id

theorem deleteGObjectByID_bindingOK (env : Env) (go_id : GObjectID) (lv : Level)
    (h : BindingOK lv) : BindingOK (Level.deleteGObjectByID env go_id lv) := by
  intro object hobj
  obtain ⟨c', hc', hco'⟩ := activeObject_eq_some hobj
  have hreg : (Level.deleteGObjectByID env go_id lv).m_gobjects =
      LevelObjectsMap.erase lv.m_gobjects go_id := rfl
  rw [hreg]
  -- the binding before the call
  cases hc : lv.m_current_active_character with
  | none =>
    exfalso
    unfold Level.deleteGObjectByID at hc'
    simp only [hc] at hc'
    split at hc' <;> simp at hc'
  | some c =>
    have hkeep : c.m_character_object = some object := by
      unfold Level.deleteGObjectByID at hc'
      simp only [hc] at hc'
      split at hc'
      · split_ifs at hc' with hid
        · simp only [Option.some.injEq] at hc'
          rw [← hc'] at hco'
          simp [Character.setObject] at hco'
        · simp only [Option.some.injEq] at hc'
          rw [hc']
          exact hco'
      · simp only [Option.some.injEq] at hc'
        rw [hc']
        exact hco'
    have hact : lv.activeObject = some object := by
      unfold Level.activeObject
      rw [hc]
      exact hkeep
    have hfind := h object hact
    by_cases hk : go_id = object.m_id
    · exfalso
      unfold Level.deleteGObjectByID at hc'
      rw [hk] at hc'
      simp only [hfind, hc, Character.getObjectID, hkeep, if_true, Option.some.injEq] at hc'
      rw [← hc'] at hco'
      simp [Character.setObject] at hco'
    · rw [find_erase_ne _ _ _ hk]
      exact hfind

theorem bindingOK_of_empty {lv : Level} (h : BindingOK lv) (hreg : lv.m_gobjects = []) :
    lv.activeObject = none := by
  cases hobj : lv.activeObject with
  | none => rfl
  | some object =>
    have := h object hobj
    rw [hreg] at this
    simp [LevelObjectsMap.find] at this

theorem erase_length_lt (m : LevelObjectsMap) (k : GObjectID) (v : Option GObject) :
    (LevelObjectsMap.erase ((k, v) :: m) k).length ≤ m.length := by
  unfold LevelObjectsMap.erase
  simp only [List.filter_cons, bne_self_eq_false, Bool.false_eq_true, if_false]
  exact List.length_filter_le _ _

/-- The deletion loop of `generateMaze` ends with an empty registry (the iteration bound of the
model is not what stops it), keeps the allocator where it was and keeps both invariants. -/
theorem deleteAllLoop_spec (env : Env) :
    ∀ (n : Nat) (w : World), w.level.m_gobjects.length ≤ n →
      (Level.deleteAllLoop env n w).level.m_gobjects = [] ∧
      (Level.deleteAllLoop env n w).rt.m_next_id = w.rt.m_next_id ∧
      (BindingOK w.level → BindingOK (Level.deleteAllLoop env n w).level) := by
  intro n
  induction n with
  | zero =>
    intro w hlen
    have : w.level.m_gobjects = [] := List.length_eq_zero.1 (Nat.le_zero.1 hlen)
    exact ⟨this, rfl, fun h => h⟩
  | succ n ih =>
    intro w hlen
    cases hm : w.level.m_gobjects with
    | nil =>
      have e : Level.deleteAllLoop env (n + 1) w = w := by
        unfold Level.deleteAllLoop
        rw [hm]
      rw [e]
      exact ⟨hm, rfl, fun h => h⟩
    | cons p rest =>
      obtain ⟨k, v⟩ := p
      have e : Level.deleteAllLoop env (n + 1) w =
          Level.deleteAllLoop env n
            { level := Level.deleteGObjectByID env k w.level,
              rt := RenderSwapContext.addDeleteGameObject w.rt k } := by
        conv_lhs => unfold Level.deleteAllLoop
        rw [hm]
      rw [e]
      have hlen' : (Level.deleteGObjectByID env k w.level).m_gobjects.length ≤ n := by
        have h1 : (Level.deleteGObjectByID env k w.level).m_gobjects =
            LevelObjectsMap.erase w.level.m_gobjects k := rfl
        rw [h1, hm]
        have h2 := erase_length_lt rest k v
        rw [hm] at hlen
        simp only [List.length_cons] at hlen
        omega
      obtain ⟨h1, h2, h3⟩ := ih
        { level := Level.deleteGObjectByID env k w.level,
          rt := RenderSwapContext.addDeleteGameObject w.rt k } hlen'
      exact ⟨h1, h2, fun hb => h3 (deleteGObjectByID_bindingOK env k w.level hb)⟩


/-! ## The placement loop -/

theorem placeObjects_registry : ∀ (m : LevelObjectsMap) (c : Option Character),
    (Level.placeObjects m c).1 = m.map placedEntry := by
  intro m
  induction m with
  | nil => intro c; rfl
  | cons p rest ih =>
    intro c
    obtain ⟨k, v⟩ := p
    cases v with
    | none =>
      simp only [Level.placeObjects, List.map_cons, ih]
      rfl
    | some object =>
      by_cases hname : "Player" = object.m_name
      · simp only [Level.placeObjects, hname, if_true, List.map_cons, ih]
        simp [placedEntry, hname]
      · simp only [Level.placeObjects, hname, if_false, List.map_cons, ih]
        simp [placedEntry, hname, placedObject]

/-- The binding the placement loop leaves when the registry holds no object named "Player":
the one it started with. -/
theorem placeObjects_binding_none : ∀ (m : LevelObjectsMap) (c : Option Character),
    (∀ k o, (k, some o) ∈ m → o.m_name ≠ "Player") → (Level.placeObjects m c).2 = c := by
  intro m
  induction m with
  | nil => intro c _; rfl
  | cons p rest ih =>
    intro c h
    obtain ⟨k, v⟩ := p
    have hrest : ∀ k o, (k, some o) ∈ rest → o.m_name ≠ "Player" :=
      fun k o hm => h k o (List.mem_cons_of_mem _ hm)
    cases v with
    | none =>
      simp only [Level.placeObjects]
      exact ih c hrest
    | some object =>
      have hname : ¬ "Player" = object.m_name :=
        fun e => h k object (List.mem_cons_self _ _) e.symm
      simp only [Level.placeObjects, hname, if_false]
      exact ih c hrest

/-- The binding the placement loop leaves when `player` is the only object named "Player" in
the registry: a character wrapping `player`. -/
theorem placeObjects_binding_player (player : GObject) (hp : player.m_name = "Player") :
    ∀ (m : LevelObjectsMap) (c : Option Character),
      (∀ k o, (k, some o) ∈ m → o.m_name = "Player" → o = player) →
      (∃ k, (k, some player) ∈ m) →
      (Level.placeObjects m c).2 = some { m_character_object := some player } := by
  intro m
  induction m with
  | nil =>
    intro c _ h
    obtain ⟨k, hk⟩ := h
    simp at hk
  | cons p rest ih =>
    intro c huniq hmem
    obtain ⟨k, v⟩ := p
    have hrest : ∀ k o, (k, some o) ∈ rest → o.m_name = "Player" → o = player :=
      fun k o hm => huniq k o (List.mem_cons_of_mem _ hm)
    cases v with
    | none =>
      simp only [Level.placeObjects]
      apply ih c hrest
      obtain ⟨k', hk'⟩ := hmem
      rcases List.mem_cons.1 hk' with e | e
      · exact absurd (congrArg Prod.snd e) (by simp)
      · exact ⟨k', e⟩
    | some object =>
      by_cases hname : "Player" = object.m_name
      · have hobj : object = player := huniq k object (List.mem_cons_self _ _) hname.symm
        simp only [Level.placeObjects, hname, if_true]
        by_cases hin : ∃ k', (k', some player) ∈ rest
        · exact ih _ hrest hin
        · rw [placeObjects_binding_none rest _ ?_, hobj]
          intro k' o hm ho
          apply hin
          have := hrest k' o hm ho
          rw [this] at hm
          exact ⟨k', hm⟩
      · simp only [Level.placeObjects, hname, if_false]
        apply ih c hrest
        obtain ⟨k', hk'⟩ := hmem
        rcases List.mem_cons.1 hk' with e | e
        · exfalso
          have e2 : some player = some object := congrArg Prod.snd e
          rw [← Option.some.inj e2] at hname
          exact hname hp.symm
        · exact ⟨k', e⟩

theorem placedEntry_fst (p : GObjectID × Option GObject) : (placedEntry p).1 = p.1 := rfl

theorem placedEntry_some (k : GObjectID) (o : GObject) :
    ∃ o', placedEntry (k, some o) = (k, some o') ∧ o'.m_id = o.m_id ∧ o'.m_name = o.m_name ∧
      (o.m_name = "Player" → o' = o) := by
  by_cases hname : "Player" = o.m_name
  · refine ⟨o, ?_, rfl, rfl, fun _ => rfl⟩
    simp [placedEntry, hname]
  · refine ⟨placedObject o, ?_, (placedObject_id_name o).1, (placedObject_id_name o).2, ?_⟩
    · simp [placedEntry, hname]
    · intro h
      exact absurd h.symm hname

theorem RegistryOK.placed {m : LevelObjectsMap} (h : RegistryOK m) :
    RegistryOK (m.map placedEntry) := by
  constructor
  · intro p hp
    obtain ⟨p0, hp0, e⟩ := List.mem_map.1 hp
    obtain ⟨o, ho⟩ := h.1 p0 hp0
    rw [ho] at e
    obtain ⟨o', e', hid, _, _⟩ := placedEntry_some o.m_id o
    refine ⟨o', ?_⟩
    rw [← e, e', hid]
  · rw [List.map_map]
    have : (Prod.fst ∘ placedEntry) = (Prod.fst : GObjectID × Option GObject → GObjectID) := by
      funext p
      rfl
    rw [this]
    exact h.2

theorem registryNames_placed (m : LevelObjectsMap) :
    registryNames (m.map placedEntry) = registryNames m := by
  induction m with
  | nil => rfl
  | cons p rest ih =>
    obtain ⟨k, v⟩ := p
    cases v with
    | none =>
      have e : placedEntry (k, none) = (k, none) := rfl
      simp only [List.map_cons, e, registryNames, List.filterMap_cons, Option.map_none'] at ih ⊢
      exact ih
    | some o =>
      obtain ⟨o', e', _, hname, _⟩ := placedEntry_some k o
      simp only [List.map_cons, e', registryNames, List.filterMap_cons, Option.map_some',
        hname] at ih ⊢
      rw [ih]


/-! ## The stages of `generateMaze` -/

theorem emitWalls_eq_createObjects (env : Env) (mazeDoors : Nat → Nat → Nat → Bool) (w : World) :
    Level.emitWalls env mazeDoors w =
      Level.createObjects env ((emittedWallNums mazeDoors).map wallRes) w := by
  unfold Level.emitWalls
  rw [emitWallsWith_eq_foldl, foldl_createObject_eq, emittedWallNums_eq]

/-- `generateMaze` in terms of its stages: deletion loop, the two baseline objects, the wall
creations of the emission pass, then the placement loop over the registry. -/
theorem generateMaze_eq (env : Env) (rand : Nat → Nat) (w : World) :
    Level.generateMaze env rand w =
      Level.mazeFinish
        (Level.createObjects env ((emittedWallNums (carve rand).grid.mazeDoors).map wallRes)
          (Level.mazePlayer env w).2) := by
  rw [← emitWalls_eq_createObjects]
  rfl

theorem mazeFinish_registry (w : World) :
    (Level.mazeFinish w).level.m_gobjects = w.level.m_gobjects.map placedEntry :=
  placeObjects_registry _ _

theorem mazeFinish_character (w : World) :
    (Level.mazeFinish w).level.m_current_active_character =
      (Level.placeObjects w.level.m_gobjects w.level.m_current_active_character).2 := rfl

theorem createObjects_extra (env : Env) (ds : List ObjectInstanceRes) :
    ∀ w : World, ∃ extra : LevelObjectsMap,
      (Level.createObjects env ds w).level =
        { w.level with m_gobjects := w.level.m_gobjects ++ extra } ∧
      ∀ p ∈ extra, ∃ k d, d ∈ ds ∧ p = (k, some (createdObject env k d)) := by
  induction ds with
  | nil =>
    intro w
    refine ⟨[], ?_, fun p hp => absurd hp (List.not_mem_nil _)⟩
    simp [Level.createObjects]
  | cons d rest ih =>
    intro w
    obtain ⟨extra, he, hall⟩ := ih (Level.createObject env d w).2
    simp only [Level.createObjects]
    rcases (createObject_cases env d w).1 with e | ⟨_, _, e⟩
    · refine ⟨extra, ?_, fun p hp => ?_⟩
      · rw [he, e]
      · obtain ⟨k, d', hd', hp'⟩ := hall p hp
        exact ⟨k, d', List.mem_cons_of_mem _ hd', hp'⟩
    · refine ⟨(w.rt.m_next_id, some (createdObject env w.rt.m_next_id d)) :: extra, ?_,
        fun p hp => ?_⟩
      · rw [he, e]
        simp
      · rcases List.mem_cons.1 hp with hp | hp
        · exact ⟨_, d, List.mem_cons_self _ _, hp⟩
        · obtain ⟨k, d', hd', hp'⟩ := hall p hp
          exact ⟨k, d', List.mem_cons_of_mem _ hd', hp'⟩

theorem mazeCleared_spec (env : Env) (w : World) :
    (Level.mazeCleared env w).level.m_gobjects = [] ∧
    (Level.mazeCleared env w).rt.m_next_id = w.rt.m_next_id ∧
    (BindingOK w.level → (Level.mazeCleared env w).level.activeObject = none) := by
  obtain ⟨h1, h2, h3⟩ := deleteAllLoop_spec env w.level.m_gobjects.length w (Nat.le_refl _)
  exact ⟨h1, h2, fun hb => bindingOK_of_empty (h3 hb) h1⟩

/-- After `createObject(Ground)` the registry is empty or holds the ground object alone, under
the first identity handed out. -/
theorem mazeGround_spec (env : Env) (w : World) :
    ((Level.mazeGround env w).level.m_gobjects = [] ∨
      (Level.mazeGround env w).level.m_gobjects =
        [(w.rt.m_next_id, some (createdObject env w.rt.m_next_id Ground))]) ∧
    (Level.mazeGround env w).rt.m_next_id = w.rt.m_next_id + 1 ∧
    (Level.mazeGround env w).level.m_current_active_character =
      (Level.mazeCleared env w).level.m_current_active_character := by
  obtain ⟨h1, h2, _⟩ := mazeCleared_spec env w
  obtain ⟨hl, hr⟩ := createObject_cases env Ground (Level.mazeCleared env w)
  unfold Level.mazeGround
  refine ⟨?_, ?_, createObject_character _ _ _⟩
  · rcases hl with e | ⟨_, _, e⟩
    · rw [e]
      exact Or.inl h1
    · rw [e]
      right
      simp only [h1, h2, List.nil_append]
  · rw [hr]
    simp only [h2]

/-- The call `createObject(Player)` when the player object initialises: it returns the second
identity handed out and appends the player object to the registry. -/
theorem mazePlayer_of_load (env : Env) (w : World) (hP : env.gobjectLoad Player = true) :
    (Level.mazePlayer env w).1 = w.rt.m_next_id + 1 ∧
    (Level.mazePlayer env w).2.level.m_gobjects =
      (Level.mazeGround env w).level.m_gobjects ++
        [(w.rt.m_next_id + 1, some (createdObject env (w.rt.m_next_id + 1) Player))] := by
  obtain ⟨hreg, hnext, _⟩ := mazeGround_spec env w
  have hfind : LevelObjectsMap.find (Level.mazeGround env w).level.m_gobjects
      (Level.mazeGround env w).rt.m_next_id = none := by
    rw [hnext]
    rcases hreg with e | e
    · rw [e]
      rfl
    · rw [e]
      simp [LevelObjectsMap.find]
  unfold Level.mazePlayer
  rw [createObject_of_load env Player _ hP hfind, hnext]
  exact ⟨rfl, rfl⟩

theorem mazePlayer_registryOK (env : Env) (w : World) :
    RegistryOK (Level.mazePlayer env w).2.level.m_gobjects := by
  unfold Level.mazePlayer Level.mazeGround
  apply createObject_registryOK
  apply createObject_registryOK
  rw [(mazeCleared_spec env w).1]
  exact RegistryOK.nil


/-! ## The registry and the binding after `generateMaze` -/

theorem mazeFinish_registryOK (env : Env) (l : List Nat) (w : World) :
    RegistryOK (Level.mazeFinish
      (Level.createObjects env (l.map wallRes) (Level.mazePlayer env w).2)).level.m_gobjects := by
  rw [mazeFinish_registry]
  exact (createObjects_registryOK env _ _ (mazePlayer_registryOK env w)).placed

theorem wallRes_name_ne_player (d : ObjectInstanceRes) (l : List Nat)
    (hd : d ∈ l.map wallRes) : d.m_name ≠ "Player" := by
  obtain ⟨n, _, e⟩ := List.mem_map.1 hd
  rw [← e]
  exact fun h => player_ne_wallName n h.symm

theorem ground_name_ne_player : Ground.m_name ≠ "Player" := by decide

/-- When the player object initialises, `generateMaze` leaves the binding on that object, and
the object is registered under the identity `createObject(Player)` returned. -/
theorem mazeFinish_player (env : Env) (l : List Nat) (w : World)
    (hP : env.gobjectLoad Player = true) :
    (Level.mazeFinish
      (Level.createObjects env (l.map wallRes) (Level.mazePlayer env w).2)).level.m_current_active_character =
      some { m_character_object := some (createdObject env (w.rt.m_next_id + 1) Player) } ∧
    (w.rt.m_next_id + 1, some (createdObject env (w.rt.m_next_id + 1) Player)) ∈
      (Level.mazeFinish
      (Level.createObjects env (l.map wallRes) (Level.mazePlayer env w).2)).level.m_gobjects := by
  obtain ⟨_, hreg⟩ := mazePlayer_of_load env w hP
  obtain ⟨hground, _, _⟩ := mazeGround_spec env w
  obtain ⟨extra, he, hextra⟩ := createObjects_extra env
    (l.map wallRes) (Level.mazePlayer env w).2
  have hmem : (w.rt.m_next_id + 1, some (createdObject env (w.rt.m_next_id + 1) Player)) ∈
      (Level.createObjects env (l.map wallRes)
        (Level.mazePlayer env w).2).level.m_gobjects := by
    rw [he]
    show _ ∈ (Level.mazePlayer env w).2.level.m_gobjects ++ extra
    rw [hreg]
    simp
  constructor
  · rw [mazeFinish_character]
    apply placeObjects_binding_player _ rfl _ _ ?_ ⟨_, hmem⟩
    intro k o hko hname
    rw [he] at hko
    have hko' : (k, some o) ∈ (Level.mazePlayer env w).2.level.m_gobjects ++ extra := hko
    rw [hreg] at hko'
    rcases List.mem_append.1 hko' with h | h
    · rcases List.mem_append.1 h with h | h
      · exfalso
        rcases hground with e | e
        · rw [e] at h
          simp at h
        · rw [e] at h
          have e2 : some o = some (createdObject env w.rt.m_next_id Ground) :=
            congrArg Prod.snd (List.mem_singleton.1 h)
          rw [Option.some.inj e2] at hname
          exact ground_name_ne_player hname
      · have e2 : some o = some (createdObject env (w.rt.m_next_id + 1) Player) :=
          congrArg Prod.snd (List.mem_singleton.1 h)
        exact Option.some.inj e2
    · exfalso
      obtain ⟨k', d, hd, e⟩ := hextra _ h
      have e2 : some o = some (createdObject env k' d) := congrArg Prod.snd e
      rw [Option.some.inj e2] at hname
      exact wallRes_name_ne_player d _ hd hname
  · rw [mazeFinish_registry]
    refine List.mem_map.2 ⟨_, hmem, ?_⟩
    simp [placedEntry, createdObject, GObject.load, Player]

/-- When the player object does not initialise, `generateMaze` leaves the binding as the
deletion loop left it. -/
theorem mazeFinish_no_player (env : Env) (l : List Nat) (w : World)
    (hP : env.gobjectLoad Player = false) :
    (Level.mazeFinish
      (Level.createObjects env (l.map wallRes) (Level.mazePlayer env w).2)).level.m_current_active_character =
      (Level.mazeCleared env w).level.m_current_active_character := by
  obtain ⟨hground, _, hchar⟩ := mazeGround_spec env w
  obtain ⟨extra, he, hextra⟩ := createObjects_extra env
    (l.map wallRes) (Level.mazePlayer env w).2
  have hlevel : (Level.mazePlayer env w).2.level = (Level.mazeGround env w).level := by
    unfold Level.mazePlayer
    rw [createObject_of_fail env Player _ hP]
  rw [mazeFinish_character]
  rw [placeObjects_binding_none, createObjects_character, hlevel, hchar]
  intro k o hko hname
  rw [he, hlevel] at hko
  have hko' : (k, some o) ∈ (Level.mazeGround env w).level.m_gobjects ++ extra := hko
  rcases List.mem_append.1 hko' with h | h
  · rcases hground with e | e
    · rw [e] at h
      simp at h
    · rw [e] at h
      have e2 : some o = some (createdObject env w.rt.m_next_id Ground) :=
        congrArg Prod.snd (List.mem_singleton.1 h)
      rw [Option.some.inj e2] at hname
      exact ground_name_ne_player hname
  · obtain ⟨k', d, hd, e⟩ := hextra _ h
    have e2 : some o = some (createdObject env k' d) := congrArg Prod.snd e
    rw [Option.some.inj e2] at hname
    exact wallRes_name_ne_player d _ hd hname

theorem mazeFinish_bindingOK (env : Env) (l : List Nat) (w : World)
    (h : BindingOK w.level) : BindingOK (Level.mazeFinish
      (Level.createObjects env (l.map wallRes) (Level.mazePlayer env w).2)).level := by
  intro object hobj
  cases hP : env.gobjectLoad Player with
  | true =>
    obtain ⟨hc, hmem⟩ := mazeFinish_player env l w hP
    have e : object = createdObject env (w.rt.m_next_id + 1) Player := by
      unfold Level.activeObject at hobj
      rw [hc] at hobj
      exact (Option.some.inj hobj).symm
    rw [e]
    exact (mazeFinish_registryOK env l w).find_of_mem hmem
  | false =>
    exfalso
    have hc := mazeFinish_no_player env l w hP
    have hnone := (mazeCleared_spec env w).2.2 h
    unfold Level.activeObject at hobj hnone
    rw [hc, hnone] at hobj
    exact absurd hobj (by simp)

/-- When the ground, the player and every wall initialise, the registry after `generateMaze`
holds exactly the objects created by this run, under consecutive identities from the
allocator's position at entry, each passed through the placement loop. -/
theorem mazeFinish_all (env : Env) (l : List Nat) (w : World)
    (hG : env.gobjectLoad Ground = true) (hP : env.gobjectLoad Player = true)
    (hW : ∀ n, env.gobjectLoad (wallRes n) = true) :
    (Level.mazeFinish
      (Level.createObjects env (l.map wallRes) (Level.mazePlayer env w).2)).level.m_gobjects =
      (createdEntries env w.rt.m_next_id
        (Ground :: Player :: l.map wallRes)).map
        placedEntry := by
  obtain ⟨h1, h2, _⟩ := mazeCleared_spec env w
  have hk : KeysBelow (Level.mazeCleared env w) := by
    intro p hp
    rw [h1] at hp
    exact absurd hp (List.not_mem_nil _)
  have hall : ∀ d ∈ Ground :: Player ::
      l.map wallRes, env.gobjectLoad d = true := by
    intro d hd
    rcases List.mem_cons.1 hd with e | hd
    · rw [e]; exact hG
    · rcases List.mem_cons.1 hd with e | hd
      · rw [e]; exact hP
      · obtain ⟨n, _, e⟩ := List.mem_map.1 hd
        rw [← e]
        exact hW n
  have hco := createObjects_all env _ (Level.mazeCleared env w) hk hall
  have hstage : Level.createObjects env
      (l.map wallRes) (Level.mazePlayer env w).2 =
      Level.createObjects env
        (Ground :: Player :: l.map wallRes)
        (Level.mazeCleared env w) := rfl
  rw [mazeFinish_registry, hstage, hco]
  show List.map placedEntry ((Level.mazeCleared env w).level.m_gobjects ++ _) = _
  rw [h1, h2, List.nil_append]


/-! ## Every operation keeps the registry invariants -/

theorem load_invariants (env : Env) (level_res_url : String) (w : World)
    (hreg : RegistryOK w.level.m_gobjects) (hbind : BindingOK w.level) :
    RegistryOK (Level.load env level_res_url w).2.level.m_gobjects ∧
      BindingOK (Level.load env level_res_url w).2.level := by
  cases hfetch : env.loadAsset level_res_url with
  | none =>
    have e : (Level.load env level_res_url w).2 =
        { level := { w.level with m_level_res_url := level_res_url }, rt := w.rt } := by
      unfold Level.load
      simp only [hfetch]
    rw [e]
    exact ⟨hreg, hbind⟩
  | some level_res =>
    rw [load_of_fetch env level_res_url w level_res hfetch]
    have hreg' : RegistryOK (Level.loadCreated env level_res_url level_res w).level.m_gobjects :=
      createObjects_registryOK env _ _ hreg
    have hbind' : BindingOK (Level.loadCreated env level_res_url level_res w).level :=
      createObjects_bindingOK env _ (Level.loadStart level_res_url level_res w) hbind
    refine ⟨hreg', ?_⟩
    obtain ⟨h1, h2⟩ := loadCharacterLoop_spec level_res.m_character_name
      (Level.loadCreated env level_res_url level_res w).level.m_gobjects
      (Level.loadCreated env level_res_url level_res w).level.m_current_active_character
    by_cases hex : ∃ go_id o,
        (go_id, some o) ∈ (Level.loadCreated env level_res_url level_res w).level.m_gobjects ∧
        o.m_name = level_res.m_character_name
    · obtain ⟨go_id, o, hmem, _, hc⟩ := h1 hex
      intro object hobj
      have e : object = o := by
        unfold Level.activeObject at hobj
        simp only [hc] at hobj
        exact (Option.some.inj hobj).symm
      rw [e]
      exact hreg'.find_of_mem hmem
    · have hc := h2 hex
      intro object hobj
      apply hbind' object
      unfold Level.activeObject at hobj ⊢
      simp only [hc] at hobj
      exact hobj

theorem generateMaze_invariants (env : Env) (rand : Nat → Nat) (w : World)
    (hbind : BindingOK w.level) :
    RegistryOK (Level.generateMaze env rand w).level.m_gobjects ∧
      BindingOK (Level.generateMaze env rand w).level := by
  have h1 := mazeFinish_registryOK env (emittedWallNums (carve rand).grid.mazeDoors) w
  have h2 := mazeFinish_bindingOK env (emittedWallNums (carve rand).grid.mazeDoors) w hbind
  rw [← generateMaze_eq] at h1 h2
  exact ⟨h1, h2⟩

theorem applyOp_invariants (env : Env) (op : LevelOp) (w : World)
    (hreg : RegistryOK w.level.m_gobjects) (hbind : BindingOK w.level) :
    RegistryOK (applyOp env op w).level.m_gobjects ∧ BindingOK (applyOp env op w).level := by
  cases op with
  | load level_res_url => exact load_invariants env level_res_url w hreg hbind
  | createObject d =>
    exact ⟨createObject_registryOK env d w hreg, createObject_bindingOK env d w hbind⟩
  | deleteGObjectByID go_id =>
    exact ⟨deleteGObjectByID_registryOK env go_id w.level hreg,
      deleteGObjectByID_bindingOK env go_id w.level hbind⟩
  | unload =>
    refine ⟨RegistryOK.nil, ?_⟩
    intro object hobj
    exact absurd hobj (by simp [applyOp, Level.unload, Level.clear, Level.activeObject])
  | generateMaze rand => exact generateMaze_invariants env rand w hbind

theorem runOps_invariants (env : Env) (ops : List LevelOp) :
    ∀ w : World, RegistryOK w.level.m_gobjects → BindingOK w.level →
      RegistryOK (runOps env ops w).level.m_gobjects ∧ BindingOK (runOps env ops w).level := by
  induction ops with
  | nil => intro w h1 h2; exact ⟨h1, h2⟩
  | cons op rest ih =>
    intro w h1 h2
    obtain ⟨h1', h2'⟩ := applyOp_invariants env op w h1 h2
    exact ih (applyOp env op w) h1' h2'

theorem bindingOK_fresh : BindingOK Level.fresh := by
  intro object hobj
  exact absurd hobj (by simp [Level.fresh, Level.activeObject])

theorem wallNames_count (l : List Nat) (name : String)
    (h : ∀ n : Nat, name ≠ "Wall_" ++ toString n) :
    (l.map (fun n : Nat => "Wall_" ++ toString n)).count name = 0 := by
  apply List.count_eq_zero_of_not_mem
  intro hm
  obtain ⟨n, _, e⟩ := List.mem_map.1 hm
  exact h n e.symm

theorem emittedWallNums_length (rand : Nat → Nat) :
    (emittedWallNums (carve rand).grid.mazeDoors).length = 54 := by
  obtain ⟨inv, _, _, _⟩ := carve_done rand
  have h := wallList_length (carve rand).grid.mazeDoors inv.doorsSymmetric
  rw [inv.edge_count] at h
  rw [emittedWallNums_eq]
  simp only [rows_eq, cols_eq] at h
  omega


/-- Sanity check of the binding invariant on a run: after `load` of the one-object description
the binding wraps the registered object; after `deleteGObjectByID` of that object it wraps
nothing. -/
theorem runOps_binding_example :
    (runOps sampleEnv [LevelOp.load "asset/level/hero.level.json"] sampleWorld).level.activeObject
      = some heroObject ∧
    (runOps sampleEnv [LevelOp.load "asset/level/hero.level.json", LevelOp.deleteGObjectByID 0]
      sampleWorld).level.activeObject = none := by
  decide


theorem createObjects_next_id (env : Env) (ds : List ObjectInstanceRes) :
    ∀ w : World, (Level.createObjects env ds w).rt.m_next_id = w.rt.m_next_id + ds.length := by
  induction ds with
  | nil => intro w; rfl
  | cons d rest ih =>
    intro w
    simp only [Level.createObjects, List.length_cons]
    rw [ih, (createObject_cases env d w).2]
    show w.rt.m_next_id + 1 + rest.length = w.rt.m_next_id + (rest.length + 1)
    unfold GObjectID
    omega

/-- The allocator after `generateMaze`: one identity handed out per creation attempt. -/
theorem mazeFinish_next_id (env : Env) (l : List Nat) (w : World) :
    (Level.mazeFinish
      (Level.createObjects env (l.map wallRes) (Level.mazePlayer env w).2)).rt.m_next_id =
      w.rt.m_next_id + (l.length + 2) := by
  have hstage : Level.createObjects env (l.map wallRes) (Level.mazePlayer env w).2 =
      Level.createObjects env (Ground :: Player :: l.map wallRes) (Level.mazeCleared env w) :=
    rfl
  show (Level.createObjects env (l.map wallRes) (Level.mazePlayer env w).2).rt.m_next_id = _
  rw [hstage, createObjects_next_id, (mazeCleared_spec env w).2.1]
  simp only [List.length_cons, List.length_map]


/-! ## Registry and lifecycle claims -/

/-- C2: when `createObject(d)` succeeds (initialisation reports success and the allocated
identity is not yet a key of the registry), `getGObjectByID` on the returned identity yields the
object created by that call, which carries that identity and the name `d.m_name`; after
`deleteGObjectByID` on that identity the same lookup yields the empty result. -/
theorem createObject_get_delete (env : Env) (d : ObjectInstanceRes) (w : World)
    (hload : env.gobjectLoad d = true)
    (hfresh : LevelObjectsMap.find w.level.m_gobjects w.rt.m_next_id = none) :
    Level.getGObjectByID (Level.createObject env d w).2.level (Level.createObject env d w).1 =
        some (createdObject env (Level.createObject env d w).1 d) ∧
      (createdObject env (Level.createObject env d w).1 d).m_id =
        (Level.createObject env d w).1 ∧
      (createdObject env (Level.createObject env d w).1 d).m_name = d.m_name ∧
      Level.getGObjectByID
        (Level.deleteGObjectByID env (Level.createObject env d w).1
          (Level.createObject env d w).2.level)
        (Level.createObject env d w).1 = none := by
  rw [createObject_of_load env d w hload hfresh]
  refine ⟨?_, rfl, rfl, ?_⟩
  · simp only [Level.getGObjectByID]
    rw [find_append, hfresh]
    simp [LevelObjectsMap.find]
  · simp only [Level.getGObjectByID, Level.deleteGObjectByID]
    rw [find_erase_self]

theorem createObject_get_delete_witness :
    (sampleEnv.gobjectLoad sampleRes = true ∧
      LevelObjectsMap.find sampleWorld.level.m_gobjects sampleWorld.rt.m_next_id = none) ∧
    (Level.getGObjectByID (Level.createObject sampleEnv sampleRes sampleWorld).2.level
        (Level.createObject sampleEnv sampleRes sampleWorld).1 =
        some (createdObject sampleEnv (Level.createObject sampleEnv sampleRes sampleWorld).1
          sampleRes) ∧
      (createdObject sampleEnv (Level.createObject sampleEnv sampleRes sampleWorld).1
        sampleRes).m_id = (Level.createObject sampleEnv sampleRes sampleWorld).1 ∧
      (createdObject sampleEnv (Level.createObject sampleEnv sampleRes sampleWorld).1
        sampleRes).m_name = sampleRes.m_name ∧
      Level.getGObjectByID
        (Level.deleteGObjectByID sampleEnv (Level.createObject sampleEnv sampleRes sampleWorld).1
          (Level.createObject sampleEnv sampleRes sampleWorld).2.level)
        (Level.createObject sampleEnv sampleRes sampleWorld).1 = none) :=
  ⟨⟨rfl, rfl⟩, createObject_get_delete sampleEnv sampleRes sampleWorld rfl rfl⟩

/-- C3: when the active character is bound to an object `X` that the registry holds under
`X`'s identity, `deleteGObjectByID(X.id)` leaves the binding wrapping no object and removes
`X.id` from the registry. -/
theorem deleteGObjectByID_clears_binding (env : Env) (lv : Level) (X : GObject)
    (hbound : lv.m_current_active_character = some { m_character_object := some X })
    (hreg : LevelObjectsMap.find lv.m_gobjects X.m_id = some (some X)) :
    Level.activeObject (Level.deleteGObjectByID env X.m_id lv) = none ∧
      LevelObjectsMap.find (Level.deleteGObjectByID env X.m_id lv).m_gobjects X.m_id = none ∧
      Level.getGObjectByID (Level.deleteGObjectByID env X.m_id lv) X.m_id = none := by
  refine ⟨?_, ?_, ?_⟩
  · simp [Level.deleteGObjectByID, Level.activeObject, hreg, hbound, Character.getObjectID,
      Character.setObject]
  · simp only [Level.deleteGObjectByID]
    exact find_erase_self _ _
  · simp only [Level.getGObjectByID, Level.deleteGObjectByID]
    rw [find_erase_self]

theorem deleteGObjectByID_clears_binding_witness :
    (boundLevel.m_current_active_character = some { m_character_object := some heroObject } ∧
      LevelObjectsMap.find boundLevel.m_gobjects heroObject.m_id = some (some heroObject)) ∧
    (Level.activeObject (Level.deleteGObjectByID sampleEnv heroObject.m_id boundLevel) = none ∧
      LevelObjectsMap.find
        (Level.deleteGObjectByID sampleEnv heroObject.m_id boundLevel).m_gobjects
        heroObject.m_id = none ∧
      Level.getGObjectByID (Level.deleteGObjectByID sampleEnv heroObject.m_id boundLevel)
        heroObject.m_id = none) :=
  ⟨⟨rfl, rfl⟩, deleteGObjectByID_clears_binding sampleEnv boundLevel heroObject rfl rfl⟩

/-- C4: with an allocator that does not hand out the invalid sentinel (and whose identities are
fresh: every key of the registry was handed out earlier), `createObject(d)` returns the invalid
identity exactly when the initialisation from `d` fails; in that case the level, in particular
registry and active-character binding, is as before; otherwise the registry gains exactly one
entry, keyed by the returned identity, and the binding is as before. -/
theorem createObject_invalid_iff (env : Env) (d : ObjectInstanceRes) (w : World)
    (hvalid : w.rt.m_next_id ≠ env.k_invalid_gobject_id) (hfresh : KeysBelow w) :
    ((Level.createObject env d w).1 = env.k_invalid_gobject_id ↔ env.gobjectLoad d = false) ∧
      (env.gobjectLoad d = false → (Level.createObject env d w).2.level = w.level) ∧
      (env.gobjectLoad d = true →
        (∃ o, (Level.createObject env d w).2.level.m_gobjects =
            w.level.m_gobjects ++ [((Level.createObject env d w).1, some o)]) ∧
        LevelObjectsMap.find w.level.m_gobjects (Level.createObject env d w).1 = none ∧
        (Level.createObject env d w).2.level.m_current_active_character =
          w.level.m_current_active_character) := by
  cases hload : env.gobjectLoad d with
  | false =>
    rw [createObject_of_fail env d w hload]
    simp
  | true =>
    rw [createObject_of_load env d w hload hfresh.find_next]
    refine ⟨by simpa using hvalid, by simp, fun _ => ⟨⟨_, rfl⟩, hfresh.find_next, rfl⟩⟩

theorem createObject_invalid_iff_witness :
    (boundWorld.rt.m_next_id ≠ sampleEnv.k_invalid_gobject_id ∧ KeysBelow boundWorld) ∧
    (((Level.createObject sampleEnv sampleRes boundWorld).1 = sampleEnv.k_invalid_gobject_id ↔
        sampleEnv.gobjectLoad sampleRes = false) ∧
      (sampleEnv.gobjectLoad sampleRes = false →
        (Level.createObject sampleEnv sampleRes boundWorld).2.level = boundWorld.level) ∧
      (sampleEnv.gobjectLoad sampleRes = true →
        (∃ o, (Level.createObject sampleEnv sampleRes boundWorld).2.level.m_gobjects =
            boundWorld.level.m_gobjects ++
              [((Level.createObject sampleEnv sampleRes boundWorld).1, some o)]) ∧
        LevelObjectsMap.find boundWorld.level.m_gobjects
          (Level.createObject sampleEnv sampleRes boundWorld).1 = none ∧
        (Level.createObject sampleEnv sampleRes boundWorld).2.level.m_current_active_character =
          boundWorld.level.m_current_active_character)) :=
  ⟨⟨by decide, keysBelow_boundWorld⟩,
    createObject_invalid_iff sampleEnv sampleRes boundWorld (by decide) keysBelow_boundWorld⟩

/-- C5 (as the code behaves): when the asset fetch fails, `load` returns `false` and leaves the
registry, the physics-scene handle, the active-character binding, the loaded flag and the
collaborators untouched; the stored resource locator, assigned before the fetch, is the
requested one. -/
theorem load_fetch_failure (env : Env) (level_res_url : String) (w : World)
    (hfetch : env.loadAsset level_res_url = none) :
    (Level.load env level_res_url w).1 = false ∧
      (Level.load env level_res_url w).2.level.m_gobjects = w.level.m_gobjects ∧
      (Level.load env level_res_url w).2.level.m_physics_scene = w.level.m_physics_scene ∧
      (Level.load env level_res_url w).2.level.m_current_active_character =
        w.level.m_current_active_character ∧
      (Level.load env level_res_url w).2.level.m_is_loaded = w.level.m_is_loaded ∧
      (Level.load env level_res_url w).2.level.m_level_res_url = level_res_url ∧
      (Level.load env level_res_url w).2.rt = w.rt := by
  unfold Level.load
  simp [hfetch]

theorem load_fetch_failure_witness :
    sampleEnv.loadAsset "asset/level/none.level.json" = none ∧
    ((Level.load sampleEnv "asset/level/none.level.json" sampleWorld).1 = false ∧
      (Level.load sampleEnv "asset/level/none.level.json" sampleWorld).2.level.m_gobjects =
        sampleWorld.level.m_gobjects ∧
      (Level.load sampleEnv "asset/level/none.level.json" sampleWorld).2.level.m_physics_scene =
        sampleWorld.level.m_physics_scene ∧
      (Level.load sampleEnv "asset/level/none.level.json"
        sampleWorld).2.level.m_current_active_character =
        sampleWorld.level.m_current_active_character ∧
      (Level.load sampleEnv "asset/level/none.level.json" sampleWorld).2.level.m_is_loaded =
        sampleWorld.level.m_is_loaded ∧
      (Level.load sampleEnv "asset/level/none.level.json" sampleWorld).2.level.m_level_res_url =
        "asset/level/none.level.json" ∧
      (Level.load sampleEnv "asset/level/none.level.json" sampleWorld).2.rt = sampleWorld.rt) :=
  ⟨by decide, load_fetch_failure sampleEnv "asset/level/none.level.json" sampleWorld
    (by decide)⟩

/-- C5, counterexample to the claim as stated: a failed fetch on `boundLevel` returns `false`
but overwrites the stored resource locator. -/
theorem load_fetch_failure_overwrites_locator :
    sampleEnv.loadAsset "asset/level/none.level.json" = none ∧
    (Level.load sampleEnv "asset/level/none.level.json" boundWorld).1 = false ∧
    (Level.load sampleEnv "asset/level/none.level.json"
        boundWorld).2.level.m_level_res_url ≠ boundLevel.m_level_res_url := by
  refine ⟨by decide, ?_, ?_⟩
  · exact (load_of_fetch_failure sampleEnv _ _ (by decide)).1
  · rw [(load_of_fetch_failure sampleEnv _ _ (by decide)).2]
    decide

/-- C6: a `load` whose fetch succeeds on a fresh level (empty registry, no active character)
returns `true` and sets the loaded flag; afterwards the active character is bound exactly when
some object of the registry carries the description's character name, and the bound object is
one of those objects.  A description without objects yields no active character; for a
description with the single object "Hero" and character name "Hero", the object the registry
holds for it is registered under its own identity and is the one the binding wraps (the
registry holds exactly that object whenever it initialises). -/
theorem load_binds_character (env : Env) (level_res_url : String) (w : World)
    (level_res : LevelRes) (hreg : w.level.m_gobjects = [])
    (hchar : w.level.m_current_active_character = none)
    (hfetch : env.loadAsset level_res_url = some level_res) :
    (Level.load env level_res_url w).1 = true ∧
      (Level.load env level_res_url w).2.level.m_is_loaded = true ∧
      ((Level.load env level_res_url w).2.level.m_current_active_character.isSome = true ↔
        ∃ go_id o, (go_id, some o) ∈ (Level.load env level_res_url w).2.level.m_gobjects ∧
          o.m_name = level_res.m_character_name) ∧
      (∀ c, (Level.load env level_res_url w).2.level.m_current_active_character = some c →
        ∃ go_id o, c.m_character_object = some o ∧
          (go_id, some o) ∈ (Level.load env level_res_url w).2.level.m_gobjects ∧
          o.m_name = level_res.m_character_name) ∧
      (level_res.m_objects = [] →
        (Level.load env level_res_url w).2.level.m_current_active_character = none) ∧
      (∀ d, level_res.m_objects = [d] → d.m_name = "Hero" →
        level_res.m_character_name = "Hero" →
        (∀ go_id o, (go_id, some o) ∈ (Level.load env level_res_url w).2.level.m_gobjects →
          o.m_id = go_id ∧ o.m_name = "Hero" ∧
          (Level.load env level_res_url w).2.level.m_current_active_character =
            some { m_character_object := some o }) ∧
        (env.gobjectLoad d = true →
          ∃ o, (Level.load env level_res_url w).2.level.m_gobjects = [(o.m_id, some o)])) := by
  have hc0 : (Level.loadCreated env level_res_url level_res w).level.m_current_active_character
      = none := by
    unfold Level.loadCreated
    rw [createObjects_character]
    exact hchar
  have hspec := loadCharacterLoop_spec level_res.m_character_name
    (Level.loadCreated env level_res_url level_res w).level.m_gobjects none
  rw [load_of_fetch env level_res_url w level_res hfetch]
  simp only [hc0]
  refine ⟨trivial, trivial, ?_, ?_, ?_, ?_⟩
  · constructor
    · intro hsome
      by_contra hno
      rw [hspec.2 hno] at hsome
      simp at hsome
    · intro hex
      obtain ⟨_, _, _, _, e⟩ := hspec.1 hex
      rw [e]; rfl
  · intro c hc
    by_cases hex : ∃ go_id o,
        (go_id, some o) ∈ (Level.loadCreated env level_res_url level_res w).level.m_gobjects ∧
          o.m_name = level_res.m_character_name
    · obtain ⟨go_id, o, hmem, hname, e⟩ := hspec.1 hex
      rw [e] at hc
      have : c = { m_character_object := some o } := (Option.some.inj hc).symm
      subst this
      exact ⟨go_id, o, rfl, hmem, hname⟩
    · rw [hspec.2 hex] at hc
      simp at hc
  · intro hnil
    have : (Level.loadCreated env level_res_url level_res w).level.m_gobjects = [] := by
      unfold Level.loadCreated
      rw [hnil]
      exact hreg
    rw [this]
    rfl
  · intro d hd hname hcn
    cases hload : env.gobjectLoad d with
    | false =>
      have hcreated : (Level.loadCreated env level_res_url level_res w).level.m_gobjects = [] := by
        unfold Level.loadCreated
        rw [hd]
        simp only [Level.createObjects]
        rw [createObject_of_fail env d _ hload]
        exact hreg
      rw [hcreated]
      refine ⟨?_, fun h => Bool.noConfusion h⟩
      intro go_id o hmem
      simp at hmem
    | true =>
      have hcreated : (Level.loadCreated env level_res_url level_res w).level.m_gobjects =
          [(w.rt.m_next_id, some (createdObject env w.rt.m_next_id d))] := by
        unfold Level.loadCreated
        rw [hd]
        simp only [Level.createObjects]
        rw [createObject_of_load env d _ hload (by
          show LevelObjectsMap.find w.level.m_gobjects _ = none
          rw [hreg]; rfl)]
        show w.level.m_gobjects ++ _ = _
        rw [hreg]
        rfl
      have hname' : (createdObject env w.rt.m_next_id d).m_name = "Hero" := hname
      rw [hcreated]
      refine ⟨?_, fun _ => ⟨createdObject env w.rt.m_next_id d, rfl⟩⟩
      intro go_id o hmem
      simp only [List.mem_singleton, Prod.mk.injEq, Option.some.injEq] at hmem
      obtain ⟨rfl, rfl⟩ := hmem
      refine ⟨rfl, hname', ?_⟩
      rw [hcn]
      simp only [Level.loadCharacterLoop]
      rw [hname']
      simp

theorem load_binds_character_witness :
    (sampleWorld.level.m_gobjects = [] ∧ sampleWorld.level.m_current_active_character = none ∧
      sampleEnv.loadAsset "asset/level/hero.level.json" = some heroLevelRes) ∧
    (heroLoad.1 = true ∧
      heroLoad.2.level.m_is_loaded = true ∧
      (heroLoad.2.level.m_current_active_character.isSome = true ↔
        ∃ go_id o, (go_id, some o) ∈ heroLoad.2.level.m_gobjects ∧
          o.m_name = heroLevelRes.m_character_name) ∧
      (∀ c, heroLoad.2.level.m_current_active_character = some c →
        ∃ go_id o, c.m_character_object = some o ∧
          (go_id, some o) ∈ heroLoad.2.level.m_gobjects ∧
          o.m_name = heroLevelRes.m_character_name) ∧
      (heroLevelRes.m_objects = [] → heroLoad.2.level.m_current_active_character = none) ∧
      (∀ d, heroLevelRes.m_objects = [d] → d.m_name = "Hero" →
        heroLevelRes.m_character_name = "Hero" →
        (∀ go_id o, (go_id, some o) ∈ heroLoad.2.level.m_gobjects →
          o.m_id = go_id ∧ o.m_name = "Hero" ∧
          heroLoad.2.level.m_current_active_character =
            some { m_character_object := some o }) ∧
        (sampleEnv.gobjectLoad d = true →
          ∃ o, heroLoad.2.level.m_gobjects = [(o.m_id, some o)]))) :=
  ⟨⟨rfl, rfl, by decide⟩,
    load_binds_character sampleEnv "asset/level/hero.level.json" sampleWorld heroLevelRes
      rfl rfl (by decide)⟩

/-- C7 (as the code behaves): after a successful `load` followed by `unload` the registry is
empty and the active-character binding is cleared, but the loaded flag is still `true`
(`unload` never resets it).  A subsequent `tick` therefore does not return at the guard; it
runs and updates no object, no active character and no physics scene. -/
theorem unload_after_load (env : Env) (level_res_url : String) (w : World)
    (level_res : LevelRes) (hfetch : env.loadAsset level_res_url = some level_res) :
    (Level.load env level_res_url w).1 = true ∧
      (Level.unload (Level.load env level_res_url w).2).level.m_is_loaded = true ∧
      (Level.unload (Level.load env level_res_url w).2).level.m_gobjects = [] ∧
      (Level.unload (Level.load env level_res_url w).2).level.m_current_active_character =
        none ∧
      Level.tick env (Level.unload (Level.load env level_res_url w).2) =
        { returned_at_guard := false, ticked_objects := [], ticked_character := false,
          ticked_physics := false } := by
  obtain ⟨h1, h2⟩ := load_flags env level_res_url w level_res hfetch
  obtain ⟨t1, t2, t3, t4⟩ := tick_unload env (Level.load env level_res_url w).2
  refine ⟨h1, by rw [t1, h2], t2, t3, ?_⟩
  rw [t4, h2]
  rfl

theorem unload_after_load_witness :
    sampleEnv.loadAsset "asset/level/hero.level.json" = some heroLevelRes ∧
    (heroLoad.1 = true ∧
      (Level.unload heroLoad.2).level.m_is_loaded = true ∧
      (Level.unload heroLoad.2).level.m_gobjects = [] ∧
      (Level.unload heroLoad.2).level.m_current_active_character = none ∧
      Level.tick sampleEnv (Level.unload heroLoad.2) =
        { returned_at_guard := false, ticked_objects := [], ticked_character := false,
          ticked_physics := false }) :=
  ⟨by decide,
    unload_after_load sampleEnv "asset/level/hero.level.json" sampleWorld heroLevelRes
      (by decide)⟩

/-- C7, counterexample to the claim as stated: after the sample `load` succeeds and `unload`
runs, the loaded flag is not `false` and `tick` does not return at its guard. -/
theorem unload_keeps_loaded_flag :
    heroLoad.1 = true ∧
    (Level.unload heroLoad.2).level.m_is_loaded ≠ false ∧
    (Level.tick sampleEnv (Level.unload heroLoad.2)).returned_at_guard ≠ true := by
  have hfetch : sampleEnv.loadAsset "asset/level/hero.level.json" = some heroLevelRes := by
    decide
  obtain ⟨h1, h2⟩ := load_flags sampleEnv "asset/level/hero.level.json" sampleWorld
    heroLevelRes hfetch
  obtain ⟨t1, _, _, t4⟩ := tick_unload sampleEnv heroLoad.2
  refine ⟨h1, ?_, ?_⟩
  · rw [t1]
    show (Level.load sampleEnv "asset/level/hero.level.json" sampleWorld).2.level.m_is_loaded
      ≠ false
    rw [h2]
    decide
  · rw [t4]
    show (!(Level.load sampleEnv "asset/level/hero.level.json"
      sampleWorld).2.level.m_is_loaded) ≠ true
    rw [h2]
    decide

/-- C8 (as the code behaves): for a level loaded on an empty registry from a description `D`
all of whose objects initialise, the description `save` hands to the asset collaborator
carries exactly `D`'s object descriptors (up to order), but the gravity and the empty character
name of a default-constructed description, not `D`'s; its result is the collaborator's.
Loading the saved description on an empty registry recreates objects that save to `D`'s
descriptors again. -/
theorem save_after_load (env : Env) (level_res_url : String) (w : World) (D : LevelRes)
    (hreg : w.level.m_gobjects = []) (hfetch : env.loadAsset level_res_url = some D)
    (hall : ∀ d ∈ D.m_objects, env.gobjectLoad d = true) :
    List.Perm (Level.save env (Level.load env level_res_url w).2).2.m_objects D.m_objects ∧
      (Level.save env (Level.load env level_res_url w).2).2.m_gravity = env.defaultGravity ∧
      (Level.save env (Level.load env level_res_url w).2).2.m_character_name = "" ∧
      (Level.save env (Level.load env level_res_url w).2).1 =
        env.saveAsset (Level.save env (Level.load env level_res_url w).2).2 level_res_url ∧
      (∀ (env2 : Env) (url2 : String) (w2 : World), w2.level.m_gobjects = [] →
        env2.loadAsset url2 = some (Level.save env (Level.load env level_res_url w).2).2 →
        (∀ d ∈ D.m_objects, env2.gobjectLoad d = true) →
        List.Perm (savedObjects (Level.load env2 url2 w2).2.level.m_gobjects) D.m_objects) := by
  have hobj : (Level.save env (Level.load env level_res_url w).2).2.m_objects = D.m_objects := by
    rw [save_objects, load_registry_all env level_res_url w D hreg hfetch hall,
      savedObjects_createdEntries, length_createdEntries]
    simp
  have hurl : (Level.load env level_res_url w).2.level.m_level_res_url = level_res_url := by
    rw [load_of_fetch env level_res_url w D hfetch]
    show (Level.loadCreated env level_res_url D w).level.m_level_res_url = _
    unfold Level.loadCreated
    rw [createObjects_all env _ _ ?_ hall]
    · rfl
    · intro p hp
      have : p ∈ w.level.m_gobjects := hp
      rw [hreg] at this
      simp at this
  refine ⟨by rw [hobj], rfl, rfl, ?_, ?_⟩
  · show env.saveAsset _ _ = _
    rw [hurl]
    rfl
  · intro env2 url2 w2 hreg2 hfetch2 hall2
    rw [load_registry_all env2 url2 w2 _ hreg2 hfetch2 (by rw [hobj]; exact hall2),
      savedObjects_createdEntries, hobj]

theorem save_after_load_witness :
    (sampleWorld.level.m_gobjects = [] ∧
      sampleEnv.loadAsset "asset/level/hero.level.json" = some heroLevelRes ∧
      (∀ d ∈ heroLevelRes.m_objects, sampleEnv.gobjectLoad d = true)) ∧
    (List.Perm (Level.save sampleEnv heroLoad.2).2.m_objects heroLevelRes.m_objects ∧
      (Level.save sampleEnv heroLoad.2).2.m_gravity = sampleEnv.defaultGravity ∧
      (Level.save sampleEnv heroLoad.2).2.m_character_name = "" ∧
      (Level.save sampleEnv heroLoad.2).1 =
        sampleEnv.saveAsset (Level.save sampleEnv heroLoad.2).2 "asset/level/hero.level.json" ∧
      (∀ (env2 : Env) (url2 : String) (w2 : World), w2.level.m_gobjects = [] →
        env2.loadAsset url2 = some (Level.save sampleEnv heroLoad.2).2 →
        (∀ d ∈ heroLevelRes.m_objects, env2.gobjectLoad d = true) →
        List.Perm (savedObjects (Level.load env2 url2 w2).2.level.m_gobjects)
          heroLevelRes.m_objects)) :=
  ⟨⟨rfl, by decide, fun _ _ => rfl⟩,
    save_after_load sampleEnv "asset/level/hero.level.json" sampleWorld heroLevelRes rfl
      (by decide) (fun _ _ => rfl)⟩

/-- C8, counterexample to the claim as stated: the level loaded from the sample description
(character name "Hero", every object initialising) saves a description whose character name
is not the one it was loaded with. -/
theorem save_drops_character_name :
    sampleEnv.loadAsset "asset/level/hero.level.json" = some heroLevelRes ∧
    (∀ d ∈ heroLevelRes.m_objects, sampleEnv.gobjectLoad d = true) ∧
    (Level.save sampleEnv heroLoad.2).2.m_character_name ≠ heroLevelRes.m_character_name := by
  refine ⟨by decide, fun _ _ => rfl, ?_⟩
  show ("" : String) ≠ "Hero"
  decide

/-! ## Maze claims -/

/-- C1: for every sequence of values returned by the random source, after the carving loops of
`generateMaze` (rows = 8, cols = 5) the graph on the 40 cells whose edges are the open doors is
connected and has exactly `rows * cols - 1 = 39` edges: a spanning tree of the grid.  (Edges
are counted once per pair of adjacent cells, at the east and south flags; the flags are
symmetric, so this counts every open door.) -/
theorem carve_spanning_tree (rand : Nat → Nat) :
    MazeConnected (carve rand).grid.mazeDoors ∧
      (openEdges (carve rand).grid.mazeDoors).card = rows * cols - 1 ∧
      rows * cols - 1 = 39 ∧
      DoorsSymmetric (carve rand).grid.mazeDoors := by
  have h := (carve_done rand).1
  exact ⟨h.connected, h.edge_count, rfl, h.doorsSymmetric⟩

/-- C9: for every sequence of random choices the door flags are symmetric at the end of carving
and before and after every execution of the loop body: each flag equals the flag of the
neighbour in direction `(k + 2) mod 4` when that neighbour lies in the grid, and no flag that
points out of the grid is set.  The trace covers all `rows * cols` body executions and is the
chain of grids that leads from the initialised arrays to the final ones. -/
theorem carve_doors_symmetric (rand : Nat → Nat) :
    DoorsSymmetric (carve rand).grid.mazeDoors ∧
      (carve rand).trace.length = rows * cols ∧
      TraceLinked (carve rand) ∧
      (∀ st ∈ (carve rand).trace,
        DoorsSymmetric st.before.mazeDoors ∧ DoorsSymmetric st.after.mazeDoors) ∧
      (∀ k, opposite k = (k + 2) % 4) := by
  obtain ⟨hg, _, htr, hlink⟩ := carve_done rand
  refine ⟨hg.doorsSymmetric, htr.1, hlink, ?_, fun _ => rfl⟩
  intro st hst
  obtain ⟨n, _, hn⟩ := htr.stepOK_of_mem hst
  obtain ⟨p, hp⟩ := hn.inv_after
  exact ⟨hn.2.2.1.doorsSymmetric, hp.doorsSymmetric⟩

/-- C10: wall completeness.  For every sequence of random choices, with every wall
initialising on a fresh identity, the emission pass registers one object per emitted wall
number and nothing else; no wall number is emitted twice; the wall of the north (west) side of
a cell is emitted exactly once when that side is a closed door or the grid boundary and not at
all when it is an open door; the east boundary wall of every cell of the last column and the
south boundary wall of every cell of the last row are emitted exactly once; and every emitted
wall is one of these. -/
theorem wall_completeness (env : Env) (rand : Nat → Nat) (w : World)
    (hall : ∀ n, env.gobjectLoad (wallRes n) = true) (hfresh : KeysBelow w) :
    (Level.emitWalls env (carve rand).grid.mazeDoors w).level.m_gobjects =
      w.level.m_gobjects ++
        createdEntries env w.rt.m_next_id ((emittedWallNums (carve rand).grid.mazeDoors).map wallRes) ∧
    (emittedWallNums (carve rand).grid.mazeDoors).Nodup ∧
    DoorsSymmetric (carve rand).grid.mazeDoors ∧
    (∀ i j, i < rows → j < cols →
      ((emittedWallNums (carve rand).grid.mazeDoors).count (i * (2 * cols + 1) + j) =
        if 0 < i ∧ (carve rand).grid.mazeDoors i j 0 = true then 0 else 1) ∧
      ((emittedWallNums (carve rand).grid.mazeDoors).count (i * (2 * cols + 1) + j + cols) =
        if 0 < j ∧ (carve rand).grid.mazeDoors i j 3 = true then 0 else 1) ∧
      (j = cols - 1 →
        (emittedWallNums (carve rand).grid.mazeDoors).count (i * (2 * cols + 1) + j + cols + 1) = 1) ∧
      (i = rows - 1 →
        (emittedWallNums (carve rand).grid.mazeDoors).count (i * (2 * cols + 1) + j + 2 * cols + 1) = 1)) ∧
    (∀ n ∈ emittedWallNums (carve rand).grid.mazeDoors, ∃ i j, i < rows ∧ j < cols ∧
      ((n = i * (2 * cols + 1) + j ∧ (carve rand).grid.mazeDoors i j 0 = false) ∨
       (n = i * (2 * cols + 1) + j + cols ∧ (carve rand).grid.mazeDoors i j 3 = false) ∨
       (n = i * (2 * cols + 1) + j + cols + 1 ∧ j = cols - 1) ∨
       (n = i * (2 * cols + 1) + j + 2 * cols + 1 ∧ i = rows - 1))) := by
  have hsym := (carve_done rand).1.doorsSymmetric
  refine ⟨emitWalls_registry env _ w hall hfresh, ?_, hsym, ?_, ?_⟩
  · rw [emittedWallNums_eq]
    exact nodup_wallList _
  · intro i j hi hj
    rw [emittedWallNums_eq]
    exact wallList_count _ hsym i j hi hj
  · intro n hn
    rw [emittedWallNums_eq, mem_wallList] at hn
    obtain ⟨i, j, hi, hj, hm⟩ := hn
    exact ⟨i, j, hi, hj, (mem_wallsOfCell ..).mp hm⟩

theorem wall_completeness_witness :
    ((∀ n, sampleEnv.gobjectLoad (wallRes n) = true) ∧ KeysBelow boundWorld) ∧
    ((Level.emitWalls sampleEnv (carve zeroRand).grid.mazeDoors boundWorld).level.m_gobjects =
      boundWorld.level.m_gobjects ++
        createdEntries sampleEnv boundWorld.rt.m_next_id
          ((emittedWallNums (carve zeroRand).grid.mazeDoors).map wallRes) ∧
    (emittedWallNums (carve zeroRand).grid.mazeDoors).Nodup ∧
    DoorsSymmetric (carve zeroRand).grid.mazeDoors ∧
    (∀ i j, i < rows → j < cols →
      ((emittedWallNums (carve zeroRand).grid.mazeDoors).count (i * (2 * cols + 1) + j) =
        if 0 < i ∧ (carve zeroRand).grid.mazeDoors i j 0 = true then 0 else 1) ∧
      ((emittedWallNums (carve zeroRand).grid.mazeDoors).count
          (i * (2 * cols + 1) + j + cols) =
        if 0 < j ∧ (carve zeroRand).grid.mazeDoors i j 3 = true then 0 else 1) ∧
      (j = cols - 1 →
        (emittedWallNums (carve zeroRand).grid.mazeDoors).count
          (i * (2 * cols + 1) + j + cols + 1) = 1) ∧
      (i = rows - 1 →
        (emittedWallNums (carve zeroRand).grid.mazeDoors).count
          (i * (2 * cols + 1) + j + 2 * cols + 1) = 1)) ∧
    (∀ n ∈ emittedWallNums (carve zeroRand).grid.mazeDoors, ∃ i j, i < rows ∧ j < cols ∧
      ((n = i * (2 * cols + 1) + j ∧ (carve zeroRand).grid.mazeDoors i j 0 = false) ∨
       (n = i * (2 * cols + 1) + j + cols ∧ (carve zeroRand).grid.mazeDoors i j 3 = false) ∨
       (n = i * (2 * cols + 1) + j + cols + 1 ∧ j = cols - 1) ∨
       (n = i * (2 * cols + 1) + j + 2 * cols + 1 ∧ i = rows - 1)))) :=
  ⟨⟨fun _ => rfl, keysBelow_boundWorld⟩,
    wall_completeness sampleEnv zeroRand boundWorld (fun _ => rfl) keysBelow_boundWorld⟩

/-! ## Wall index and placement claims -/

/-- C11: every wall index the emission pass computes lies in `0 .. rows*(2*cols+1)+cols-1`
(`0 .. 92`), and the indexing is injective: different (cell, side) pairs among north and west
of a cell, east boundary of the last column and south boundary of the last row get different
indices.  Every emitted wall number is the index of such a pair, so the names `"Wall_<n>"` of
the walls of one maze are pairwise different, and so are the names of the objects created from
them. -/
theorem wall_index_injective :
    (∀ side i j, WallSlot side i j → wallNumOf side i j < rows * (2 * cols + 1) + cols) ∧
    rows * (2 * cols + 1) + cols - 1 = 92 ∧
    (∀ side i j side' i' j', WallSlot side i j → WallSlot side' i' j' →
      wallNumOf side i j = wallNumOf side' i' j' → side = side' ∧ i = i' ∧ j = j') ∧
    (∀ mazeDoors n, n ∈ emittedWallNums mazeDoors →
      ∃ side i j, WallSlot side i j ∧ n = wallNumOf side i j) ∧
    (∀ mazeDoors, ((emittedWallNums mazeDoors).map (fun n => (wallRes n).m_name)).Nodup) ∧
    (∀ env object_id mazeDoors,
      (registryNames (createdEntries env object_id
        ((emittedWallNums mazeDoors).map wallRes))).Nodup) := by
  have hrange : ∀ side i j, WallSlot side i j →
      wallNumOf side i j < rows * (2 * cols + 1) + cols := by
    intro side i j h
    obtain ⟨hi, hj, hs⟩ := h
    cases side <;> simp only [wallNumOf, rows_eq, cols_eq] at * <;> omega
  have hslot : ∀ mazeDoors n, n ∈ emittedWallNums mazeDoors →
      ∃ side i j, WallSlot side i j ∧ n = wallNumOf side i j := by
    intro d n hn
    rw [emittedWallNums_eq, mem_wallList] at hn
    obtain ⟨i, j, hi, hj, hm⟩ := hn
    rcases (mem_wallsOfCell ..).mp hm with ⟨h, _⟩ | ⟨h, _⟩ | ⟨h, h2⟩ | ⟨h, h2⟩
    · exact ⟨WallSide.north, i, j, ⟨hi, hj, trivial⟩, h⟩
    · exact ⟨WallSide.west, i, j, ⟨hi, hj, trivial⟩, h⟩
    · exact ⟨WallSide.eastBoundary, i, j, ⟨hi, hj, h2⟩, h⟩
    · exact ⟨WallSide.southBoundary, i, j, ⟨hi, hj, h2⟩, h⟩
  have hnames : ∀ mazeDoors,
      ((emittedWallNums mazeDoors).map (fun n => (wallRes n).m_name)).Nodup := by
    intro d
    refine List.Nodup.map_on ?_ (by rw [emittedWallNums_eq]; exact nodup_wallList d)
    intro a ha b hb hab
    obtain ⟨s1, i1, j1, h1, rfl⟩ := hslot d a ha
    obtain ⟨s2, i2, j2, h2, rfl⟩ := hslot d b hb
    exact wallName_inj (hrange _ _ _ h1) (hrange _ _ _ h2) hab
  refine ⟨hrange, rfl, ?_, hslot, hnames, ?_⟩
  · intro side i j side' i' j' h h' heq
    obtain ⟨hi, hj, hs⟩ := h
    obtain ⟨hi', hj', hs'⟩ := h'
    cases side <;> cases side' <;> dsimp only at hs hs' <;>
      simp only [wallNumOf, rows_eq, cols_eq] at hi hj hs hi' hj' hs' heq <;>
      first
        | (refine ⟨rfl, ?_, ?_⟩ <;> omega)
        | (exfalso; omega)
  · intro env object_id d
    rw [registryNames_createdEntries, List.map_map]
    exact hnames d

/-- C12: for every wall index `n` (in particular `0 .. 92`), decoding it as the placement pass
does (row `n / (2*cols+1)`, remainder `n mod (2*cols+1)`, horizontal with that column when the
remainder is below `cols`, otherwise vertical with column remainder minus `cols`) and encoding
the result with the emission formulas gives `n` back. -/
theorem decode_encode_wall (n : Nat) :
    encodeWall (decodeWall n).1 (decodeWall n).2.1 (decodeWall n).2.2 = (n : Int) ∧
    (decodeWall n).1 = ((n / (2 * cols + 1) : Nat) : Int) ∧
    ((decodeWall n).2.2 = false ↔ n % (2 * cols + 1) < cols) ∧
    (n % (2 * cols + 1) < cols →
      (decodeWall n).2.1 = ((n % (2 * cols + 1) : Nat) : Int)) ∧
    (¬ n % (2 * cols + 1) < cols →
      (decodeWall n).2.1 = ((n % (2 * cols + 1) : Nat) : Int) - (cols : Int)) ∧
    (∀ i j : Nat,
      encodeWall (i : Int) (j : Int) false = ((wallNumOf WallSide.north i j : Nat) : Int) ∧
      encodeWall (i : Int) (j : Int) true = ((wallNumOf WallSide.west i j : Nat) : Int)) := by
  rw [decodeWall_eq]
  simp only [cols_eq]
  refine ⟨?_, ?_, ?_, ?_, ?_, ?_⟩
  · by_cases h : n % 11 < 5
    · simp only [h, if_true, encodeWall, cols_eq]
      simp only [Bool.false_eq_true, if_false]
      omega
    · simp only [h, if_false, encodeWall, cols_eq, if_true]
      omega
  · by_cases h : n % 11 < 5 <;> simp [h]
  · by_cases h : n % 11 < 5 <;> simp [h]
  · intro h
    have h' : n % 11 < 5 := h
    simp [h']
  · intro h
    have h' : ¬ n % 11 < 5 := h
    simp [h']
  · intro i j
    simp only [encodeWall, wallNumOf, cols_eq]
    constructor
    · simp only [Bool.false_eq_true, if_false]; push_cast; ring
    · simp only [if_true]; push_cast; ring

/-- C15 (as the code behaves): over the wall indices `0 .. 92` the wall coordinates on the
column axis y range over `-25 .. 25`, symmetric about 0, while on the row axis x they range
over `-45 .. 35`, symmetric about `-5` (the origin is the centre of cell `(4, 2)`, not the
centre of the grid); all bounds are attained, in exact integer arithmetic. -/
theorem wall_extent :
    (∀ n o, n < rows * (2 * cols + 1) + cols →
      -45 ≤ (placeWall n o).m_position.x ∧ (placeWall n o).m_position.x ≤ 35 ∧
      -25 ≤ (placeWall n o).m_position.y ∧ (placeWall n o).m_position.y ≤ 25 ∧
      (placeWall n o).m_position.z = 0) ∧
    (∀ o, (placeWall 0 o).m_position.x = -45 ∧ (placeWall 88 o).m_position.x = 35 ∧
      (placeWall 5 o).m_position.y = -25 ∧ (placeWall 10 o).m_position.y = 25) := by
  constructor
  · intro n o hn
    have hn' : n < 93 := hn
    rw [placeWall_eq]
    by_cases h : n % 11 < 5
    · simp only [h, if_true]
      refine ⟨?_, ?_, ?_, ?_, trivial⟩ <;> omega
    · simp only [h, if_false]
      refine ⟨?_, ?_, ?_, ?_, trivial⟩ <;> omega
  · intro o
    simp only [placeWall_eq]
    norm_num

set_option maxRecDepth 100000 in
/-- C15, counterexample to the claim as stated: over the wall indices `0 .. 92` the smallest
x coordinate is `-45` and the largest is `35`, which are not negatives of each other (the y
coordinates do range from `-25` to `25`). -/
theorem wall_x_extent_not_symmetric :
    wallXs.min? = some (-45) ∧ wallXs.max? = some 35 ∧
    wallYs.min? = some (-25) ∧ wallYs.max? = some 25 ∧
    (-45 : Int) ≠ -35 := by
  refine ⟨?_, ?_, ?_, ?_, by decide⟩ <;> decide

/-- C18: with cell centres at `(x0 + 10*r, y0 + 10*c)` for the fixed offsets `x0 = -40`,
`y0 = -20`, the placement pass puts the north wall of `(r, c)` at centre `- (5, 0)`, the west
wall at centre `- (0, 5)`, the east-boundary wall of a cell of the last column at centre
`+ (0, 5)` and the south-boundary wall of a cell of the last row at centre `+ (5, 0)`, in exact
integer arithmetic; the rotation by 90 degrees is written exactly for the indices whose
remainder modulo `2*cols+1` is at least `cols`, i.e. for west and east-boundary walls and for
no north or south-boundary wall.  The placement loop applies this transform to the object
named after the wall index. -/
theorem wall_on_edge_midpoint :
    ∃ x0 y0 : Int,
      (∀ r c o, r < rows → c < cols →
        (placeWall (wallNumOf WallSide.north r c) o).m_position =
          ⟨x0 + 10 * r - 5, y0 + 10 * c, 0⟩ ∧
        (placeWall (wallNumOf WallSide.north r c) o).m_rotation = Quaternion.identity ∧
        (placeWall (wallNumOf WallSide.west r c) o).m_position =
          ⟨x0 + 10 * r, y0 + 10 * c - 5, 0⟩ ∧
        (placeWall (wallNumOf WallSide.west r c) o).m_rotation = Quaternion.angleAxisZ90 ∧
        (c = cols - 1 →
          (placeWall (wallNumOf WallSide.eastBoundary r c) o).m_position =
            ⟨x0 + 10 * r, y0 + 10 * c + 5, 0⟩ ∧
          (placeWall (wallNumOf WallSide.eastBoundary r c) o).m_rotation =
            Quaternion.angleAxisZ90) ∧
        (r = rows - 1 →
          (placeWall (wallNumOf WallSide.southBoundary r c) o).m_position =
            ⟨x0 + 10 * r + 5, y0 + 10 * c, 0⟩ ∧
          (placeWall (wallNumOf WallSide.southBoundary r c) o).m_rotation =
            Quaternion.identity)) ∧
      (∀ n o, ((placeWall n o).m_rotation = Quaternion.angleAxisZ90 ↔
          cols ≤ n % (2 * cols + 1)) ∧
        ((placeWall n o).m_rotation = Quaternion.identity ↔ n % (2 * cols + 1) < cols)) ∧
      (∀ n o, n < rows * (2 * cols + 1) + cols → o.m_name = "Wall_" ++ toString n →
        placedObject o = placeWall n o) := by
  refine ⟨-40, -20, ?_, ?_, fun n o hn hname => placedObject_wall n o hn hname⟩
  · intro r c o hr hc
    have hc' : c < 5 := hc
    have en : wallNumOf WallSide.north r c = r * 11 + c := rfl
    have ew : wallNumOf WallSide.west r c = r * 11 + c + 5 := rfl
    rw [en, ew, placeWall_horizontal r c hc' o, placeWall_vertical r c (by omega) o]
    refine ⟨?_, rfl, ?_, rfl, ?_, ?_⟩
    · simp only [Vector3.mk.injEq]
      refine ⟨?_, ?_, trivial⟩ <;> omega
    · simp only [Vector3.mk.injEq]
      refine ⟨?_, ?_, trivial⟩ <;> omega
    · intro hlast
      have hc4 : c = 4 := hlast
      subst hc4
      have ee : wallNumOf WallSide.eastBoundary r 4 = r * 11 + 5 + 5 := rfl
      rw [ee, placeWall_vertical r 5 (by omega) o]
      refine ⟨?_, rfl⟩
      simp only [Vector3.mk.injEq]
      refine ⟨?_, ?_, trivial⟩ <;> omega
    · intro hlast
      have hr7 : r = 7 := hlast
      subst hr7
      have es : wallNumOf WallSide.southBoundary 7 c = 8 * 11 + c := by
        simp only [wallNumOf, cols_eq]
        omega
      rw [es, placeWall_horizontal 8 c hc' o]
      refine ⟨?_, rfl⟩
      simp only [Vector3.mk.injEq]
      refine ⟨?_, ?_, trivial⟩ <;> omega
  · intro n o
    have hne : Quaternion.identity ≠ Quaternion.angleAxisZ90 := by decide
    have hm : n % (2 * cols + 1) = n % 11 := rfl
    have hc : cols = 5 := rfl
    rw [placeWall_eq, hm, hc]
    by_cases h : n % 11 < 5
    · rw [if_pos h]
      exact ⟨⟨fun h' => absurd h' hne, fun h' => absurd h (by omega)⟩, ⟨fun _ => h, fun _ => rfl⟩⟩
    · rw [if_neg h]
      exact ⟨⟨fun _ => by omega, fun _ => rfl⟩, ⟨fun h' => absurd h'.symm hne, fun h' => absurd h' h⟩⟩

/-! ## Carving order and region labels -/

/-- C16: for every sequence of random choices the bodies of the carving loop are executed for
the cells `(n / cols, n % cols)`, `n = 0 .. rows*cols - 1`, in this order, so every cell of the
grid occurs exactly once (the list of processed cells has no repetition and holds every
cell); every cell but the last has a candidate direction when it is
reached and opens a door towards one of them; the `break` (no door opened) is taken exactly at
the last execution, at cell `(rows-1, cols-1)`, with no candidate; `std::rand()` is called
`rows*cols - 1` times. -/
theorem carve_row_major_once (rand : Nat → Nat) :
    (carve rand).trace.map (fun st => (st.i, st.j)) =
      (List.range (rows * cols)).map (fun n => (n / cols, n % cols)) ∧
    ((carve rand).trace.map (fun st => (st.i, st.j))).Nodup ∧
    (∀ c, InGrid c → c ∈ (carve rand).trace.map (fun st => (st.i, st.j))) ∧
    (∀ n st, (carve rand).trace[n]? = some st →
      st.candidateDoorDir = candidateDoors st.before.mazeTypes st.i st.j ∧
      (n < rows * cols - 1 →
        st.candidateDoorDir ≠ [] ∧ ∃ k, st.openDoorDir = some k ∧ k ∈ st.candidateDoorDir) ∧
      (st.openDoorDir = none ↔ n = rows * cols - 1) ∧
      (st.openDoorDir = none →
        (st.i, st.j) = (rows - 1, cols - 1) ∧ st.candidateDoorDir = [] ∧ st.after = st.before)) ∧
    (carve rand).randCalls = rows * cols - 1 := by
  obtain ⟨_, hr, ht, _⟩ := carve_done rand
  have hcells := ht.cells
  refine ⟨hcells, ?_, ?_, ?_, hr⟩
  · rw [hcells]
    exact rowMajor_nodup
  · intro c hc
    rw [hcells]
    exact mem_rowMajor c hc
  · intro n st hst
    obtain ⟨hi, hj, _, hcand, h | h⟩ := ht.2 n st hst
    · obtain ⟨hn, k, q, hk, hmem, _⟩ := h
      refine ⟨hcand, fun _ => ⟨List.ne_nil_of_mem hmem, k, hk, hmem⟩, ?_, ?_⟩
      · rw [hk]
        exact ⟨fun h' => absurd h' (by simp), fun h' => absurd h' (Nat.ne_of_lt hn)⟩
      · rw [hk]
        intro h'
        exact absurd h' (by simp)
    · obtain ⟨hn, hnil, hnone, hafter⟩ := h
      refine ⟨hcand, fun h' => absurd hn (Nat.ne_of_lt h'), ⟨fun _ => hn, fun _ => hnone⟩, ?_⟩
      intro _
      refine ⟨?_, hnil, hafter⟩
      rw [hi, hj, hn]
      rfl

/-- C17: for every sequence of random choices and every number `n` of executed carving
steps (`gridAfter rand n`: the initialised arrays for `n = 0`, the final arrays from
`n = rows*cols` on), two cells of the grid carry the same label in `mazeTypes` if and only if a
path of open doors joins them; every executed step that opens a door starts from the arrays
after `n` steps, leaves the arrays after `n + 1` steps, and opens the door between two cells
that no path joined before; and after every number of steps every open door is a bridge and
the open-door graph has no cycle. -/
theorem labels_identify_clusters (rand : Nat → Nat) :
    gridAfter rand 0 = initMaze ∧
    (∀ n, rows * cols ≤ n → gridAfter rand n = (carve rand).grid) ∧
    (∀ n a b, InGrid a → InGrid b →
      ((gridAfter rand n).mazeTypes a.1 a.2 = (gridAfter rand n).mazeTypes b.1 b.2 ↔
        Reach (gridAfter rand n).mazeDoors a b)) ∧
    (∀ n st, (carve rand).trace[n]? = some st →
      st.before = gridAfter rand n ∧ st.after = gridAfter rand (n + 1) ∧
      ∀ k, st.openDoorDir = some k →
        ∃ q, neighbor (st.i, st.j) k = some q ∧
          ¬ Reach st.before.mazeDoors (st.i, st.j) q ∧
          ¬ Reach st.before.mazeDoors q (st.i, st.j) ∧
          DoorStep st.after.mazeDoors (st.i, st.j) q ∧
          DoorStep st.after.mazeDoors q (st.i, st.j)) ∧
    (∀ n, DoorsForest (gridAfter rand n).mazeDoors ∧
      DoorsAcyclic (gridAfter rand n).mazeDoors) := by
  refine ⟨?_, gridAfter_final rand, ?_, ?_, ?_⟩
  · unfold gridAfter
    rw [List.take_zero]
    rfl
  · intro n a b ha hb
    obtain ⟨_, p, inv⟩ := gridAfter_spec rand n
    exact ⟨inv.label_reach a b ha hb, inv.reach_label⟩
  · intro n st hst
    obtain ⟨hbefore, hafter⟩ := gridAfter_before_after rand n st hst
    refine ⟨hbefore, hafter, ?_⟩
    intro k hk
    obtain ⟨_, _, ht, _⟩ := carve_done rand
    have hlen : n < rows * cols := by
      rw [← ht.1]
      exact (List.getElem?_eq_some_iff.1 hst).1
    obtain ⟨hi, hj, inv, hcand, h | h⟩ := ht.2 n st hst
    · obtain ⟨_, k', q, hk', hmem, hq, hcarved, _⟩ := h
      rw [hk] at hk'
      have e : k = k' := Option.some.inj hk'
      subst e
      rw [hcand] at hmem
      obtain ⟨q', hq', hne⟩ := (mem_candidateDoors _ _ _ _).mp hmem
      rw [hq] at hq'
      have e : q' = q := (Option.some.inj hq').symm
      rw [e] at hne
      have hc : InGrid (st.i, st.j) := by
        rw [hi, hj]
        simp only [InGrid, rows_eq, cols_eq] at hlen ⊢
        omega
      refine ⟨q, hq, fun hr => hne (inv.reach_label hr), fun hr => hne (inv.reach_label hr).symm,
        ?_, ?_⟩
      · rw [hcarved]
        exact ⟨hc, k, neighbor_lt_four hq, (carved_doors ..).mpr (Or.inl ⟨rfl, rfl, rfl⟩), hq⟩
      · rw [hcarved]
        exact ⟨neighbor_inGrid hc hq, opposite k, opposite_lt_four k,
          (carved_doors ..).mpr (Or.inr (Or.inl ⟨rfl, rfl, rfl⟩)), neighbor_back hc hq⟩
    · obtain ⟨_, _, hnone, _⟩ := h
      rw [hk] at hnone
      exact absurd hnone (by simp)
  · intro n
    obtain ⟨hf, _⟩ := gridAfter_spec rand n
    exact ⟨hf, hf.acyclic⟩

/-! ## `generateMaze` on the registry -/

/-- C13: in every state reached from an empty level (with any allocator position) by a sequence
of `load`, `createObject`, `deleteGObjectByID`, `unload` and `generateMaze` calls, if the
active-character binding wraps an object then the registry maps that object's identity to that
same object (`find` and `getGObjectByID` return it); the registry holds every object under its
own identity and no key twice. -/
theorem binding_in_registry (env : Env) (rt : Runtime) (ops : List LevelOp) :
    (∀ object : GObject,
      (runOps env ops { level := Level.fresh, rt := rt }).level.activeObject = some object →
      LevelObjectsMap.find (runOps env ops { level := Level.fresh, rt := rt }).level.m_gobjects
        object.m_id = some (some object) ∧
      Level.getGObjectByID (runOps env ops { level := Level.fresh, rt := rt }).level
        object.m_id = some object) ∧
    RegistryOK (runOps env ops { level := Level.fresh, rt := rt }).level.m_gobjects := by
  obtain ⟨h1, h2⟩ := runOps_invariants env ops { level := Level.fresh, rt := rt }
    RegistryOK.nil bindingOK_fresh
  refine ⟨fun object hobj => ?_, h1⟩
  have hfind := h2 object hobj
  refine ⟨hfind, ?_⟩
  unfold Level.getGObjectByID
  rw [hfind]

/-- C14: for every initial world whose registry keys were handed out by the allocator and every
sequence of random choices, when the ground, the player and every wall initialise: the deletion
loop of `generateMaze` ends with an empty registry; no key of the registry at entry is a key
afterwards; the registry afterwards holds no null entry and exactly the objects created by this
run, named "Ground", "Player" and then "Wall_n" for the emitted wall numbers `n`; the names
"Ground" and "Player" occur once each; and the keys afterwards were again handed out by the
allocator, so the same holds for a run started from the registry this run leaves. -/
theorem generateMaze_rebuilds_registry (env : Env) (rand : Nat → Nat) (w : World)
    (hG : env.gobjectLoad Ground = true) (hP : env.gobjectLoad Player = true)
    (hW : ∀ n, env.gobjectLoad (wallRes n) = true) (hfresh : KeysBelow w) :
    (Level.mazeCleared env w).level.m_gobjects = [] ∧
    (Level.generateMaze env rand w).level.m_gobjects =
      (createdEntries env w.rt.m_next_id
        (Ground :: Player :: (emittedWallNums (carve rand).grid.mazeDoors).map wallRes)).map
        placedEntry ∧
    (∀ p ∈ w.level.m_gobjects, ∀ p' ∈ (Level.generateMaze env rand w).level.m_gobjects,
      p'.1 ≠ p.1) ∧
    (∀ p ∈ (Level.generateMaze env rand w).level.m_gobjects, ∃ o : GObject,
      p = (o.m_id, some o)) ∧
    registryNames (Level.generateMaze env rand w).level.m_gobjects =
      "Ground" :: "Player" ::
        (emittedWallNums (carve rand).grid.mazeDoors).map
          (fun n : Nat => "Wall_" ++ toString n) ∧
    (registryNames (Level.generateMaze env rand w).level.m_gobjects).count "Ground" = 1 ∧
    (registryNames (Level.generateMaze env rand w).level.m_gobjects).count "Player" = 1 ∧
    KeysBelow (Level.generateMaze env rand w) := by
  have hall := mazeFinish_all env (emittedWallNums (carve rand).grid.mazeDoors) w hG hP hW
  have hok := mazeFinish_registryOK env (emittedWallNums (carve rand).grid.mazeDoors) w
  have hnext := mazeFinish_next_id env (emittedWallNums (carve rand).grid.mazeDoors) w
  rw [← generateMaze_eq] at hall hok hnext
  have hnames : registryNames (Level.generateMaze env rand w).level.m_gobjects =
      "Ground" :: "Player" ::
        (emittedWallNums (carve rand).grid.mazeDoors).map
          (fun n : Nat => "Wall_" ++ toString n) := by
    rw [hall, registryNames_placed, registryNames_createdEntries]
    simp only [List.map_cons, List.map_map]
    rfl
  refine ⟨(mazeCleared_spec env w).1, hall, ?_, hok.1, hnames, ?_, ?_, ?_⟩
  · intro p hp p' hp'
    rw [hall] at hp'
    obtain ⟨p0, hp0, e⟩ := List.mem_map.1 hp'
    have hb := (createdEntries_key_bounds env _ _ p0 hp0).1
    have hlt := hfresh p hp
    rw [← e, placedEntry_fst]
    unfold GObjectID at *
    omega
  · rw [hnames, List.count_cons_self, List.count_cons_of_ne (by decide),
      wallNames_count _ _ ground_ne_wallName]
  · rw [hnames, List.count_cons_of_ne (by decide), List.count_cons_self,
      wallNames_count _ _ player_ne_wallName]
  · intro p hp
    rw [hall] at hp
    obtain ⟨p0, hp0, e⟩ := List.mem_map.1 hp
    have hb := (createdEntries_key_bounds env _ _ p0 hp0).2
    simp only [List.length_cons, List.length_map] at hb
    rw [← e, placedEntry_fst, hnext]
    unfold GObjectID at *
    omega

theorem generateMaze_rebuilds_registry_witness :
    (sampleEnv.gobjectLoad Ground = true ∧ sampleEnv.gobjectLoad Player = true ∧
      (∀ n, sampleEnv.gobjectLoad (wallRes n) = true) ∧ KeysBelow boundWorld) ∧
    ((Level.mazeCleared sampleEnv boundWorld).level.m_gobjects = [] ∧
    (Level.generateMaze sampleEnv zeroRand boundWorld).level.m_gobjects =
      (createdEntries sampleEnv boundWorld.rt.m_next_id
        (Ground :: Player :: (emittedWallNums (carve zeroRand).grid.mazeDoors).map wallRes)).map
        placedEntry ∧
    (∀ p ∈ boundWorld.level.m_gobjects,
      ∀ p' ∈ (Level.generateMaze sampleEnv zeroRand boundWorld).level.m_gobjects, p'.1 ≠ p.1) ∧
    (∀ p ∈ (Level.generateMaze sampleEnv zeroRand boundWorld).level.m_gobjects, ∃ o : GObject,
      p = (o.m_id, some o)) ∧
    registryNames (Level.generateMaze sampleEnv zeroRand boundWorld).level.m_gobjects =
      "Ground" :: "Player" ::
        (emittedWallNums (carve zeroRand).grid.mazeDoors).map
          (fun n : Nat => "Wall_" ++ toString n) ∧
    (registryNames (Level.generateMaze sampleEnv zeroRand boundWorld).level.m_gobjects).count
      "Ground" = 1 ∧
    (registryNames (Level.generateMaze sampleEnv zeroRand boundWorld).level.m_gobjects).count
      "Player" = 1 ∧
    KeysBelow (Level.generateMaze sampleEnv zeroRand boundWorld)) :=
  ⟨⟨rfl, rfl, fun _ => rfl, keysBelow_boundWorld⟩,
    generateMaze_rebuilds_registry sampleEnv zeroRand boundWorld rfl rfl (fun _ => rfl)
      keysBelow_boundWorld⟩

/-- C19: for every initial world and every sequence of random choices, if the player object
initialises then after `generateMaze` the active character wraps the object created by the call
`createObject(Player)` of this run: its identity is the one that call returned, the registry
maps that identity to it, and its name is "Player", which is neither "Ground" nor a wall
name. -/
theorem generateMaze_binds_player (env : Env) (rand : Nat → Nat) (w : World)
    (hP : env.gobjectLoad Player = true) :
    Level.generateMaze env rand w =
      Level.mazeFinish
        (Level.createObjects env ((emittedWallNums (carve rand).grid.mazeDoors).map wallRes)
          (Level.mazePlayer env w).2) ∧
    ∃ player : GObject,
      (Level.generateMaze env rand w).level.m_current_active_character =
        some { m_character_object := some player } ∧
      (Level.generateMaze env rand w).level.activeObject = some player ∧
      player = createdObject env (Level.mazePlayer env w).1 Player ∧
      player.m_id = (Level.mazePlayer env w).1 ∧
      LevelObjectsMap.find (Level.generateMaze env rand w).level.m_gobjects
        (Level.mazePlayer env w).1 = some (some player) ∧
      Level.getGObjectByID (Level.generateMaze env rand w).level (Level.mazePlayer env w).1 =
        some player ∧
      player.m_name = "Player" ∧ player.m_name ≠ "Ground" ∧
      ∀ n : Nat, player.m_name ≠ "Wall_" ++ toString n := by
  refine ⟨generateMaze_eq env rand w, ?_⟩
  have h := mazeFinish_player env (emittedWallNums (carve rand).grid.mazeDoors) w hP
  have hok := mazeFinish_registryOK env (emittedWallNums (carve rand).grid.mazeDoors) w
  rw [← generateMaze_eq] at h hok
  obtain ⟨hc, hmem⟩ := h
  have hid := (mazePlayer_of_load env w hP).1
  have hfind := hok.find_of_mem hmem
  have hfind' : LevelObjectsMap.find (Level.generateMaze env rand w).level.m_gobjects
      (w.rt.m_next_id + 1) =
      some (some (createdObject env (w.rt.m_next_id + 1) Player)) := hfind
  have hground : ("Player" : String) ≠ "Ground" := by decide
  refine ⟨createdObject env (w.rt.m_next_id + 1) Player, hc, ?_, ?_, ?_, ?_, ?_, rfl,
    hground, fun n => player_ne_wallName n⟩
  · unfold Level.activeObject
    rw [hc]
  · rw [hid]
  · rw [hid]
    rfl
  · rw [hid]
    exact hfind'
  · unfold Level.getGObjectByID
    rw [hid, hfind']

theorem generateMaze_binds_player_witness :
    sampleEnv.gobjectLoad Player = true ∧
    (Level.generateMaze sampleEnv zeroRand boundWorld =
      Level.mazeFinish
        (Level.createObjects sampleEnv
          ((emittedWallNums (carve zeroRand).grid.mazeDoors).map wallRes)
          (Level.mazePlayer sampleEnv boundWorld).2) ∧
    ∃ player : GObject,
      (Level.generateMaze sampleEnv zeroRand boundWorld).level.m_current_active_character =
        some { m_character_object := some player } ∧
      (Level.generateMaze sampleEnv zeroRand boundWorld).level.activeObject = some player ∧
      player = createdObject sampleEnv (Level.mazePlayer sampleEnv boundWorld).1 Player ∧
      player.m_id = (Level.mazePlayer sampleEnv boundWorld).1 ∧
      LevelObjectsMap.find (Level.generateMaze sampleEnv zeroRand boundWorld).level.m_gobjects
        (Level.mazePlayer sampleEnv boundWorld).1 = some (some player) ∧
      Level.getGObjectByID (Level.generateMaze sampleEnv zeroRand boundWorld).level
        (Level.mazePlayer sampleEnv boundWorld).1 = some player ∧
      player.m_name = "Player" ∧ player.m_name ≠ "Ground" ∧
      ∀ n : Nat, player.m_name ≠ "Wall_" ++ toString n) :=
  ⟨rfl, generateMaze_binds_player sampleEnv zeroRand boundWorld rfl⟩

/-- C20: for every sequence of random choices the carved grid has `rows*cols - 1 = 39` open
doors, the grid has `rows*(2*cols+1)+cols = 93` unit edges, and the emission pass issues
exactly `54 = 93 - 39` wall creations; when the ground, the player and every wall initialise,
the registry holds exactly 56 objects after `generateMaze`, whatever the world at entry. -/
theorem wall_count_constant (rand : Nat → Nat) :
    (openEdges (carve rand).grid.mazeDoors).card = 39 ∧
    rows * (2 * cols + 1) + cols = 93 ∧
    (emittedWallNums (carve rand).grid.mazeDoors).length = 54 ∧
    (emittedWallNums (carve rand).grid.mazeDoors).length +
      (openEdges (carve rand).grid.mazeDoors).card = rows * (2 * cols + 1) + cols ∧
    (∀ (env : Env) (w : World), env.gobjectLoad Ground = true →
      env.gobjectLoad Player = true → (∀ n, env.gobjectLoad (wallRes n) = true) →
      (Level.generateMaze env rand w).level.m_gobjects.length = 56 ∧
      (registryNames (Level.generateMaze env rand w).level.m_gobjects).length = 56) := by
  obtain ⟨inv, _, _, _⟩ := carve_done rand
  have hlen := emittedWallNums_length rand
  have hcard : (openEdges (carve rand).grid.mazeDoors).card = 39 := inv.edge_count
  refine ⟨hcard, rfl, hlen, ?_, ?_⟩
  · rw [hlen, hcard]
    rfl
  · intro env w hG hP hW
    have hall := mazeFinish_all env (emittedWallNums (carve rand).grid.mazeDoors) w hG hP hW
    rw [← generateMaze_eq] at hall
    rw [hall, registryNames_placed, registryNames_createdEntries, List.length_map,
      length_createdEntries, List.length_map, List.length_cons, List.length_cons,
      List.length_map, hlen]
    exact ⟨rfl, rfl⟩

end Piccolo
